import Mathlib

/-!
# Content repository and process session of nifi-minifi-cpp

A shallow embedding of the flow-file content core: the stream callbacks of
`libminifi/test/unit/ContentRepositoryDependentTests.h` and
`libminifi/test/WriteToFlowFileTestProcessor.cpp` are translated from the
sources; the content repository, the flow-file record and the process session,
whose sources are not part of the sampled tree, are modelled from the
specification (each such definition says so in its doc comment).

Also translated from the sources: the processor of
`libminifi/test/WriteToFlowFileTestProcessor.cpp`, the enabling, stopping and
thread function of
`libminifi/src/controllers/keyvalue/AbstractAutoPersistingKeyValueStoreService.cpp`,
and the hexadecimal and base64 coding of `libminifi/src/utils/StringUtils.cpp`
(over the lookup tables of its header, which are parameters).
-/

namespace Minifi

/-- One octet of flow-file content (`uint8_t`). -/
abbrev Byte := UInt8

/-- The bytes of a string literal, as `std::string(...).begin() .. end()` yields them
(the literals used in the tests are ASCII). -/
def bytesOf (s : String) : List Byte :=
  s.toList.map (fun c => UInt8.ofNat c.toNat)

/-! ## Machine integers -/

/-- `size_t` is 64 bits wide. -/
def SIZE_MAX : Nat := 2 ^ 64 - 1

/-- `INT64_MAX`. -/
def INT64_MAX : Nat := 2 ^ 63 - 1

/-- `gsl::narrow<int64_t>(x)` for a `size_t` value `x`: the value when it is representable,
`none` when `gsl::narrowing_error` is thrown. -/
def narrowInt64 (x : Nat) : Option Int :=
  if x ≤ INT64_MAX then some (Int.ofNat x) else none

/-- The implicit conversion `size_t -> int64_t` of `return bytes_read;`
(two's complement reinterpretation of a 64-bit value). -/
def sizeToInt64 (x : Nat) : Int :=
  if x % 2 ^ 64 ≤ INT64_MAX then Int.ofNat (x % 2 ^ 64) else Int.ofNat (x % 2 ^ 64) - 2 ^ 64

/-! ## The stream interface used by the callbacks -/

/-- The part of `minifi::io` the callbacks call, over a stream state `σ`.
`io::BaseStream` and `io::isError` are declared in headers outside the sampled sources,
so the callbacks take them as a parameter:
* `write st buf len` is `stream->write(buf, len)` (both the `std::vector` and the pointer
  overload): the `size_t` result and the stream after;
* `read st buffer len` is `stream->read(buffer, len)` for a `std::vector<uint8_t>& buffer`: the
  `size_t` result, the contents the vector is left with, and the stream after;
* `isError r` is `minifi::io::isError(r)`. -/
structure StreamApi (σ : Type) where
  write : σ → List Byte → Nat → Nat × σ
  read : σ → List Byte → Nat → Nat × List Byte × σ
  isError : Nat → Bool

namespace ContentRepositoryDependentTests

/-- The method `WriteStringToFlowFile::process` (ContentRepositoryDependentTests.h:39-42):
one `stream->write(buffer_, buffer_.size())`; `-1` when the result is an error, else the
result narrowed to `int64_t` (`none` when the narrowing throws). -/
def WriteStringToFlowFile.process {σ : Type} (api : StreamApi σ) (buffer_ : List Byte)
    (stream : σ) : Option Int × σ :=
  let r := api.write stream buffer_ buffer_.length
  let bytes_written := r.1
  (if api.isError bytes_written then some (-1) else narrowInt64 bytes_written, r.2)

/-- The `while (true)` loop of `ReadUntilItCan::process` (ContentRepositoryDependentTests.h:52-60)
over the locals `buffer` and `bytes_read` and the member `value_`; `fuel` bounds the number of
iterations, `none` means the bound was reached. The result is the returned `int64_t`, the member
`value_` and the stream after. -/
def ReadUntilItCan.loop {σ : Type} (api : StreamApi σ) :
    Nat → σ → List Byte → Nat → List Byte → Option (Int × List Byte × σ)
  | 0, _, _, _, _ => none
  | fuel + 1, stream, buffer, bytes_read, value_ =>
    let r := api.read stream buffer 1024
    let read_result := r.1
    let buffer := r.2.1
    if api.isError read_result then some (-1, value_, r.2.2)
    else if read_result = 0 then some (sizeToInt64 bytes_read, value_, r.2.2)
    else ReadUntilItCan.loop api fuel r.2.2 buffer ((bytes_read + read_result) % 2 ^ 64)
      (value_ ++ buffer)

/-- The method `ReadUntilItCan::process` (ContentRepositoryDependentTests.h:48-61):
`value_.clear()`, an empty `buffer`, `bytes_read = 0`, then the loop. The argument `value_` is
the member before the call. -/
def ReadUntilItCan.process {σ : Type} (api : StreamApi σ) (fuel : Nat) (_value_ : List Byte)
    (stream : σ) : Option (Int × List Byte × σ) :=
  ReadUntilItCan.loop api fuel stream [] 0 []

end ContentRepositoryDependentTests

/-- The method `WriteToFlowFileCallback::process` (WriteToFlowFileTestProcessor.cpp:44-47):
one `stream->write(content_.begin(), content_.size())`; `-1` on error, else the result
narrowed to `int64_t`. -/
def WriteToFlowFileCallback.process {σ : Type} (api : StreamApi σ) (content_ : List Byte)
    (stream : σ) : Option Int × σ :=
  let r := api.write stream content_ content_.length
  let bytes_written := r.1
  (if api.isError bytes_written then some (-1) else narrowInt64 bytes_written, r.2)

/-! ## Stream adapters bound to content (specification 4.5) -/

/-- Modelled from the spec: the stream adapter of 4.5 (the class behind `io::BaseStream` is not
in the sampled sources). As a source it is bound to the window bytes `data` and keeps the read
position `pos`; as a sink `data` is what has been written through it so far. -/
structure ContentStream where
  data : List Byte
  pos : Nat
  deriving DecidableEq, Repr

/-- Modelled from the spec: the error sentinel of a `size_t` stream result, `size_t(-1)`
("a negative sentinel on error", 4.5). -/
def STREAM_ERROR : Nat := SIZE_MAX

/-- Modelled from the spec: `ContentStream` write, "writes are appended to the sink" (4.5).
As for a `std::vector` argument, asking for more bytes than the buffer holds is an error. -/
def ContentStream.write (st : ContentStream) (buf : List Byte) (len : Nat) : Nat × ContentStream :=
  if buf.length < len then (STREAM_ERROR, st)
  else (len, { st with data := st.data ++ buf.take len })

/-- Modelled from the spec: `ContentStream` read, a non-seekable source over the window:
it hands out the next `min len remaining` bytes, the buffer is left holding exactly those
bytes (what it held before is gone), and "read returns 0 exactly at end-of-window" (4.5). -/
def ContentStream.read (st : ContentStream) (_buffer : List Byte) (len : Nat) :
    Nat × List Byte × ContentStream :=
  let chunk := (st.data.drop st.pos).take len
  (chunk.length, chunk, { st with pos := st.pos + chunk.length })

/-- Modelled from the spec: the stream interface of the content-bound adapters. -/
def contentApi : StreamApi ContentStream where
  write := ContentStream.write
  read := ContentStream.read
  isError := fun r => r == STREAM_ERROR

/-- Modelled from the spec: the sink handed to an output callback, nothing written yet. -/
def ContentStream.sink : ContentStream := { data := [], pos := 0 }

/-- Modelled from the spec: the source handed to an input callback, over the window bytes. -/
def ContentStream.source (window : List Byte) : ContentStream := { data := window, pos := 0 }

/-! ## Content store and content repository (specification 4.1, 4.2, 4.3) -/

/-- Modelled from the spec: the error taxonomy of 7 (`StreamIo` and `StorageIo` are the spec's
StreamIO and StorageIO). -/
inductive Error where
  | NotFound
  | OutOfRange
  | StreamIo
  | StorageIo
  | StorageFull
  | UnknownRelationship
  | InvalidState
  | Backpressure
  | CommitFailed
  deriving DecidableEq, Repr

/-- Point update of a table indexed by ids. -/
def upd {α : Type} (f : Nat → α) (k : Nat) (v : α) : Nat → α :=
  fun x => if x = k then v else f x

/-- Modelled from the spec: the in-memory content store backend of 4.1, "map from id to byte
vector; immediate reclaim on remove" (the backends are not in the sampled sources). A content
id, "opaque, globally unique, stable" (3), is a number, issued in increasing order.
`blobs id = none` is an unknown id. The quota, durability and IO failures of the other
backends are not modelled. -/
structure ContentStore where
  blobs : Nat → Option (List Byte)
  next_id : Nat

/-- Modelled from the spec: `open_write() -> (content_id, writer)` of 4.1, a new id with
empty content. -/
def ContentStore.open_write (b : ContentStore) : Nat × ContentStore :=
  (b.next_id, { blobs := upd b.blobs b.next_id (some []), next_id := b.next_id + 1 })

/-- Modelled from the spec: what an append-only writer of 4.1 does on the id when it is
handed `bytes`; an unknown id stays unknown. -/
def ContentStore.append (b : ContentStore) (id : Nat) (bytes : List Byte) : ContentStore :=
  match b.blobs id with
  | none => b
  | some old => { b with blobs := upd b.blobs id (some (old ++ bytes)) }

/-- Modelled from the spec: `remove(content_id)` of 4.1, immediate reclaim. -/
def ContentStore.remove (b : ContentStore) (id : Nat) : ContentStore :=
  { b with blobs := upd b.blobs id none }

/-- Modelled from the spec: `ResourceClaim` of 3 and 4.3, an owning handle to one content
id; "equality is by content_id". -/
structure ResourceClaim where
  content_id : Nat
  deriving DecidableEq, Repr

/-- Modelled from the spec: `ContentRepository` of 4.2: one backend and the table
`refcount : map<content_id, u64>` (a natural number here: 2^64 handles cannot be alive).
`live` lists the claim handles that have been constructed and not yet destroyed. -/
structure ContentRepository where
  backend : ContentStore
  refcount : Nat → Nat
  live : List ResourceClaim

/-- Modelled from the spec: the repository before any claim was issued. -/
def ContentRepository.empty : ContentRepository :=
  { backend := { blobs := fun _ => none, next_id := 0 }, refcount := fun _ => 0, live := [] }

/-- Modelled from the spec: `create_claim() -> ResourceClaim` of 4.2: "opens a writer, returns
a handle whose content_id is registered with count 1". -/
def ContentRepository.create_claim (r : ContentRepository) : ResourceClaim × ContentRepository :=
  let w := r.backend.open_write
  (⟨w.1⟩, { backend := w.2, refcount := upd r.refcount w.1 1, live := ⟨w.1⟩ :: r.live })

/-- Modelled from the spec: `clone_claim(id) -> ResourceClaim` of 4.2: "increments count; no
data copy". -/
def ContentRepository.clone_claim (r : ContentRepository) (id : Nat) :
    ResourceClaim × ContentRepository :=
  (⟨id⟩, { r with refcount := upd r.refcount id (r.refcount id + 1), live := ⟨id⟩ :: r.live })

/-- Modelled from the spec: `release(id)` of 4.2, called once by the destruction of a claim
handle: "decrement; when count reaches zero, schedules backend.remove(id)" (reclaimed at once
by the in-memory backend). Only live handles are destroyed, so the count is positive when
`release` is called; on an id without reference the count stays 0. -/
def ContentRepository.release (r : ContentRepository) (id : Nat) : ContentRepository :=
  let n := r.refcount id - 1
  { backend := if n = 0 then r.backend.remove id else r.backend
    refcount := upd r.refcount id n
    live := r.live.erase ⟨id⟩ }

/-- Modelled from the spec: the claim handles of a list are destroyed one after the other, each
destruction calling `release` once (4.3). -/
def ContentRepository.releaseAll (r : ContentRepository) (cs : List ResourceClaim) :
    ContentRepository :=
  cs.foldl (fun acc c => acc.release c.content_id) r

/-- Modelled from the spec: the content view of 3, the bytes `[offset, offset+size)` of
`content`, with the bounds check of 4.2. -/
def window (content : List Byte) (offset size : Nat) : Except Error (List Byte) :=
  if offset + size ≤ content.length then .ok ((content.drop offset).take size)
  else .error Error.OutOfRange

/-- Modelled from the spec: `reader(id, offset, length)` of 4.2: "pass-through to C1 with
bounds checks"; an unknown id is `NotFound`. -/
def ContentRepository.reader (r : ContentRepository) (id : Nat) (offset length : Nat) :
    Except Error (List Byte) :=
  match r.backend.blobs id with
  | none => .error Error.NotFound
  | some content => window content offset length

/-- Modelled from the spec: closing a `writer(id)` of 4.2 that was handed `bytes`. -/
def ContentRepository.write (r : ContentRepository) (id : Nat) (bytes : List Byte) :
    ContentRepository :=
  { r with backend := r.backend.append id bytes }

/-- Number of live claim handles referencing the content id `c`. -/
def ContentRepository.liveClaims (r : ContentRepository) (c : Nat) : Nat :=
  r.live.count ⟨c⟩

/-- Modelled from the spec: one operation of the content repository: a claim is created, a live
claim is cloned, a live claim is destroyed, or the writer of a live claim appends bytes. -/
inductive RepoStep : ContentRepository → ContentRepository → Prop
  | create (r : ContentRepository) : RepoStep r r.create_claim.2
  | clone (r : ContentRepository) (c : ResourceClaim) (h : c ∈ r.live) :
      RepoStep r (r.clone_claim c.content_id).2
  | release (r : ContentRepository) (c : ResourceClaim) (h : c ∈ r.live) :
      RepoStep r (r.release c.content_id)
  | write (r : ContentRepository) (c : ResourceClaim) (h : c ∈ r.live) (bytes : List Byte) :
      RepoStep r (r.write c.content_id bytes)

/-- The states of the content repository that its operations can produce. -/
inductive RepoReachable : ContentRepository → Prop
  | init : RepoReachable ContentRepository.empty
  | step {r r' : ContentRepository} : RepoReachable r → RepoStep r r' → RepoReachable r'

/-! ## Flow files and the process session (specification 3, 4.4, 4.6) -/

/-- Modelled from the spec: class `core::Relationship` (declared outside the sampled sources) as
the tests construct it: a name and a description; two relationships denote the same outcome
when their names agree. -/
structure Relationship where
  name : String
  description : String
  deriving DecidableEq, Repr

/-- Modelled from the spec: the `FlowFile` record of 3 (the class is not in the sampled
sources): uuid (a number), attributes, the current claim if any, the window `offset`/`size`
into the claim's bytes, and the lineage. The timestamps of the record play no part here and
are left out. -/
structure FlowFile where
  uuid : Nat
  attributes : List (String × String)
  claim : Option ResourceClaim
  offset : Nat
  size : Nat
  lineage : List Nat
  deriving DecidableEq, Repr

/-- Modelled from the spec: `clone(offset_delta, length) -> FlowFile` of 4.4, the record part:
"new uuid, same claim, window adjusted; lineage gains parent's uuid", with "offset =
parent.offset + o, size = n" (3) and an independent copy of the attributes. -/
def FlowFile.clone (p : FlowFile) (uuid offset_delta length : Nat) : FlowFile :=
  { uuid := uuid, attributes := p.attributes, claim := p.claim,
    offset := p.offset + offset_delta, size := length, lineage := p.lineage ++ [p.uuid] }

/-- Modelled from the spec: an `OutputStreamCallback` of 4.5 as the session sees it: it
"receives a byte sink and returns total bytes written, or a negative sentinel on error";
`none` is an exception escaping the callback. -/
abbrev OutputStreamCallback := ContentStream → Option Int × ContentStream

/-- Modelled from the spec: the process session of 4.6 together with the agent state it works
on (the class `core::ProcessSession` is not in the sampled sources).
* `repo`: the content repository; `files`: the flow-file records as this session sees them;
  `base`: the records as they were when the session began (what rollback returns to);
* `queues`: the outcome queues, entries in arrival order;
* `created`, `updated`, `cloned`, `transferred`, `deleted`: the session snapshot of 3, and
  `added` the flow files handed to the session by `add`;
* `provisional`: the claim handles constructed during the session; `dropped`: the handles that
  flow files of the session gave up, to be released by commit;
* `writer`: the content id of the session's own most recent writer, while it is open;
* `append_in_place`: the configuration key `session.append_in_place` of 6. -/
structure ProcessSession where
  repo : ContentRepository
  files : List FlowFile
  base : List FlowFile
  next_uuid : Nat
  relationships : List Relationship
  queues : List (String × Nat)
  created : List Nat
  updated : List Nat
  cloned : List Nat
  added : List Nat
  transferred : List (Nat × Relationship)
  deleted : List Nat
  provisional : List ResourceClaim
  dropped : List ResourceClaim
  writer : Option Nat
  append_in_place : Bool

namespace ProcessSession

/-- Modelled from the spec: a session over an empty agent for a stage with the given
relationships. -/
def start (relationships : List Relationship) (append_in_place : Bool) : ProcessSession :=
  { repo := ContentRepository.empty, files := [], base := [], next_uuid := 0,
    relationships := relationships, queues := [], created := [], updated := [], cloned := [],
    added := [], transferred := [], deleted := [], provisional := [], dropped := [],
    writer := none, append_in_place := append_in_place }

/-- Modelled from the spec: the record of the flow file `u`, if the session knows it. -/
def find (s : ProcessSession) (u : Nat) : Option FlowFile :=
  s.files.find? (fun f => f.uuid == u)

/-- The record with the uuid of `ff` (the first one) is replaced by `ff`. -/
def replaceFile : List FlowFile → FlowFile → List FlowFile
  | [], _ => []
  | f :: fs, ff => if f.uuid = ff.uuid then ff :: fs else f :: replaceFile fs ff

/-- The claim handles held by the records of a list. -/
def handles (fs : List FlowFile) : List ResourceClaim :=
  fs.filterMap (fun f => f.claim)

/-- Modelled from the spec: `create()` of 4.6: "new flow file, no content". -/
def create (s : ProcessSession) : Nat × ProcessSession :=
  let ff : FlowFile :=
    { uuid := s.next_uuid, attributes := [], claim := none, offset := 0, size := 0, lineage := [] }
  (s.next_uuid, { s with files := s.files ++ [ff], next_uuid := s.next_uuid + 1,
                         created := s.next_uuid :: s.created })

/-- Modelled from the spec: `create(parent)` of 4.6: "new flow file with lineage(parent) and
cloned attributes; no content". -/
def createFrom (s : ProcessSession) (parent : Nat) : Except Error (Nat × ProcessSession) :=
  match s.find parent with
  | none => .error Error.InvalidState
  | some p =>
    let ff : FlowFile :=
      { uuid := s.next_uuid, attributes := p.attributes, claim := none, offset := 0, size := 0,
        lineage := p.lineage ++ [p.uuid] }
    .ok (s.next_uuid, { s with files := s.files ++ [ff], next_uuid := s.next_uuid + 1,
                               created := s.next_uuid :: s.created })

/-- Modelled from the spec: `clone(ff, offset, size)` of 4.6: "OutOfRange if window exceeds
parent size"; otherwise a new flow file by `FlowFile.clone` of 4.4, its claim obtained "via
clone_claim". -/
def clone (s : ProcessSession) (parent : Nat) (offset size : Nat) :
    Except Error (Nat × ProcessSession) :=
  match s.find parent with
  | none => .error Error.InvalidState
  | some p =>
    if offset + size > p.size then .error Error.OutOfRange
    else
      let repo1 := match p.claim with
        | none => s.repo
        | some c => (s.repo.clone_claim c.content_id).2
      .ok (s.next_uuid, { s with repo := repo1,
                                 files := s.files ++ [p.clone s.next_uuid offset size],
                                 next_uuid := s.next_uuid + 1,
                                 cloned := s.next_uuid :: s.cloned,
                                 provisional := p.claim.toList ++ s.provisional })

/-- Modelled from the spec: `clone(ff)` of 4.6: "same content, new uuid", the clone over the
whole window. -/
def cloneWhole (s : ProcessSession) (parent : Nat) : Except Error (Nat × ProcessSession) :=
  match s.find parent with
  | none => .error Error.InvalidState
  | some p => s.clone parent 0 p.size

/-- Modelled from the spec: the copy-on-write step of 3 and 4.6: the flow file `ff` "replaces
one claim with another": a fresh claim is created, `bytes` are written to it, and the record
refers to it with the window `[0, |bytes|)` (the record invariant `offset + size ≤
physical_length` of 3, for a claim that holds exactly these bytes). The new claim is
provisional and its writer is the session's most recent one; the claim given up is kept until
commit, so that rollback can return to it. -/
def materialize (s : ProcessSession) (ff : FlowFile) (bytes : List Byte) : ProcessSession :=
  let cr := s.repo.create_claim
  { s with repo := cr.2.write cr.1.content_id bytes,
           files := replaceFile s.files
             { ff with claim := some cr.1, offset := 0, size := bytes.length },
           updated := ff.uuid :: s.updated,
           provisional := cr.1 :: s.provisional,
           dropped := ff.claim.toList ++ s.dropped,
           writer := some cr.1.content_id }

/-- Modelled from the spec: `write(ff, cb)` of 4.6: "replaces ff.claim with a fresh one
containing the callback's bytes; updates size". The sink "is bound to a fresh claim created by
the session" (4.5). A negative result or an exception of the callback is `StreamIo`, and the
session is unchanged. -/
def write (s : ProcessSession) (u : Nat) (cb : OutputStreamCallback) :
    Except Error ProcessSession :=
  match s.find u with
  | none => .error Error.InvalidState
  | some ff =>
    match cb ContentStream.sink with
    | (none, _) => .error Error.StreamIo
    | (some ret, out) =>
      if ret < 0 then .error Error.StreamIo
      else .ok (s.materialize ff out.data)

/-- Modelled from the spec: the window bytes of a record, through `reader` of 4.2; a record
without a claim has the empty content. -/
def content (s : ProcessSession) (ff : FlowFile) : Except Error (List Byte) :=
  match ff.claim with
  | none => window [] ff.offset ff.size
  | some c => s.repo.reader c.content_id ff.offset ff.size

/-- Modelled from the spec: the test of the append semantics of 4.6: the flow file's claim "is
the session's own most recent writer" and no second reference to it exists (8, boundary
cases: the append-in-place boundary is "when a second reference appears"); the optimization
can be switched off by `session.append_in_place`. -/
def appendSafe (s : ProcessSession) (ff : FlowFile) : Bool :=
  match ff.claim with
  | none => false
  | some c =>
    s.append_in_place && (s.writer == some c.content_id) && (s.repo.refcount c.content_id == 1)

/-- Modelled from the spec: the in-place append of 4.6: "the session opens the existing writer
again and appends in place"; the window of the flow file grows by the appended bytes. -/
def appendInPlace (s : ProcessSession) (ff : FlowFile) (bytes : List Byte) : ProcessSession :=
  match ff.claim with
  | none => s
  | some c =>
    { s with repo := s.repo.write c.content_id bytes,
             files := replaceFile s.files { ff with size := ff.size + bytes.length },
             updated := ff.uuid :: s.updated }

/-- Modelled from the spec: `append(ff, cb)` of 4.6: "appends callback bytes to the current
claim if append-safe, else materializes a new claim with concatenation": "otherwise the session
creates a new claim, streams the existing content into it (via C5), then streams the
callback". -/
def append (s : ProcessSession) (u : Nat) (cb : OutputStreamCallback) :
    Except Error ProcessSession :=
  match s.find u with
  | none => .error Error.InvalidState
  | some ff =>
    match s.content ff with
    | .error e => .error e
    | .ok existing =>
      match cb ContentStream.sink with
      | (none, _) => .error Error.StreamIo
      | (some ret, out) =>
        if ret < 0 then .error Error.StreamIo
        else if s.appendSafe ff then .ok (s.appendInPlace ff out.data)
        else .ok (s.materialize ff (existing ++ out.data))

/-- Modelled from the spec: the byte source handed to an input callback, "bounded to
[flow_file.offset, flow_file.offset+flow_file.size)" (4.5). -/
def reader (s : ProcessSession) (u : Nat) : Except Error ContentStream :=
  match s.find u with
  | none => .error Error.InvalidState
  | some ff =>
    match s.content ff with
    | .error e => .error e
    | .ok bytes => .ok (ContentStream.source bytes)

/-- Modelled from the spec: `readBuffer(ff)` of 4.6: "returns a byte buffer". -/
def readBuffer (s : ProcessSession) (u : Nat) : Except Error (List Byte) :=
  match s.reader u with
  | .error e => .error e
  | .ok stream => .ok stream.data

/-- Modelled from the spec: `read(ff, cb)` of 4.6: "streams content into cb". The callback
object has the state `κ`; `process cb stream` is its `process(stream)`: `none` when it does
not return, else its `int64_t` result and the object after the call. The outcome is the result
of the session call (a negative callback result is `StreamIo`) and the callback object after
it. -/
def read {κ : Type} (s : ProcessSession) (u : Nat)
    (process : κ → ContentStream → Option (Int × κ)) (cb : κ) : Option (Except Error Int × κ) :=
  match s.reader u with
  | .error e => some (.error e, cb)
  | .ok stream =>
    match process cb stream with
    | none => none
    | some (ret, cb1) => some (if ret < 0 then .error Error.StreamIo else .ok ret, cb1)

/-- Modelled from the spec: a relationship is known to the stage when one with its name was
declared. -/
def knows (s : ProcessSession) (r : Relationship) : Bool :=
  s.relationships.any (fun k => k.name == r.name)

/-- Modelled from the spec: `transfer(ff, relationship)` of 4.6: "routes on commit", error
`UnknownRelationship`. -/
def transfer (s : ProcessSession) (u : Nat) (r : Relationship) : Except Error ProcessSession :=
  match s.find u with
  | none => .error Error.InvalidState
  | some _ =>
    if s.knows r then .ok { s with transferred := s.transferred ++ [(u, r)] }
    else .error Error.UnknownRelationship

/-- Modelled from the spec: `remove(ff)` of 4.6: "drops on commit". -/
def remove (s : ProcessSession) (u : Nat) : Except Error ProcessSession :=
  match s.find u with
  | none => .error Error.InvalidState
  | some _ => .ok { s with deleted := u :: s.deleted }

/-- Modelled from the spec: `add(ff)`, which the operation table of 4.6 does not list and
`Fixture::appendToFlowFile` calls: the flow file is handed to the session, which owns it from
then on. -/
def add (s : ProcessSession) (u : Nat) : Except Error ProcessSession :=
  match s.find u with
  | none => .error Error.InvalidState
  | some _ => .ok { s with added := u :: s.added }

/-- Modelled from the spec: step 1 of the commit protocol of 4.6: "every staged transfer targets
a known relationship; every referenced flow file is owned by this session" (owned: created,
cloned or added in this session; referenced: transferred, updated or deleted by it). -/
def validate (s : ProcessSession) : Bool :=
  s.transferred.all (fun t => s.knows t.2) &&
  (s.transferred.map (fun t => t.1) ++ s.updated ++ s.deleted).all
    (fun u => decide (u ∈ s.created ++ s.cloned ++ s.added))

/-- Modelled from the spec: `rollback()` of 4.6: "every provisional claim released; flow files
returned to their pre-session queues; staged mutations discarded". -/
def rollback (s : ProcessSession) : ProcessSession :=
  { s with repo := s.repo.releaseAll s.provisional, files := s.base,
           created := [], updated := [], cloned := [], added := [], transferred := [],
           deleted := [], provisional := [], dropped := [], writer := none }

/-- Modelled from the spec: `commit()` of 4.6, the single-phase protocol: validate (1);
finalize the writers (2, the session has no open writer afterwards); publish the transferred
flow files to the outcome queues in the order of the `transfer` calls (4); release the claims
given up during the session and those of the removed flow files (5). Every relationship feeds
one queue, so no claim becomes shared by publication (3). A failed validation is
`CommitFailed`, after which the session is as `rollback` leaves it. -/
def commit (s : ProcessSession) : Except Error ProcessSession :=
  if s.validate then
    let kept := s.files.filter (fun f => decide (f.uuid ∉ s.deleted))
    let gone := s.files.filter (fun f => decide (f.uuid ∈ s.deleted))
    .ok { s with repo := s.repo.releaseAll (s.dropped ++ handles gone),
                 files := kept, base := kept,
                 queues := s.queues ++
                   (s.transferred.filter (fun t => decide (t.1 ∉ s.deleted))).map
                     (fun t => (t.2.name, t.1)),
                 created := [], updated := [], cloned := [], added := [], transferred := [],
                 deleted := [], provisional := [], dropped := [], writer := none }
  else .error Error.CommitFailed

/-- Modelled from the spec: `FlowFile::getSize` of the flow file `u`, the `size` of its record. -/
def getSize (s : ProcessSession) (u : Nat) : Option Nat :=
  (s.find u).map (fun f => f.size)

end ProcessSession

/-- The invariant of the repository: the count table agrees with the live handles, ids not yet
issued have no reference, and content is stored exactly for the ids with a reference. -/
structure ContentRepository.Inv (r : ContentRepository) : Prop where
  count : ∀ c, r.refcount c = r.live.count ⟨c⟩
  fresh : ∀ c, r.backend.next_id ≤ c → r.refcount c = 0
  stored : ∀ c, r.backend.blobs c = none ↔ r.refcount c = 0

/-- The session applies `clone(ff, offset, size)` to the same parent once per window of the
list; a clone that fails leaves the session as it was. -/
def ProcessSession.cloneEach (s : ProcessSession) (parent : Nat) :
    List (Nat × Nat) → ProcessSession
  | [] => s
  | w :: ws =>
    match s.clone parent w.1 w.2 with
    | .error _ => ProcessSession.cloneEach s parent ws
    | .ok r => ProcessSession.cloneEach r.2 parent ws

/-- The states of a process session: it starts over an empty agent and goes on by the operations
of 4.6 that succeed (an operation that fails leaves the session as it was; after a failed commit
the session is rolled back). -/
inductive SessionReachable : ProcessSession → Prop
  | start (relationships : List Relationship) (append_in_place : Bool) :
      SessionReachable (ProcessSession.start relationships append_in_place)
  | create {s : ProcessSession} : SessionReachable s → SessionReachable s.create.2
  | createFrom {s s' : ProcessSession} {parent u : Nat} :
      SessionReachable s → s.createFrom parent = .ok (u, s') → SessionReachable s'
  | clone {s s' : ProcessSession} {parent u offset size : Nat} :
      SessionReachable s → s.clone parent offset size = .ok (u, s') → SessionReachable s'
  | write {s s' : ProcessSession} {u : Nat} {cb : OutputStreamCallback} :
      SessionReachable s → s.write u cb = .ok s' → SessionReachable s'
  | append {s s' : ProcessSession} {u : Nat} {cb : OutputStreamCallback} :
      SessionReachable s → s.append u cb = .ok s' → SessionReachable s'
  | transfer {s s' : ProcessSession} {u : Nat} {r : Relationship} :
      SessionReachable s → s.transfer u r = .ok s' → SessionReachable s'
  | remove {s s' : ProcessSession} {u : Nat} :
      SessionReachable s → s.remove u = .ok s' → SessionReachable s'
  | add {s s' : ProcessSession} {u : Nat} :
      SessionReachable s → s.add u = .ok s' → SessionReachable s'
  | commit {s s' : ProcessSession} :
      SessionReachable s → s.commit = .ok s' → SessionReachable s'
  | rollback {s : ProcessSession} : SessionReachable s → SessionReachable s.rollback

/-- The invariant of a session: the repository invariant; every reference counted by the
repository is held by a flow-file record or waits in `dropped` for the commit; what the session
holds beyond the records of its start are its provisional claims; uuids not yet issued are
unused; and the flow file that owns the open writer spans the whole of its content. -/
structure ProcessSession.WF (s : ProcessSession) : Prop where
  repo : s.repo.Inv
  held : ∀ k : ResourceClaim, s.repo.refcount k.content_id
    = (ProcessSession.handles s.files).count k + s.dropped.count k
  staged : ∀ k : ResourceClaim, (ProcessSession.handles s.files).count k + s.dropped.count k
    = (ProcessSession.handles s.base).count k + s.provisional.count k
  uuids : ∀ f ∈ s.files, f.uuid < s.next_uuid
  base_uuids : ∀ f ∈ s.base, f.uuid < s.next_uuid
  writer : ∀ w, s.writer = some w → ∃ f ∈ s.files, ∃ d, f.claim = some ⟨w⟩ ∧ f.offset = 0 ∧
    s.repo.backend.blobs w = some d ∧ f.size = d.length

/-- The flow-file records of a session and the records it would roll back to all have their
window inside stored content. -/
structure ProcessSession.Readable (s : ProcessSession) : Prop where
  files : ∀ f ∈ s.files, ∃ r, s.content f = .ok r
  base : ∀ f ∈ s.base, ∃ r, s.content f = .ok r

/-! ## The test fixture and the tests of ContentRepositoryDependentTests.h -/

namespace ContentRepositoryDependentTests

/-- The callback `ReadUntilItCan` as handed to `ProcessSession::read`: the object is its member
`value_`. -/
def ReadUntilItCan.callback (fuel : Nat) (value_ : List Byte) (stream : ContentStream) :
    Option (Int × List Byte) :=
  (ReadUntilItCan.process contentApi fuel value_ stream).map (fun r => (r.1, r.2.1))

namespace Fixture

/-- The member `Fixture::Success` (ContentRepositoryDependentTests.h:72). -/
def Success : Relationship := { name := "success", description := "everything is fine" }

/-- The member `Fixture::Failure` (ContentRepositoryDependentTests.h:73). -/
def Failure : Relationship := { name := "failure", description := "something has gone awry" }

/-- The constructor `Fixture::Fixture` (ContentRepositoryDependentTests.h:75-83): a process
session for a stage over a new content repository. The test plan and the dummy processor are
outside the sampled sources; the stage knows the relationships the fixture declares. -/
def new (append_in_place : Bool) : ProcessSession :=
  ProcessSession.start [Success, Failure] append_in_place

/-- The method `Fixture::transferAndCommit` (ContentRepositoryDependentTests.h:87-90). -/
def transferAndCommit (s : ProcessSession) (flow_file : Nat) : Except Error ProcessSession :=
  match s.transfer flow_file Success with
  | .error e => .error e
  | .ok s1 => s1.commit

/-- The method `Fixture::writeToFlowFile` (ContentRepositoryDependentTests.h:92-95). -/
def writeToFlowFile (s : ProcessSession) (flow_file : Nat) (content : List Byte) :
    Except Error ProcessSession :=
  s.write flow_file (WriteStringToFlowFile.process contentApi content)

/-- The method `Fixture::appendToFlowFile` (ContentRepositoryDependentTests.h:97-101). -/
def appendToFlowFile (s : ProcessSession) (flow_file : Nat) (content_to_append : List Byte) :
    Except Error ProcessSession :=
  match s.add flow_file with
  | .error e => .error e
  | .ok s1 => s1.append flow_file (WriteStringToFlowFile.process contentApi content_to_append)

end Fixture

/-- The session after an operation: one that fails leaves the session as it was. -/
def after (s : ProcessSession) (r : Except Error ProcessSession) : ProcessSession :=
  match r with
  | .ok s' => s'
  | .error _ => s

/-- The session of `testReadOnSmallerClonedFlowFiles` after its lines 115-117: the flow file 0
was created, written with "foobar", transferred and committed. -/
def sessionFoobar : ProcessSession :=
  let s1 := (Fixture.new true).create.2
  let s2 := after s1 (Fixture.writeToFlowFile s1 0 (bytesOf "foobar"))
  after s2 (Fixture.transferAndCommit s2 0)

/-- The session of `testReadOnSmallerClonedFlowFiles` after its lines 119-120: the flow files 1
and 2 are the clones of the flow file 0 over the windows (0,3) and (3,3). -/
def sessionClones : ProcessSession :=
  sessionFoobar.cloneEach 0 [(0, 3), (3, 3)]

/-- The session of `testAppendToUnmanagedFlowFile` after its lines 144-148 and the `add` of
line 99, just before the append: the flow file 0 was written with `content`, transferred,
committed and handed back to the session. -/
def unmanagedSession (append_in_place : Bool) (content : List Byte) : ProcessSession :=
  let s1 := (Fixture.new append_in_place).create.2
  let s2 := after s1 (Fixture.writeToFlowFile s1 0 content)
  let s3 := after s2 (Fixture.transferAndCommit s2 0)
  after s3 (s3.add 0)

/-- The session of `testAppendToManagedFlowFile` after its lines 163-166 and the `add` of
line 99, just before the append: the flow file 0 was written with `content` in the session that
is still uncommitted. -/
def managedSession (append_in_place : Bool) (content : List Byte) : ProcessSession :=
  let s1 := (Fixture.new append_in_place).create.2
  let s2 := after s1 (Fixture.writeToFlowFile s1 0 content)
  after s2 (s2.add 0)

/-- What a test looks at for one flow file: `getSize()`, the result of `readBuffer` and the
member `value_` of the `ReadUntilItCan` callback after `read`. -/
structure Observed where
  size : Option Nat
  buffer : List Byte
  value_ : List Byte
  deriving DecidableEq, Repr

/-- The three statements `readBuffer(ff)`, `read(ff, &callback)`, `getSize()` of the tests;
`none` when one of the calls throws or the callback runs out of fuel. -/
def observe (s : ProcessSession) (flow_file : Nat) (fuel : Nat) (value_ : List Byte) :
    Option Observed :=
  match s.readBuffer flow_file, s.read flow_file (ReadUntilItCan.callback fuel) value_ with
  | .ok buffer, some (.ok _, v) => some { size := s.getSize flow_file, buffer := buffer, value_ := v }
  | _, _ => none

/-- The test `testReadOnSmallerClonedFlowFiles` (ContentRepositoryDependentTests.h:112-139), with
the literal "foobar" and the two windows as parameters; the result is what the test checks for
the original and the two clones, `none` when a call throws or a `REQUIRE` fails. -/
def testReadOnSmallerClonedFlowFiles (append_in_place : Bool) (fuel : Nat) (content : List Byte)
    (w1 w2 : Nat × Nat) : Option (Observed × Observed × Observed) :=
  let fixture := Fixture.new append_in_place
  let (original_ff, s1) := fixture.create
  match Fixture.writeToFlowFile s1 original_ff content with
  | .error _ => none
  | .ok s2 =>
  match Fixture.transferAndCommit s2 original_ff with
  | .error _ => none
  | .ok s3 =>
  match s3.clone original_ff w1.1 w1.2 with
  | .error _ => none
  | .ok (clone_first_half, s4) =>
  match s4.clone original_ff w2.1 w2.2 with
  | .error _ => none
  | .ok (clone_second_half, s5) =>
  match observe s5 original_ff fuel [] with
  | none => none
  | some o =>
  match observe s5 clone_first_half fuel o.value_ with
  | none => none
  | some o1 =>
  match observe s5 clone_second_half fuel o1.value_ with
  | none => none
  | some o2 => some (o, o1, o2)

/-- The test `testAppendToUnmanagedFlowFile` (ContentRepositoryDependentTests.h:141-158), with
the literals "my" and "foobar" as parameters. -/
def testAppendToUnmanagedFlowFile (append_in_place : Bool) (fuel : Nat)
    (content content_to_append : List Byte) : Option Observed :=
  let fixture := Fixture.new append_in_place
  let (flow_file, s1) := fixture.create
  match Fixture.writeToFlowFile s1 flow_file content with
  | .error _ => none
  | .ok s2 =>
  match Fixture.transferAndCommit s2 flow_file with
  | .error _ => none
  | .ok s3 =>
  match Fixture.appendToFlowFile s3 flow_file content_to_append with
  | .error _ => none
  | .ok s4 =>
  match Fixture.transferAndCommit s4 flow_file with
  | .error _ => none
  | .ok s5 => observe s5 flow_file fuel []

/-- The test `testAppendToManagedFlowFile` (ContentRepositoryDependentTests.h:160-176), with the
literals "my" and "foobar" as parameters. -/
def testAppendToManagedFlowFile (append_in_place : Bool) (fuel : Nat)
    (content content_to_append : List Byte) : Option Observed :=
  let fixture := Fixture.new append_in_place
  let (flow_file, s1) := fixture.create
  match Fixture.writeToFlowFile s1 flow_file content with
  | .error _ => none
  | .ok s2 =>
  match Fixture.appendToFlowFile s2 flow_file content_to_append with
  | .error _ => none
  | .ok s3 =>
  match Fixture.transferAndCommit s3 flow_file with
  | .error _ => none
  | .ok s4 => observe s4 flow_file fuel []

end ContentRepositoryDependentTests


/-! ## Staged operations of a session (specification 4.6, 8) -/

/-- Modelled from the spec: one staged operation of a session, a call of the operation table of
4.6 (and `add`) that stages work until `commit` or `rollback`. -/
inductive StagedOp where
  | create
  | createFrom (parent : Nat)
  | write (u : Nat) (cb : OutputStreamCallback)
  | append (u : Nat) (cb : OutputStreamCallback)
  | clone (parent offset size : Nat)
  | transfer (u : Nat) (r : Relationship)
  | remove (u : Nat)
  | add (u : Nat)

/-- Modelled from the spec: the session after one staged operation; an operation that fails
reports its error and leaves the session as it was. -/
def ProcessSession.stage (s : ProcessSession) : StagedOp → ProcessSession
  | .create => s.create.2
  | .createFrom parent =>
    match s.createFrom parent with
    | .ok r => r.2
    | .error _ => s
  | .write u cb =>
    match s.write u cb with
    | .ok s' => s'
    | .error _ => s
  | .append u cb =>
    match s.append u cb with
    | .ok s' => s'
    | .error _ => s
  | .clone parent offset size =>
    match s.clone parent offset size with
    | .ok r => r.2
    | .error _ => s
  | .transfer u r =>
    match s.transfer u r with
    | .ok s' => s'
    | .error _ => s
  | .remove u =>
    match s.remove u with
    | .ok s' => s'
    | .error _ => s
  | .add u =>
    match s.add u with
    | .ok s' => s'
    | .error _ => s

/-- Modelled from the spec: the session after a sequence of staged operations, in order. -/
def ProcessSession.stageAll (s : ProcessSession) (ops : List StagedOp) : ProcessSession :=
  ops.foldl ProcessSession.stage s

/-- Modelled from the spec: a session begins in a state without staged work: the snapshot sets
of 3 are empty, no claim is provisional or given up, no writer is open, and the records it
would roll back to are the current ones (the state after `start`, `commit` or `rollback`). -/
def ProcessSession.AtBegin (s : ProcessSession) : Prop :=
  s.base = s.files ∧ s.created = [] ∧ s.updated = [] ∧ s.cloned = [] ∧ s.added = [] ∧
  s.transferred = [] ∧ s.deleted = [] ∧ s.provisional = [] ∧ s.dropped = [] ∧ s.writer = none

instance (s : ProcessSession) : Decidable s.AtBegin := by
  unfold ProcessSession.AtBegin
  infer_instance

/-- What a staged operation leaves alone: the queues and the records to roll back to; and the
live claim handles grow exactly by the provisional ones. -/
def ProcessSession.StagedFrom (s s' : ProcessSession) : Prop :=
  ∃ gained : List ResourceClaim, s'.provisional = gained ++ s.provisional ∧
    s'.repo.live = gained ++ s.repo.live ∧ s'.queues = s.queues ∧ s'.base = s.base


/-! ## Streams used to exercise the callbacks -/

/-- A source stream as `ReadUntilItCan::process` sees it through `stream->read(buffer, 1024)`:
from the state `st` it hands out the chunks of `chunks`, one per call, each of them non-empty,
reported with its length (not an error value) and left in the vector; the call after the last
chunk reports `last` (0 at the end of the window, or an error value). -/
def Yields {σ : Type} (api : StreamApi σ) : σ → List (List Byte) → Nat → Prop
  | st, [], last => ∀ buf, (api.read st buf 1024).1 = last
  | st, c :: cs, last =>
    ∀ buf, (api.read st buf 1024).1 = c.length ∧ (api.read st buf 1024).2.1 = c ∧ c ≠ [] ∧
      api.isError c.length = false ∧ Yields api (api.read st buf 1024).2.2 cs last

/-- A sink that may accept fewer bytes than offered: `stream->write(buf, len)` takes the first
`accept len` bytes of the buffer, appends them to what the sink holds (its state) and reports
their number; `accept len ≤ len` makes it a partial write. It is never read from, and an error
is the value `size_t(-1)`. -/
def partialSink (accept : Nat → Nat) : StreamApi (List Byte) where
  write := fun st buf len => ((buf.take (accept len)).length, st ++ buf.take (accept len))
  read := fun st _ _ => (0, [], st)
  isError := fun r => r == STREAM_ERROR

/-! ## WriteToFlowFileTestProcessor (libminifi/test/WriteToFlowFileTestProcessor.cpp) -/

/-- Modelled from the spec: the part of `core::ProcessContext` (declared outside the sampled
sources) that `onTrigger` uses: whether the stage asked to yield. -/
structure ProcessContext where
  yielded : Bool
  deriving DecidableEq, Repr

/-- The processor `WriteToFlowFileTestProcessor`: its member `content_` and what its `initialize`
method installs in the base class `core::Processor` (declared outside the sampled sources): the
supported properties (by name) and the supported relationships. The logger is left out. -/
structure WriteToFlowFileTestProcessor where
  content_ : List Byte
  supported_properties : List String
  supported_relationships : List Relationship
  deriving DecidableEq, Repr

namespace WriteToFlowFileTestProcessor

/-- The static member `WriteToFlowFileTestProcessor::Success`
(WriteToFlowFileTestProcessor.cpp:27). -/
def Success : Relationship :=
  { name := "success", description := "success operational on the flow record" }

/-- The method `WriteToFlowFileTestProcessor::initialize` (WriteToFlowFileTestProcessor.cpp:29-32),
spelled `initialise` because the source's name is a reserved word here:
`setSupportedProperties({})` and `setSupportedRelationships({Success})`. -/
def initialise (p : WriteToFlowFileTestProcessor) : WriteToFlowFileTestProcessor :=
  { p with supported_properties := [], supported_relationships := [Success] }

/-- The method `WriteToFlowFileTestProcessor::onTrigger` (WriteToFlowFileTestProcessor.cpp:51-66)
on non-null `context` and `session` (`gsl_Expects`): with empty `content_` it yields and returns;
otherwise `session->create()` (the model never returns a null flow file), `session->write` with
a `WriteToFlowFileCallback` over `content_`, and `session->transfer(flow_file, Success)`. An
error of a session call is an exception that leaves `onTrigger`. -/
def onTrigger (p : WriteToFlowFileTestProcessor) (context : ProcessContext)
    (session : ProcessSession) : Except Error (ProcessContext × ProcessSession) :=
  if p.content_.isEmpty then .ok ({ context with yielded := true }, session)
  else
    let created := session.create
    let flow_file := created.1
    match created.2.write flow_file (WriteToFlowFileCallback.process contentApi p.content_) with
    | .error e => .error e
    | .ok written =>
      match written.transfer flow_file Success with
      | .error e => .error e
      | .ok transferred => .ok (context, transferred)

end WriteToFlowFileTestProcessor

/-! ## AbstractAutoPersistingKeyValueStoreService
(libminifi/src/controllers/keyvalue/AbstractAutoPersistingKeyValueStoreService.cpp) -/

/-- What `getProperty` yields for the two properties of the service when `onEnable` asks
(`core::ConfigurableComponent::getProperty` and `core::TimePeriodValue` are declared outside the
sampled sources, so the outcome of the two calls is a parameter): `none` when `getProperty`
returns false, else the string value of "Always Persist" and the milliseconds of the
"Auto Persistence Interval". -/
structure AutoPersistingProperties where
  always_persist : Option String
  auto_persistence_interval : Option Nat
  deriving DecidableEq, Repr

/-- The members of `AbstractAutoPersistingKeyValueStoreService` the source works on:
`configuration_` (true when the pointer is not null), `always_persist_`,
`auto_persistence_interval_` (milliseconds), `running_`, and `persisting_thread_`, of which the
source asks only `joinable()`: true from the start of the thread until it is joined. -/
structure AbstractAutoPersistingKeyValueStoreService where
  configuration_ : Bool
  always_persist_ : Bool
  auto_persistence_interval_ : Nat
  running_ : Bool
  persisting_thread_joinable : Bool
  deriving DecidableEq, Repr

/-- What the persisting thread does on one pass through its loop: it calls `persist()`, or it
returns from the thread function. -/
inductive PersistingThreadStep where
  | persist
  | returned
  deriving DecidableEq, Repr

namespace AbstractAutoPersistingKeyValueStoreService

/-- The constructor (AbstractAutoPersistingKeyValueStoreService.cpp:38-43): `always_persist_(false)`,
`auto_persistence_interval_(0U)`, `running_(false)` and a default-constructed thread, which is
not joinable; `configuration` tells whether the base class holds a configuration. -/
def new (configuration : Bool) : AbstractAutoPersistingKeyValueStoreService :=
  { configuration_ := configuration, always_persist_ := false, auto_persistence_interval_ := 0,
    running_ := false, persisting_thread_joinable := false }

/-- The method `onEnable` (AbstractAutoPersistingKeyValueStoreService.cpp:64-94). `toBool` is
`utils::StringUtils::toBool`; a property that `getProperty` does not yield leaves the member as
it was (an error is logged). The thread is started when `always_persist_` is false and the
interval is not zero, unless one is joinable already. -/
def onEnable (toBool : String → Option Bool) (props : AutoPersistingProperties)
    (s : AbstractAutoPersistingKeyValueStoreService) : AbstractAutoPersistingKeyValueStoreService :=
  if !s.configuration_ then s
  else
    let always_persist_ := match props.always_persist with
      | none => s.always_persist_
      | some value => (toBool value).getD false
    let auto_persistence_interval_ := match props.auto_persistence_interval with
      | none => s.auto_persistence_interval_
      | some ms => ms
    let s1 := { s with always_persist_ := always_persist_,
                       auto_persistence_interval_ := auto_persistence_interval_ }
    if !always_persist_ && auto_persistence_interval_ != 0 then
      if !s1.persisting_thread_joinable then
        { s1 with running_ := true, persisting_thread_joinable := true }
      else s1
    else s1

/-- The thread function `persistingThreadFunc` (AbstractAutoPersistingKeyValueStoreService.cpp:
100-116) as a function of what it observes: each element of the list is the value of `running_`
it finds when `persisting_cv_.wait_for` returns (after the interval, or earlier on a
notification). The result lists what it does, pass by pass: `persist()` after a wake-up that
finds `running_` true; on the first wake-up that finds it false the function returns. A list
without `false` is a thread that is still in its loop. -/
def persistingThreadFunc : List Bool → List PersistingThreadStep
  | [] => []
  | running_ :: later =>
    if !running_ then [PersistingThreadStep.returned]
    else PersistingThreadStep.persist :: persistingThreadFunc later

/-- The method `stopPersistingThread` (AbstractAutoPersistingKeyValueStoreService.cpp:49-57),
called by `notifyStop` and by the destructor: when the thread is joinable, `running_` becomes
false under the mutex, the thread is notified and joined. The result is the service after the
call and what the thread does between the notification and the join: it wakes up, finds the
`running_` of the service, and goes on as `persistingThreadFunc` says. -/
def stopPersistingThread (s : AbstractAutoPersistingKeyValueStoreService) :
    AbstractAutoPersistingKeyValueStoreService × List PersistingThreadStep :=
  if s.persisting_thread_joinable then
    let s1 := { s with running_ := false }
    ({ s1 with persisting_thread_joinable := false }, persistingThreadFunc [s1.running_])
  else (s, [])

/-- The method `notifyStop` (AbstractAutoPersistingKeyValueStoreService.cpp:96-98). -/
def notifyStop (s : AbstractAutoPersistingKeyValueStoreService) :
    AbstractAutoPersistingKeyValueStoreService × List PersistingThreadStep :=
  s.stopPersistingThread

end AbstractAutoPersistingKeyValueStoreService

/-! ## The buffer `std::vector<char>` of the coding functions -/

namespace StdVector

/-- The value of `std::vector<char>::max_size()` where `size_t` is 64 bits wide, `PTRDIFF_MAX`:
the largest number of characters a vector (and a `std::string`) holds. -/
def max_size : Nat := 2 ^ 63 - 1

/-- The constructor `std::vector<char> buf(n)` of the C++ standard library: `n` characters of
value 0; `none` when it throws `std::length_error`, which it does for `n` above `max_size()`.
The storage for a size within `max_size()` is taken to be there (no `std::bad_alloc`). -/
def create (n : Nat) : Option (List Byte) :=
  if n > max_size then none else some (List.replicate n 0)

/-- The buffer after a function has written the characters `written` through `buf.data()`, from
index 0 on: they take the place of the first characters of the buffer. -/
def store (buf written : List Byte) : List Byte :=
  written ++ buf.drop written.length

end StdVector

/-! ## Hexadecimal and base64 coding of StringUtils (libminifi/src/utils/StringUtils.cpp) -/

namespace StringUtils

/-- What `StringUtils.cpp` takes from its header `StringUtils.h`, which is not part of the
sampled sources, and which is therefore a parameter of the coding functions:
* the constants `SKIP`, `ILGL` and `PDNG` (values of `uint8_t`);
* the tables `hex_lut[128]` and `base64_dec_lut[128]`, as functions from the index;
* the tables `base64_enc_lut` and `base64_url_enc_lut`, as functions from the index to the
  character, a byte;
* the inline helper `nibble_to_hex(nibble, uppercase)`, the character for a nibble. -/
structure Header where
  SKIP : Nat
  ILGL : Nat
  PDNG : Nat
  hex_lut : Nat → Nat
  base64_enc_lut : Nat → Byte
  base64_url_enc_lut : Nat → Byte
  base64_dec_lut : Nat → Nat
  nibble_to_hex : Nat → Bool → Byte

/-- The loop of `to_hex(char*, const uint8_t*, size_t, bool)` (StringUtils.cpp:285-288): two
characters per byte, the high nibble `data[i] >> 4` first, then `data[i] & 0xf`. -/
def to_hex_loop (h : Header) (uppercase : Bool) : List Byte → List Byte
  | [] => []
  | b :: rest =>
    h.nibble_to_hex (b.toNat >>> 4) uppercase :: h.nibble_to_hex (b.toNat &&& 0xf) uppercase
      :: to_hex_loop h uppercase rest

/-- The function `size_t to_hex(char* hex, const uint8_t* data, size_t length, bool uppercase)`
(StringUtils.cpp:281-290): the characters written to `hex` and the returned `length * 2`;
`none` when it throws `std::length_error`. -/
def to_hex_buf (h : Header) (data : List Byte) (uppercase : Bool) : Option (List Byte × Nat) :=
  if data.length > SIZE_MAX / 2 then none
  else some (to_hex_loop h uppercase data, data.length * 2)

/-- The function `std::string to_hex(const uint8_t* data, size_t length, bool uppercase)`
(StringUtils.cpp:292-299): the length guard, the buffer `std::vector<char> buf(length * 2)`
(past the guard the product does not wrap), the characters written to it by the pointer
overload, and the string of the first `hex_length` characters of the buffer; `none` when an
exception is thrown, by the guard, by the constructor of the buffer or by the overload. -/
def to_hex (h : Header) (data : List Byte) (uppercase : Bool) : Option (List Byte) :=
  if data.length > SIZE_MAX / 2 - 1 then none
  else
    match StdVector.create (data.length * 2) with
    | none => none
    | some buf =>
      match to_hex_buf h data uppercase with
      | none => none
      | some (hex, hex_length) => some ((StdVector.store buf hex).take hex_length)

/-- The loop of `from_hex(uint8_t*, size_t*, const char*, size_t)` (StringUtils.cpp:249-263) over
the characters still to read. `first` is `some n1` while `found_first_nibble` holds, `decoded`
the bytes stored in `data` so far. A character above 127 or one that `hex_lut` maps to `SKIP`
is passed over. -/
def from_hex_loop (h : Header) : List Byte → Option Nat → List Byte → Option Nat × List Byte
  | [], first, decoded => (first, decoded)
  | c :: rest, first, decoded =>
    let byte := c.toNat
    if byte > 127 then from_hex_loop h rest first decoded
    else
      let n := h.hex_lut byte
      if n != h.SKIP then
        match first with
        | some n1 => from_hex_loop h rest none (decoded ++ [UInt8.ofNat (((n1 <<< 4) ||| n) % 256)])
        | none => from_hex_loop h rest (some n) decoded
      else from_hex_loop h rest first decoded

/-- The function `bool from_hex(uint8_t* data, size_t* data_length, const char* hex, size_t
hex_length)` (StringUtils.cpp:242-268) for a buffer of `capacity` bytes (`*data_length` on
entry): the decoded bytes, `none` when it returns false. -/
def from_hex_buf (h : Header) (capacity : Nat) (hex : List Byte) : Option (List Byte) :=
  if capacity < hex.length / 2 then none
  else
    let r := from_hex_loop h hex none []
    if r.1.isSome then none else some r.2

/-- The function `std::vector<uint8_t> from_hex(const char* hex, size_t hex_length)`
(StringUtils.cpp:270-278): a buffer of `hex_length / 2` bytes, resized to the decoded length;
`none` when `std::invalid_argument` is thrown. -/
def from_hex (h : Header) (hex : List Byte) : Option (List Byte) :=
  from_hex_buf h (hex.length / 2) hex

/-- Modelled from the spec: the inline helper `base64_digits_to_bytes(digits, bytes)` of
`StringUtils.h` (not in the sampled sources), the packing of four 6-bit digits into three
bytes that undoes the splitting done by `to_base64`; missing digits count as 0. -/
def base64_digits_to_bytes (digits : List Nat) : List Byte :=
  [UInt8.ofNat ((((digits.getD 0 0) <<< 2) ||| ((digits.getD 1 0) >>> 4)) % 256),
   UInt8.ofNat (((((digits.getD 1 0) &&& 0x0f) <<< 4) ||| ((digits.getD 2 0) >>> 2)) % 256),
   UInt8.ofNat (((((digits.getD 2 0) &&& 0x03) <<< 6) ||| (digits.getD 3 0)) % 256)]

/-- The loop of `from_base64(uint8_t*, size_t*, const char*, size_t)` (StringUtils.cpp:310-337)
over the characters still to read: `digits` are the `digit_counter` digits collected,
`decoded` the bytes stored so far; `none` when the function returns false inside the loop. -/
def from_base64_loop (h : Header) :
    List Byte → List Nat → Nat → List Byte → Option (List Nat × Nat × List Byte)
  | [], digits, padding_counter, decoded => some (digits, padding_counter, decoded)
  | c :: rest, digits, padding_counter, decoded =>
    let byte := c.toNat
    if byte > 127 then none
    else
      let d := h.base64_dec_lut byte
      if d = h.SKIP then from_base64_loop h rest digits padding_counter decoded
      else if d = h.ILGL then none
      else if d = h.PDNG then from_base64_loop h rest digits (padding_counter + 1) decoded
      else if padding_counter > 0 then none
      else if (digits ++ [d]).length = 4 then
        from_base64_loop h rest [] padding_counter (decoded ++ base64_digits_to_bytes (digits ++ [d]))
      else from_base64_loop h rest (digits ++ [d]) padding_counter decoded

/-- The end of `from_base64(uint8_t*, size_t*, const char*, size_t)` after its loop
(StringUtils.cpp:339-365): the padding is checked against the digits left over, and two or
three digits left over give one or two more bytes (the missing digits are set to 0); `none`
when the function returns false. -/
def from_base64_finish (digits : List Nat) (padding_counter : Nat) (decoded : List Byte) :
    Option (List Byte) :=
  if padding_counter > 0 && padding_counter != 4 - digits.length then none
  else
    match digits.length with
    | 0 => some decoded
    | 1 => none
    | 2 => some (decoded ++ (base64_digits_to_bytes (digits ++ [0, 0])).take 1)
    | 3 => some (decoded ++ (base64_digits_to_bytes (digits ++ [0])).take 2)
    | _ => none

/-- The function `bool from_base64(uint8_t* data, size_t* data_length, const char* base64, size_t
base64_length)` (StringUtils.cpp:301-366) for a buffer of `capacity` bytes (`*data_length` on
entry): the decoded bytes, `none` when it returns false. -/
def from_base64_buf (h : Header) (capacity : Nat) (base64 : List Byte) : Option (List Byte) :=
  if capacity < (base64.length / 4 + 1) * 3 then none
  else
    match from_base64_loop h base64 [] 0 [] with
    | none => none
    | some (digits, padding_counter, decoded) => from_base64_finish digits padding_counter decoded

/-- The function `std::vector<uint8_t> from_base64(const char* base64, size_t base64_length)`
(StringUtils.cpp:368-376): a buffer of `(base64_length / 4 + 1) * 3` bytes, resized to the
decoded length; `none` when `std::invalid_argument` is thrown. -/
def from_base64 (h : Header) (base64 : List Byte) : Option (List Byte) :=
  from_base64_buf h ((base64.length / 4 + 1) * 3) base64

/-- The table chosen by `const char* enc_lut = url ? base64_url_enc_lut : base64_enc_lut;`
(StringUtils.cpp:383). -/
def enc_lut (h : Header) (url : Bool) : Nat → Byte :=
  if url then h.base64_url_enc_lut else h.base64_enc_lut

/-- One pass of the loop of `to_base64` (StringUtils.cpp:386-404) on `data[i]` and, where
present, `data[i + 1]` and `data[i + 2]`: the characters appended to `base64`. The padding
character '=' is 61. -/
def to_base64_group (h : Header) (url padded : Bool) (b0 : Byte) (b1 b2 : Option Byte) :
    List Byte :=
  let enc_lut := enc_lut h url
  let bytes0 := b0.toNat
  let bytes1 := match b1 with
    | some b => b.toNat
    | none => 0
  let bytes2 := match b2 with
    | some b => b.toNat
    | none => 0
  [enc_lut ((bytes0 &&& 0xfc) >>> 2),
   enc_lut (((bytes0 &&& 0x03) <<< 4) ||| ((bytes1 &&& 0xf0) >>> 4))]
  ++ (if b1.isSome then [enc_lut (((bytes1 &&& 0x0f) <<< 2) ||| ((bytes2 &&& 0xc0) >>> 6))]
      else if padded then [61] else [])
  ++ (if b2.isSome then [enc_lut (bytes2 &&& 0x3f)]
      else if padded then [61] else [])

/-- The loop of `to_base64(char*, const uint8_t*, size_t, bool, bool)` (StringUtils.cpp:386-404):
the data is taken three bytes at a time, the last pass with one or two bytes when the length is
not a multiple of three. -/
def to_base64_loop (h : Header) (url padded : Bool) : List Byte → List Byte
  | [] => []
  | [b0] => to_base64_group h url padded b0 none none
  | [b0, b1] => to_base64_group h url padded b0 (some b1) none
  | b0 :: b1 :: b2 :: rest =>
    to_base64_group h url padded b0 (some b1) (some b2) ++ to_base64_loop h url padded rest

/-- The bound of the length check of `to_base64`, `std::numeric_limits<size_t>::max() * 3 / 4 - 3`
in `size_t` arithmetic (the product wraps modulo 2^64). -/
def to_base64_max_length : Nat := (SIZE_MAX * 3 % 2 ^ 64) / 4 - 3

/-- The function `size_t to_base64(char* base64, const uint8_t* data, size_t length, bool url,
bool padded)` (StringUtils.cpp:378-407): the characters written and their number; `none` when
it throws `std::length_error`. -/
def to_base64_buf (h : Header) (data : List Byte) (url padded : Bool) :
    Option (List Byte × Nat) :=
  if data.length > to_base64_max_length then none
  else some (to_base64_loop h url padded data, (to_base64_loop h url padded data).length)

/-- The function `std::string to_base64(const uint8_t* data, size_t length, bool url, bool
padded)` (StringUtils.cpp:409-413): the buffer `std::vector<char> buf((length / 3 + 1) * 4)`
(the size in `size_t` arithmetic), made before the pointer overload checks the length, the
characters that overload writes to it, and the string of the first `base64_length` characters
of the buffer; `none` when an exception is thrown, by the constructor of the buffer or by the
overload. -/
def to_base64 (h : Header) (data : List Byte) (url padded : Bool) : Option (List Byte) :=
  match StdVector.create ((data.length / 3 + 1) * 4 % 2 ^ 64) with
  | none => none
  | some buf =>
    match to_base64_buf h data url padded with
    | none => none
    | some (base64, base64_length) => some ((StdVector.store buf base64).take base64_length)

/-- The header values agree on hexadecimal digits: the character of every nibble is ASCII and
`hex_lut` maps it back to the nibble, which is not `SKIP`. -/
def Header.HexConsistent (h : Header) : Prop :=
  16 ≤ h.SKIP ∧
  ∀ n, n < 16 → ∀ uppercase, (h.nibble_to_hex n uppercase).toNat ≤ 127 ∧
    h.hex_lut (h.nibble_to_hex n uppercase).toNat = n

/-- The header values agree on base64 digits: both encoding tables hold ASCII characters that
`base64_dec_lut` maps back to their index, '=' decodes to `PDNG`, and the three marker
constants are pairwise distinct and no digits. -/
def Header.Base64Consistent (h : Header) : Prop :=
  64 ≤ h.SKIP ∧ 64 ≤ h.ILGL ∧ 64 ≤ h.PDNG ∧ h.PDNG ≠ h.SKIP ∧ h.PDNG ≠ h.ILGL ∧
  h.base64_dec_lut 61 = h.PDNG ∧
  (∀ i, i < 64 → (h.base64_enc_lut i).toNat ≤ 127 ∧
    h.base64_dec_lut (h.base64_enc_lut i).toNat = i) ∧
  (∀ i, i < 64 → (h.base64_url_enc_lut i).toNat ≤ 127 ∧
    h.base64_dec_lut (h.base64_url_enc_lut i).toNat = i)

/-- Modelled from the spec: an instance of the header values (`StringUtils.h` is not in the
sampled sources): `SKIP`, `ILGL`, `PDNG` as 0xFF, 0xFE, 0xFD; hexadecimal digits in both cases;
the base64 alphabet and the URL-safe one of RFC 4648, both decoded by the one table; '='
decodes to `PDNG`, line feed and carriage return to `SKIP`, every other character to `ILGL`. -/
def header : Header where
  SKIP := 0xFF
  ILGL := 0xFE
  PDNG := 0xFD
  hex_lut := fun c =>
    if 48 ≤ c ∧ c ≤ 57 then c - 48
    else if 65 ≤ c ∧ c ≤ 70 then c - 55
    else if 97 ≤ c ∧ c ≤ 102 then c - 87
    else 0xFF
  base64_enc_lut := fun i =>
    (bytesOf "ABCDEFGHIJKLMNOPQRSTUVWXYZabcdefghijklmnopqrstuvwxyz0123456789+/").getD i 0
  base64_url_enc_lut := fun i =>
    (bytesOf "ABCDEFGHIJKLMNOPQRSTUVWXYZabcdefghijklmnopqrstuvwxyz0123456789-_").getD i 0
  base64_dec_lut := fun c =>
    if 65 ≤ c ∧ c ≤ 90 then c - 65
    else if 97 ≤ c ∧ c ≤ 122 then c - 71
    else if 48 ≤ c ∧ c ≤ 57 then c + 4
    else if c = 43 ∨ c = 45 then 62
    else if c = 47 ∨ c = 95 then 63
    else if c = 61 then 0xFD
    else if c = 10 ∨ c = 13 then 0xFF
    else 0xFE
  nibble_to_hex := fun nibble uppercase =>
    if nibble < 10 then UInt8.ofNat (48 + nibble)
    else UInt8.ofNat ((if uppercase then 65 else 97) + nibble - 10)

end StringUtils

/-! ## What a hexadecimal string denotes -/

namespace StringUtils

/-- The hexadecimal digits of a string, in order, as the header tables define them: a character
is a digit when it is at most 127 and `hex_lut` does not map it to `SKIP`; its value is the
table entry. Every other character is left out. -/
def hexDigits (h : Header) (hex : List Byte) : List Nat :=
  hex.filterMap (fun c =>
    if c.toNat ≤ 127 ∧ h.hex_lut c.toNat ≠ h.SKIP then some (h.hex_lut c.toNat) else none)

/-- The bytes formed by pairing digit values in order, the first of each pair as the high
nibble (`n1 << 4 | n`, stored in a `uint8_t`); a last digit without partner is left out. -/
def pairNibbles : List Nat → List Byte
  | n1 :: n :: rest => UInt8.ofNat (((n1 <<< 4) ||| n) % 256) :: pairNibbles rest
  | _ => []

end StringUtils

/-! ## The `std::string` operations that StringUtils.cpp calls -/

namespace StdString

/-- The search of `std::string::find`: the first index, counted from `i`, at which `str` is a
prefix of what is left of the string; `none` is `npos`. -/
def findAt (str : List Byte) : List Byte → Nat → Option Nat
  | [], i => if str.isEmpty then some i else none
  | c :: cs, i => if str.isPrefixOf (c :: cs) then some i else findAt str cs (i + 1)

/-- The call `s.find(str, pos)` of `std::string`: the lowest position `p ≥ pos` at which `str`
occurs in `s`, `none` for `npos` (also when `pos > s.size()`). -/
def find (s str : List Byte) (pos : Nat) : Option Nat :=
  if pos > s.length then none else findAt str (s.drop pos) pos

/-- The call `s.substr(pos, n)` of `std::string`: the characters `[pos, pos + n)` as far as the
string reaches; `none` when it throws `std::out_of_range` (`pos > s.size()`). -/
def substr (s : List Byte) (pos n : Nat) : Option (List Byte) :=
  if pos > s.length then none else some ((s.drop pos).take n)

/-- The call `s.substr(pos)` of `std::string`: the characters from `pos` on; `none` when it
throws `std::out_of_range`. -/
def substrFrom (s : List Byte) (pos : Nat) : Option (List Byte) :=
  if pos > s.length then none else some (s.drop pos)

/-- The call `s.at(i)` of `std::string` (spelled `charAt`, `at` being a reserved word here);
`none` when it throws `std::out_of_range`. -/
def charAt (s : List Byte) (i : Nat) : Option Byte :=
  s.get? i

/-- The call `s.replace(pos, len, str)` of `std::string`: the characters `[pos, pos + len)`, as
far as the string reaches, are replaced by `str`; `none` when it throws `std::out_of_range`
(`pos > s.size()`). -/
def replace (s : List Byte) (pos len : Nat) (str : List Byte) : Option (List Byte) :=
  if pos > s.length then none else some (s.take pos ++ str ++ s.drop (pos + len))

end StdString

/-! ## Splitting strings (StringUtils.cpp:79-105) -/

namespace StringUtils

/-- The `while (pos != std::string::npos)` loop of `split_transformed` (StringUtils.cpp:94-98)
and the `push_back` after it (line 99), over the locals `str`, `pos` and `result`; `fuel`
bounds the number of tests of the loop condition. `none`: the bound was reached or a `substr`
threw. -/
def split_transformed_loop (transformation : List Byte → List Byte) (delimiter : List Byte) :
    Nat → List Byte → Option Nat → List (List Byte) → Option (List (List Byte))
  | 0, _, _, _ => none
  | _ + 1, str, none, result => some (result ++ [transformation str])
  | fuel + 1, str, some pos, result =>
    match StdString.substr str 0 pos with
    | none => none
    | some head =>
      match StdString.substrFrom str (pos + delimiter.length) with
      | none => none
      | some rest =>
        split_transformed_loop transformation delimiter fuel rest
          (StdString.find rest delimiter 0) (result ++ [transformation head])

/-- The function template `split_transformed(str, delimiter, transformation)`
(StringUtils.cpp:79-101): with an empty delimiter one string per character; without an
occurrence of the delimiter the whole string; otherwise the loop. -/
def split_transformed (fuel : Nat) (str delimiter : List Byte)
    (transformation : List Byte → List Byte) : Option (List (List Byte)) :=
  if delimiter.isEmpty then some (str.map (fun c => transformation [c]))
  else
    match StdString.find str delimiter 0 with
    | none => some [transformation str]
    | some pos => split_transformed_loop transformation delimiter fuel str (some pos) []

/-- The function `StringUtils::split(str, delimiter)` (StringUtils.cpp:103-105):
`split_transformed` with the transformation `identity{}`. -/
def split (fuel : Nat) (str delimiter : List Byte) : Option (List (List Byte)) :=
  split_transformed fuel str delimiter id

/-- The number of occurrences of `d` in a string met when reading from left to right and
continuing after each occurrence (non-overlapping occurrences); `skip` is the number of
characters still to pass over because they belong to the occurrence just counted. -/
def countOccurrences (d : List Byte) : List Byte → Nat → Nat
  | [], _ => 0
  | _ :: cs, skip + 1 => countOccurrences d cs skip
  | c :: cs, 0 =>
    if d.isPrefixOf (c :: cs) then 1 + countOccurrences d cs (d.length - 1)
    else countOccurrences d cs 0

end StringUtils

/-! ## Replacing text (StringUtils.cpp:151-232) -/

namespace StringUtils

/-- The `while` loop of `replaceAll(source_string, from_string, to_string)`
(StringUtils.cpp:198-206) over `source_string` and `loc`; `fuel` bounds the number of tests of
the loop condition. `none`: the bound was reached or `replace` threw. -/
def replaceAll_loop (from_string to_string : List Byte) :
    Nat → List Byte → Nat → Option (List Byte)
  | 0, _, _ => none
  | fuel + 1, source_string, loc =>
    match StdString.find source_string from_string loc with
    | none => some source_string
    | some lastFound =>
      match StdString.replace source_string lastFound from_string.length to_string with
      | none => none
      | some replaced =>
        replaceAll_loop from_string to_string fuel replaced
          (if from_string.isEmpty then lastFound + to_string.length + 1
           else lastFound + to_string.length)

/-- The function `replaceAll(source_string, from_string, to_string)` (StringUtils.cpp:197-208):
the loop from `loc = 0`. The loop always ends within `source_string.size() + 3` tests of its
condition, so the bound is fixed here and the function is total; `none` does not occur. -/
def replaceAll (source_string from_string to_string : List Byte) : Option (List Byte) :=
  replaceAll_loop from_string to_string (source_string.length + 3) source_string 0

/-- The conversion `env_var.c_str()` handed to a `const char*` parameter: the characters before
the first NUL. -/
def c_str (s : List Byte) : List Byte :=
  s.takeWhile (fun c => c != 0)

/-- The `do ... while (beg_seq < source_string.size())` loop of `replaceEnvironmentVariables`
(StringUtils.cpp:154-180) over `source_string` and `beg_seq`, started at the top of its body;
`fuel` bounds the number of passes through the body. The result is `source_string` when the
loop is left; `none`: the bound was reached (or a call threw). `env` gives the value that
`utils::Environment::getEnvironmentVariable` (declared outside the sampled sources) returns
for a name. The characters are `$` = 36, `\` = 92, the opening brace = 123 and the closing
brace = 125. -/
def replaceEnvironmentVariables_loop (env : List Byte → List Byte) :
    Nat → List Byte → Nat → Option (List Byte)
  | 0, _, _ => none
  | fuel + 1, source_string, beg_seq =>
    match StdString.find source_string [36, 123] beg_seq with
    | none => some source_string
    | some beg_seq =>
      match (if beg_seq > 0 then (StdString.charAt source_string (beg_seq - 1)).map (fun c => c == 92)
             else some false) with
      | none => none
      | some true =>
        if beg_seq + 2 < source_string.length then
          replaceEnvironmentVariables_loop env fuel source_string (beg_seq + 2)
        else some source_string
      | some false =>
        match StdString.find source_string [125] (beg_seq + 2) with
        | none => some source_string
        | some end_seq =>
          if end_seq ≤ beg_seq + 2 then
            if beg_seq + 2 < source_string.length then
              replaceEnvironmentVariables_loop env fuel source_string (beg_seq + 2)
            else some source_string
          else
            let env_var_length := end_seq - (beg_seq + 2)
            match StdString.substr source_string (beg_seq + 2) env_var_length,
                StdString.substr source_string beg_seq (env_var_length + 3) with
            | some env_var, some env_var_wrapped =>
              let env_value := env (c_str env_var)
              match replaceAll source_string env_var_wrapped env_value with
              | none => none
              | some replaced =>
                if 0 < replaced.length then replaceEnvironmentVariables_loop env fuel replaced 0
                else some replaced
            | _, _ => none

/-- The function `replaceEnvironmentVariables(source_string)` (StringUtils.cpp:151-185): the
loop from `beg_seq = 0`, then `replaceAll(source_string, "\\$", "$")`. -/
def replaceEnvironmentVariables (env : List Byte → List Byte) (fuel : Nat)
    (source_string : List Byte) : Option (List Byte) :=
  match replaceEnvironmentVariables_loop env fuel source_string 0 with
  | none => none
  | some expanded => replaceAll expanded [92, 36] [36]

end StringUtils

/-! ## `replaceMap` (StringUtils.cpp:210-232) -/

namespace StringUtils

/-- An element of the vector `replacements` of `replaceMap`,
`std::pair<size_t, std::pair<size_t, std::string>>`: the position, the length of the key, and
the value to put there. -/
structure Replacement where
  pos : Nat
  len : Nat
  value : List Byte
  deriving DecidableEq, Repr

/-- The order `std::sort` is asked for in `replaceMap` (the comparator `a.first > b.first`):
`a` may stand before `b` when the position of `a` is not smaller. -/
def Replacement.before (a b : Replacement) : Prop := b.pos ≤ a.pos

instance : DecidableRel Replacement.before := fun a b =>
  inferInstanceAs (Decidable (b.pos ≤ a.pos))

instance : IsTotal Replacement Replacement.before :=
  ⟨fun a b => Nat.le_total b.pos a.pos⟩

instance : IsTrans Replacement Replacement.before :=
  ⟨fun _ _ _ hab hbc => Nat.le_trans hbc hab⟩

/-- The strict order of the positions, from high to low. -/
def Replacement.above (a b : Replacement) : Prop := b.pos < a.pos

instance : IsAntisymm Replacement Replacement.above :=
  ⟨fun _ _ hab hba => absurd hab (Nat.lt_asymm hba)⟩

/-- The inner `while` loop of `replaceMap` (StringUtils.cpp:216-219) for one entry of the map,
over `replace_pos` and the vector `replacements`; `fuel` bounds the number of tests of the loop
condition, `none` means the bound was reached. -/
def replaceMap_find (source_string key value : List Byte) :
    Nat → Nat → List Replacement → Option (List Replacement)
  | 0, _, _ => none
  | fuel + 1, replace_pos, replacements =>
    match StdString.find source_string key replace_pos with
    | none => some replacements
    | some found =>
      replaceMap_find source_string key value fuel (found + key.length)
        (replacements ++ [{ pos := found, len := key.length, value := value }])

/-- The `for` loop of `replaceMap` over the entries of `replace_map` (StringUtils.cpp:214-220).
The `std::map` is the list of its entries in iteration order. -/
def replaceMap_collect (fuel : Nat) (source_string : List Byte) :
    List (List Byte × List Byte) → List Replacement → Option (List Replacement)
  | [], replacements => some replacements
  | replace_pair :: later, replacements =>
    match replaceMap_find source_string replace_pair.1 replace_pair.2 fuel 0 replacements with
    | none => none
    | some found => replaceMap_collect fuel source_string later found

/-- The call of `std::sort` in `replaceMap` (StringUtils.cpp:222-225): the replacements by
descending position. `std::sort` leaves the order of elements with equal positions open; here
it is that of an insertion sort. -/
def replaceMap_sort (replacements : List Replacement) : List Replacement :=
  replacements.insertionSort Replacement.before

/-- The last `for` loop of `replaceMap` (StringUtils.cpp:227-229): each replacement is applied
to `source_string` itself, and `result_string` is assigned the outcome. `none`: `replace` threw
`std::out_of_range`. -/
def replaceMap_apply :
    List Replacement → List Byte → List Byte → Option (List Byte)
  | [], _, result_string => some result_string
  | replacement :: later, source_string, _ =>
    match StdString.replace source_string replacement.pos replacement.len replacement.value with
    | none => none
    | some replaced => replaceMap_apply later replaced replaced

/-- The function `replaceMap(source_string, replace_map)` (StringUtils.cpp:210-232). -/
def replaceMap (fuel : Nat) (source_string : List Byte)
    (replace_map : List (List Byte × List Byte)) : Option (List Byte) :=
  match replaceMap_collect fuel source_string replace_map [] with
  | none => none
  | some replacements =>
    replaceMap_apply (replaceMap_sort replacements) source_string source_string

/-- The first entry of the map whose key stands at the beginning of `s`. -/
def matchAt (replace_map : List (List Byte × List Byte)) (s : List Byte) :
    Option (List Byte × List Byte) :=
  replace_map.find? (fun replace_pair => replace_pair.1.isPrefixOf s)

/-- The source with every occurrence of every key replaced by the key's value simultaneously:
the source is read once from left to right; where a key stands, its value is put out and the
reading goes on behind the key (`skip` counts the characters of the key still to pass over);
every other character is put out as it is. What is put out is never read again. -/
def simultaneousReplace (replace_map : List (List Byte × List Byte)) :
    List Byte → Nat → List Byte
  | [], _ => []
  | _ :: cs, skip + 1 => simultaneousReplace replace_map cs skip
  | c :: cs, 0 =>
    match matchAt replace_map (c :: cs) with
    | some replace_pair =>
      replace_pair.2 ++ simultaneousReplace replace_map cs (replace_pair.1.length - 1)
    | none => c :: simultaneousReplace replace_map cs 0

/-- The replacements that the left-to-right reading of `simultaneousReplace` makes, in the
order of their positions; `pos` is the position of the first character of the string in the
whole source. -/
def scanReplacements (replace_map : List (List Byte × List Byte)) :
    List Byte → Nat → Nat → List Replacement
  | [], _, _ => []
  | _ :: cs, skip + 1, pos => scanReplacements replace_map cs skip (pos + 1)
  | c :: cs, 0, pos =>
    match matchAt replace_map (c :: cs) with
    | some replace_pair =>
      { pos := pos, len := replace_pair.1.length, value := replace_pair.2 }
        :: scanReplacements replace_map cs (replace_pair.1.length - 1) (pos + 1)
    | none => scanReplacements replace_map cs 0 (pos + 1)

/-- The replacement `r` replaces an occurrence of a key of the map in the source by the value of
that key. -/
def occursAt (replace_map : List (List Byte × List Byte)) (source_string : List Byte)
    (r : Replacement) : Prop :=
  ∃ e ∈ replace_map, e.1 <+: source_string.drop r.pos ∧ r.len = e.1.length ∧ r.value = e.2

/-- No two occurrences of keys of the map in the source overlap: two occurrences are the same
occurrence (same key, same position) or one ends before the other begins. -/
def NonOverlapping (replace_map : List (List Byte × List Byte)) (source_string : List Byte) :
    Prop :=
  ∀ a ∈ replace_map, ∀ b ∈ replace_map, ∀ p q : Nat,
    a.1 <+: source_string.drop p → b.1 <+: source_string.drop q →
      (p = q ∧ a.1 = b.1) ∨ p + a.1.length ≤ q ∨ q + b.1.length ≤ p

/-- The check of `NonOverlapping` over the positions of the source, for a map without empty
key. -/
def nonOverlapping (replace_map : List (List Byte × List Byte)) (source_string : List Byte) :
    Bool :=
  replace_map.all fun a => replace_map.all fun b =>
    (List.range source_string.length).all fun p => (List.range source_string.length).all fun q =>
      !(a.1.isPrefixOf (source_string.drop p)) || !(b.1.isPrefixOf (source_string.drop q)) ||
        (decide (p = q) && decide (a.1 = b.1)) || decide (p + a.1.length ≤ q) ||
        decide (q + b.1.length ≤ p)

end StringUtils
/-! ## The reference-count invariant of the content repository -/

theorem upd_same {α : Type} (f : Nat → α) (k : Nat) (v : α) : upd f k v k = v := by
  simp [upd]

theorem upd_other {α : Type} (f : Nat → α) (k : Nat) (v : α) (x : Nat) (h : x ≠ k) :
    upd f k v x = f x := by
  simp [upd, h]

theorem ContentRepository.inv_empty : ContentRepository.empty.Inv := by
  constructor <;> simp [ContentRepository.empty]

theorem claim_ne_of_id_ne {a b : Nat} (h : a ≠ b) :
    (ResourceClaim.mk a) ≠ (ResourceClaim.mk b) := by
  intro e
  exact h (congrArg ResourceClaim.content_id e)

theorem ContentRepository.inv_create_claim (r : ContentRepository) (h : r.Inv) :
    r.create_claim.2.Inv := by
  have h0 : r.refcount r.backend.next_id = 0 := h.fresh _ (Nat.le_refl _)
  constructor
  · intro c
    by_cases hc : c = r.backend.next_id
    · subst hc
      have := h.count r.backend.next_id
      simp [ContentRepository.create_claim, ContentStore.open_write, upd_same]
      omega
    · have hne : (ResourceClaim.mk c) ≠ ⟨r.backend.next_id⟩ := claim_ne_of_id_ne hc
      simp [ContentRepository.create_claim, ContentStore.open_write, upd_other _ _ _ _ hc,
        List.count_cons_of_ne hne, h.count c]
  · intro c hc
    have hn : r.create_claim.2.backend.next_id = r.backend.next_id + 1 := rfl
    rw [hn] at hc
    have hne : c ≠ r.backend.next_id := by omega
    simp only [ContentRepository.create_claim, ContentStore.open_write, upd_other _ _ _ _ hne]
    exact h.fresh c (by omega)
  · intro c
    by_cases hc : c = r.backend.next_id
    · subst hc
      simp [ContentRepository.create_claim, ContentStore.open_write, upd_same]
    · simp [ContentRepository.create_claim, ContentStore.open_write, upd_other _ _ _ _ hc,
        h.stored c]

theorem ContentRepository.inv_clone_claim (r : ContentRepository) (id : Nat) (h : r.Inv)
    (hpos : 0 < r.refcount id) : (r.clone_claim id).2.Inv := by
  constructor
  · intro c
    by_cases hc : c = id
    · subst hc
      have := h.count c
      simp [ContentRepository.clone_claim, upd_same]
      omega
    · have hne : (ResourceClaim.mk c) ≠ ⟨id⟩ := claim_ne_of_id_ne hc
      simp [ContentRepository.clone_claim, upd_other _ _ _ _ hc, List.count_cons_of_ne hne,
        h.count c]
  · intro c hc
    have hne : c ≠ id := by
      intro e
      subst e
      have := h.fresh c hc
      omega
    simp [ContentRepository.clone_claim, upd_other _ _ _ _ hne]
    exact h.fresh c hc
  · intro c
    by_cases hc : c = id
    · subst hc
      have := h.stored c
      simp [ContentRepository.clone_claim, upd_same]
      intro e
      have := this.1 e
      omega
    · simp [ContentRepository.clone_claim, upd_other _ _ _ _ hc, h.stored c]

theorem ContentRepository.inv_release (r : ContentRepository) (id : Nat) (h : r.Inv) :
    (r.release id).Inv := by
  constructor
  · intro c
    by_cases hc : c = id
    · subst hc
      have := h.count c
      simp [ContentRepository.release, upd_same, List.count_erase_self]
      omega
    · have hne : (ResourceClaim.mk c) ≠ ⟨id⟩ := claim_ne_of_id_ne hc
      simp [ContentRepository.release, upd_other _ _ _ _ hc, List.count_erase_of_ne hne,
        h.count c]
  · intro c hc
    have hnext : (r.release id).backend.next_id = r.backend.next_id := by
      unfold ContentRepository.release
      by_cases h1 : r.refcount id - 1 = 0 <;> simp [h1, ContentStore.remove]
    rw [hnext] at hc
    by_cases hcid : c = id
    · subst hcid
      have := h.fresh c hc
      simp [ContentRepository.release, upd_same]
      omega
    · simp [ContentRepository.release, upd_other _ _ _ _ hcid]
      exact h.fresh c hc
  · intro c
    by_cases hc : c = id
    · subst hc
      have := h.stored c
      by_cases h1 : r.refcount c - 1 = 0
      · simp [ContentRepository.release, upd_same, h1, ContentStore.remove]
      · simp [ContentRepository.release, upd_same, h1]
        rw [this]
        omega
    · by_cases h1 : r.refcount id - 1 = 0
      · simp [ContentRepository.release, upd_other _ _ _ _ hc, h1, ContentStore.remove,
          h.stored c]
      · simp [ContentRepository.release, upd_other _ _ _ _ hc, h1, h.stored c]

theorem ContentStore.append_next_id (b : ContentStore) (id : Nat) (bytes : List Byte) :
    (b.append id bytes).next_id = b.next_id := by
  unfold ContentStore.append
  cases b.blobs id <;> rfl

theorem ContentStore.append_blobs_none (b : ContentStore) (id : Nat) (bytes : List Byte)
    (c : Nat) : (b.append id bytes).blobs c = none ↔ b.blobs c = none := by
  unfold ContentStore.append
  cases hb : b.blobs id with
  | none => simp
  | some old =>
    by_cases hc : c = id
    · subst hc
      simp [upd_same, hb]
    · simp [upd_other _ _ _ _ hc]

theorem ContentRepository.inv_write (r : ContentRepository) (id : Nat) (bytes : List Byte)
    (h : r.Inv) : (r.write id bytes).Inv := by
  constructor
  · intro c
    exact h.count c
  · intro c hc
    simp only [ContentRepository.write, ContentStore.append_next_id] at hc
    exact h.fresh c hc
  · intro c
    simp only [ContentRepository.write, ContentStore.append_blobs_none]
    exact h.stored c

theorem RepoReachable.inv {r : ContentRepository} (h : RepoReachable r) : r.Inv := by
  induction h with
  | init => exact ContentRepository.inv_empty
  | step _ hs ih =>
    cases hs with
    | create => exact ContentRepository.inv_create_claim _ ih
    | clone c hc =>
      apply ContentRepository.inv_clone_claim _ _ ih
      have h1 := ih.count c.content_id
      have hpos : 0 < List.count c _ := List.count_pos_iff.mpr hc
      have h2 : (ResourceClaim.mk c.content_id) = c := rfl
      rw [h2] at h1
      omega
    | release c hc => exact ContentRepository.inv_release _ _ ih
    | write c hc bytes => exact ContentRepository.inv_write _ _ _ ih

/-! ## The callbacks of the tests over content streams -/

theorem sizeToInt64_congr {a b : Nat} (h : a % 2 ^ 64 = b % 2 ^ 64) :
    sizeToInt64 a = sizeToInt64 b := by
  unfold sizeToInt64
  rw [h]

theorem sizeToInt64_small {a : Nat} (h : a < 2 ^ 63) : sizeToInt64 a = Int.ofNat a := by
  unfold sizeToInt64 INT64_MAX
  have h1 : a % 2 ^ 64 = a := Nat.mod_eq_of_lt (by omega)
  rw [h1]
  simp
  omega

theorem take_append_drop_length (l : List Byte) (n : Nat) :
    l.take n ++ l.drop (l.take n).length = l := by
  rw [List.length_take]
  by_cases h : n ≤ l.length
  · rw [Nat.min_eq_left h]
    exact List.take_append_drop n l
  · have h1 : l.length ≤ n := by omega
    rw [Nat.min_eq_right h1, List.take_of_length_le h1]
    simp

theorem contentApi_read (st : ContentStream) (buffer : List Byte) (len : Nat) :
    contentApi.read st buffer len = ContentStream.read st buffer len := rfl

theorem contentApi_isError (r : Nat) : contentApi.isError r = (r == STREAM_ERROR) := rfl

open ContentRepositoryDependentTests in
/-- Over a content stream the loop of `ReadUntilItCan::process` ends as soon as it was given one
iteration per started 1024-byte chunk and one more: it returns the number of bytes that were
left and has appended exactly these bytes to `value_`. -/
theorem ReadUntilItCan.loop_content (fuel : Nat) :
    ∀ (st : ContentStream) (buffer : List Byte) (bytes_read : Nat) (value_ : List Byte),
      ((st.data.drop st.pos).length + 1023) / 1024 + 1 ≤ fuel →
      ∃ st', ReadUntilItCan.loop contentApi fuel st buffer bytes_read value_
        = some (sizeToInt64 (bytes_read + (st.data.drop st.pos).length),
                value_ ++ st.data.drop st.pos, st') := by
  induction fuel with
  | zero => intro st buf br v h; omega
  | succ n ih =>
    intro st buf br v h
    unfold ReadUntilItCan.loop
    have hlen : ((List.drop st.pos st.data).take 1024).length
        = min 1024 (List.drop st.pos st.data).length := List.length_take _ _
    have hne : ¬ (((List.drop st.pos st.data).take 1024).length = STREAM_ERROR) := by
      unfold STREAM_ERROR SIZE_MAX
      omega
    simp only [contentApi_read, contentApi_isError, ContentStream.read, beq_iff_eq, hne, if_false]
    by_cases h0 : ((List.drop st.pos st.data).take 1024).length = 0
    · have hrest : (List.drop st.pos st.data).length = 0 := by omega
      have hnil : List.drop st.pos st.data = [] := List.length_eq_zero.mp hrest
      simp [hnil]
    · simp only [h0, if_false]
      have hdrop : List.drop (st.pos + ((List.drop st.pos st.data).take 1024).length) st.data
          = List.drop ((List.drop st.pos st.data).take 1024).length (List.drop st.pos st.data) := by
        rw [List.drop_drop]
      have hfuel : ((List.drop (st.pos + ((List.drop st.pos st.data).take 1024).length)
          st.data).length + 1023) / 1024 + 1 ≤ n := by
        rw [hdrop, List.length_drop]
        omega
      obtain ⟨st', hst'⟩ := ih
        { data := st.data, pos := st.pos + ((List.drop st.pos st.data).take 1024).length }
        ((List.drop st.pos st.data).take 1024)
        ((br + ((List.drop st.pos st.data).take 1024).length) % 2 ^ 64)
        (v ++ (List.drop st.pos st.data).take 1024) hfuel
      refine ⟨st', ?_⟩
      rw [hst']
      simp only [hdrop, List.append_assoc, take_append_drop_length]
      congr 2
      apply sizeToInt64_congr
      rw [List.length_drop]
      omega

open ContentRepositoryDependentTests in
/-- Run on a source over `window`, `ReadUntilItCan::process` returns the length of the window
and leaves `value_` equal to the window, whatever `value_` held before. -/
theorem ReadUntilItCan.callback_source (fuel : Nat) (value_ window : List Byte)
    (hfuel : window.length / 1024 + 2 ≤ fuel) :
    ReadUntilItCan.callback fuel value_ (ContentStream.source window)
      = some (sizeToInt64 window.length, window) := by
  have h : (((ContentStream.source window).data.drop (ContentStream.source window).pos).length
      + 1023) / 1024 + 1 ≤ fuel := by
    simp only [ContentStream.source, List.drop_zero]
    omega
  obtain ⟨st', hst'⟩ := ReadUntilItCan.loop_content fuel (ContentStream.source window) [] 0 [] h
  simp only [ContentStream.source, List.drop_zero, Nat.zero_add, List.nil_append] at hst'
  simp [ReadUntilItCan.callback, ReadUntilItCan.process, ContentStream.source, hst']

open ContentRepositoryDependentTests in
/-- Handed a fresh sink, `WriteStringToFlowFile::process` writes exactly its buffer and returns
the length of the buffer (a `std::vector` holds fewer than 2^63 bytes). -/
theorem WriteStringToFlowFile.process_sink (buffer_ : List Byte) (h : buffer_.length < 2 ^ 63) :
    WriteStringToFlowFile.process contentApi buffer_ ContentStream.sink
      = (some (Int.ofNat buffer_.length), { data := buffer_, pos := 0 }) := by
  have hne : ¬ (buffer_.length = STREAM_ERROR) := by
    unfold STREAM_ERROR SIZE_MAX
    omega
  have hle : buffer_.length ≤ INT64_MAX := by
    unfold INT64_MAX
    omega
  simp [WriteStringToFlowFile.process, contentApi, ContentStream.write, ContentStream.sink,
    narrowInt64, hne, hle]

/-! ## Lists of flow-file records -/

namespace ProcessSession

theorem find_some {s : ProcessSession} {u : Nat} {f : FlowFile} (h : s.find u = some f) :
    f ∈ s.files ∧ f.uuid = u := by
  unfold find at h
  refine ⟨List.mem_of_find?_eq_some h, ?_⟩
  have := List.find?_some h
  simpa using this

theorem find_replaceFile (fs : List FlowFile) (ff : FlowFile) (u : Nat) :
    (replaceFile fs ff).find? (fun f => f.uuid == u)
      = if u = ff.uuid then (fs.find? (fun f => f.uuid == u)).map (fun _ => ff)
        else fs.find? (fun f => f.uuid == u) := by
  induction fs with
  | nil => simp [replaceFile]
  | cons f fs ih =>
    unfold replaceFile
    by_cases h1 : f.uuid = ff.uuid
    · by_cases h2 : u = ff.uuid
      · simp [h1, h2, List.find?_cons]
      · have h3 : ¬ (ff.uuid = u) := fun e => h2 e.symm
        simp [h1, h2, h3, List.find?_cons]
    · by_cases h2 : u = ff.uuid
      · subst h2
        simp [h1, List.find?_cons, ih]
      · by_cases h3 : f.uuid = u
        · simp [h1, h2, h3, List.find?_cons]
        · simp [h1, h2, h3, List.find?_cons, ih]

theorem mem_replaceFile {fs : List FlowFile} {ff f : FlowFile} (h : f ∈ replaceFile fs ff) :
    f = ff ∨ f ∈ fs := by
  induction fs with
  | nil => simp [replaceFile] at h
  | cons g fs ih =>
    unfold replaceFile at h
    by_cases h1 : g.uuid = ff.uuid
    · simp only [h1, if_true, List.mem_cons] at h
      rcases h with h | h
      · exact Or.inl h
      · exact Or.inr (List.mem_cons_of_mem _ h)
    · simp only [h1, if_false, List.mem_cons] at h
      rcases h with h | h
      · exact Or.inr (by simp [h])
      · rcases ih h with h | h
        · exact Or.inl h
        · exact Or.inr (List.mem_cons_of_mem _ h)

theorem replaceFile_mem {fs : List FlowFile} {ff f0 : FlowFile}
    (h : fs.find? (fun f => f.uuid == ff.uuid) = some f0) : ff ∈ replaceFile fs ff := by
  induction fs with
  | nil => simp at h
  | cons g fs ih =>
    unfold replaceFile
    by_cases h1 : g.uuid = ff.uuid
    · simp [h1]
    · simp only [h1, if_false, List.mem_cons]
      right
      apply ih
      simpa [List.find?_cons, h1] using h

theorem handles_append (a b : List FlowFile) : handles (a ++ b) = handles a ++ handles b := by
  simp [handles, List.filterMap_append]

theorem handles_cons (f : FlowFile) (fs : List FlowFile) :
    handles (f :: fs) = f.claim.toList ++ handles fs := by
  cases h : f.claim <;> simp [handles, List.filterMap_cons, h]

theorem count_handles_replaceFile {fs : List FlowFile} {ff f0 : FlowFile}
    (h : fs.find? (fun f => f.uuid == ff.uuid) = some f0) (k : ResourceClaim) :
    (handles (replaceFile fs ff)).count k + f0.claim.toList.count k
      = (handles fs).count k + ff.claim.toList.count k := by
  induction fs with
  | nil => simp at h
  | cons g fs ih =>
    unfold replaceFile
    by_cases h1 : g.uuid = ff.uuid
    · have hg : g = f0 := by simpa [List.find?_cons, h1] using h
      subst hg
      simp only [h1, if_true, handles_cons, List.count_append]
      omega
    · have h2 : fs.find? (fun f => f.uuid == ff.uuid) = some f0 := by
        simpa [List.find?_cons, h1] using h
      have := ih h2
      simp only [h1, if_false, handles_cons, List.count_append]
      omega

theorem count_handles_filter (fs : List FlowFile) (p : FlowFile → Bool) (k : ResourceClaim) :
    (handles fs).count k
      = (handles (fs.filter p)).count k + (handles (fs.filter (fun f => !p f))).count k := by
  induction fs with
  | nil => simp [handles]
  | cons f fs ih =>
    by_cases hp : p f = true
    · simp only [List.filter_cons, hp, if_true, Bool.not_true, handles_cons, List.count_append]
      simp only [Bool.false_eq_true, if_false]
      omega
    · have hp' : p f = false := by simpa using hp
      simp only [List.filter_cons, hp', Bool.not_false, if_true, handles_cons, List.count_append]
      simp only [Bool.false_eq_true, if_false]
      omega

theorem count_handles_pos {fs : List FlowFile} {f : FlowFile} {k : ResourceClaim} (h : f ∈ fs)
    (hk : f.claim = some k) : 0 < (handles fs).count k := by
  apply List.count_pos_iff.mpr
  simp only [handles, List.mem_filterMap]
  exact ⟨f, h, hk⟩

theorem holder_unique {fs : List FlowFile} {f g : FlowFile} {k : ResourceClaim} (hf : f ∈ fs)
    (hg : g ∈ fs) (hfk : f.claim = some k) (hgk : g.claim = some k)
    (h1 : (handles fs).count k ≤ 1) : f = g := by
  induction fs with
  | nil => simp at hf
  | cons a fs ih =>
    rw [handles_cons, List.count_append] at h1
    rcases List.mem_cons.mp hf with hf1 | hf1 <;> rcases List.mem_cons.mp hg with hg1 | hg1
    · rw [hf1, hg1]
    · subst hf1
      have := count_handles_pos hg1 hgk
      simp [hfk] at h1
      omega
    · subst hg1
      have := count_handles_pos hf1 hfk
      simp [hgk] at h1
      omega
    · exact ih hf1 hg1 (by omega)

theorem find_filter {fs : List FlowFile} {u : Nat} {f : FlowFile} (q : FlowFile → Bool)
    (hq : ∀ g : FlowFile, g.uuid = u → q g = true)
    (h : fs.find? (fun f => f.uuid == u) = some f) :
    (fs.filter q).find? (fun f => f.uuid == u) = some f := by
  induction fs with
  | nil => simp at h
  | cons g fs ih =>
    by_cases hg : g.uuid = u
    · have : g = f := by simpa [List.find?_cons, hg] using h
      subst this
      simp [List.filter_cons, hq g hg, List.find?_cons, hg]
    · have h2 : fs.find? (fun f => f.uuid == u) = some f := by
        simpa [List.find?_cons, hg] using h
      by_cases hqg : q g = true
      · simp [List.filter_cons, hqg, List.find?_cons, hg, ih h2]
      · simp [List.filter_cons, hqg, ih h2]

theorem find_append_new {fs : List FlowFile} (ff : FlowFile)
    (h : ∀ f ∈ fs, f.uuid < ff.uuid) :
    (fs ++ [ff]).find? (fun f => f.uuid == ff.uuid) = some ff := by
  have hn : fs.find? (fun f => f.uuid == ff.uuid) = none := by
    apply List.find?_eq_none.mpr
    intro f hf
    have := h f hf
    simp
    omega
  simp [List.find?_append, hn]

end ProcessSession

/-! ## Releasing claims -/

theorem ContentRepository.releaseAll_cons (r : ContentRepository) (c : ResourceClaim)
    (cs : List ResourceClaim) :
    r.releaseAll (c :: cs) = (r.release c.content_id).releaseAll cs := rfl

theorem ContentRepository.inv_releaseAll (cs : List ResourceClaim) :
    ∀ r : ContentRepository, r.Inv → (r.releaseAll cs).Inv := by
  induction cs with
  | nil => intro r h; exact h
  | cons c cs ih =>
    intro r h
    rw [ContentRepository.releaseAll_cons]
    exact ih _ (ContentRepository.inv_release r c.content_id h)

theorem ContentRepository.release_refcount (r : ContentRepository) (id : Nat)
    (k : ResourceClaim) :
    (r.release id).refcount k.content_id = r.refcount k.content_id - [ResourceClaim.mk id].count k := by
  by_cases hk : k.content_id = id
  · have hk' : k = ⟨id⟩ := by cases k; simp at hk; simp [hk]
    subst hk'
    simp [ContentRepository.release, upd_same]
  · have hk' : ¬ ((ResourceClaim.mk id) = k) := by
      intro e
      exact hk (by rw [← e])
    simp [ContentRepository.release, upd_other _ _ _ _ hk, List.count_cons, hk']

theorem ContentRepository.releaseAll_refcount (cs : List ResourceClaim) :
    ∀ (r : ContentRepository) (k : ResourceClaim),
      (r.releaseAll cs).refcount k.content_id = r.refcount k.content_id - cs.count k := by
  induction cs with
  | nil => intro r k; simp [ContentRepository.releaseAll]
  | cons c cs ih =>
    intro r k
    rw [ContentRepository.releaseAll_cons, ih, ContentRepository.release_refcount]
    have hc : (ResourceClaim.mk c.content_id) = c := rfl
    rw [hc]
    have : (c :: cs).count k = [c].count k + cs.count k := by
      rw [← List.count_append]
      rfl
    omega

theorem ContentRepository.release_blobs (r : ContentRepository) (id c : Nat) :
    (r.release id).backend.blobs c = none ∨ (r.release id).backend.blobs c = r.backend.blobs c := by
  unfold ContentRepository.release
  by_cases h1 : r.refcount id - 1 = 0
  · by_cases hc : c = id
    · left
      simp [h1, ContentStore.remove, hc, upd_same]
    · right
      simp [h1, ContentStore.remove, upd_other _ _ _ _ hc]
  · right
    simp [h1]

theorem ContentRepository.releaseAll_blobs (cs : List ResourceClaim) :
    ∀ (r : ContentRepository) (c : Nat),
      (r.releaseAll cs).backend.blobs c = none
        ∨ (r.releaseAll cs).backend.blobs c = r.backend.blobs c := by
  induction cs with
  | nil => intro r c; right; rfl
  | cons k cs ih =>
    intro r c
    rw [ContentRepository.releaseAll_cons]
    rcases ih (r.release k.content_id) c with h | h
    · exact Or.inl h
    · rcases ContentRepository.release_blobs r k.content_id c with h2 | h2
      · exact Or.inl (h.trans h2)
      · exact Or.inr (h.trans h2)

/-! ## The session invariant is kept by every operation -/

namespace ProcessSession

theorem wf_start (relationships : List Relationship) (aip : Bool) :
    (start relationships aip).WF := by
  constructor
  · exact ContentRepository.inv_empty
  · intro k; simp [start, ContentRepository.empty, handles]
  · intro k; simp [start, handles]
  · intro f hf; simp [start] at hf
  · intro f hf; simp [start] at hf
  · intro w hw; simp [start] at hw

/-- A record without a claim is added under the next uuid. -/
theorem wf_addRecord {s : ProcessSession} (h : s.WF) (ff : FlowFile) (hu : ff.uuid = s.next_uuid)
    (hc : ff.claim = none) (created : List Nat) :
    ({ s with files := s.files ++ [ff], next_uuid := s.next_uuid + 1,
              created := created } : ProcessSession).WF := by
  have hh : handles (s.files ++ [ff]) = handles s.files := by
    simp [handles_append, handles, hc]
  constructor
  · exact h.repo
  · intro k
    simp only [hh]
    exact h.held k
  · intro k
    simp only [hh]
    exact h.staged k
  · intro f hf
    simp only [List.mem_append, List.mem_singleton] at hf
    rcases hf with hf | hf
    · have := h.uuids f hf
      simp only
      omega
    · subst hf
      simp only
      omega
  · intro f hf
    have := h.base_uuids f hf
    simp only
    omega
  · intro w hw
    obtain ⟨f, hf, d, h1, h2, h3, h4⟩ := h.writer w hw
    exact ⟨f, List.mem_append_left _ hf, d, h1, h2, h3, h4⟩

theorem wf_create {s : ProcessSession} (h : s.WF) : s.create.2.WF := by
  unfold create
  exact wf_addRecord h _ rfl rfl _

theorem wf_createFrom {s s' : ProcessSession} {parent u : Nat} (h : s.WF)
    (hs : s.createFrom parent = .ok (u, s')) : s'.WF := by
  unfold createFrom at hs
  cases hp : s.find parent with
  | none => simp [hp] at hs
  | some p =>
    simp only [hp, Except.ok.injEq, Prod.mk.injEq] at hs
    rw [← hs.2]
    exact wf_addRecord h _ rfl rfl _

/-- Only the staging sets change. -/
theorem wf_staging {s : ProcessSession} (h : s.WF) (added : List Nat)
    (transferred : List (Nat × Relationship)) (deleted : List Nat) :
    ({ s with added := added, transferred := transferred, deleted := deleted }
      : ProcessSession).WF :=
  ⟨h.repo, h.held, h.staged, h.uuids, h.base_uuids, h.writer⟩

theorem wf_transfer {s s' : ProcessSession} {u : Nat} {r : Relationship} (h : s.WF)
    (hs : s.transfer u r = .ok s') : s'.WF := by
  unfold transfer at hs
  cases hp : s.find u with
  | none => simp [hp] at hs
  | some p =>
    by_cases hk : s.knows r = true
    · simp only [hp, hk, if_true, Except.ok.injEq] at hs
      rw [← hs]
      exact wf_staging h _ _ _
    · simp [hp, hk] at hs

theorem wf_remove {s s' : ProcessSession} {u : Nat} (h : s.WF)
    (hs : s.remove u = .ok s') : s'.WF := by
  unfold remove at hs
  cases hp : s.find u with
  | none => simp [hp] at hs
  | some p =>
    simp only [hp, Except.ok.injEq] at hs
    rw [← hs]
    exact wf_staging h _ _ _

theorem wf_add {s s' : ProcessSession} {u : Nat} (h : s.WF)
    (hs : s.add u = .ok s') : s'.WF := by
  unfold add at hs
  cases hp : s.find u with
  | none => simp [hp] at hs
  | some p =>
    simp only [hp, Except.ok.injEq] at hs
    rw [← hs]
    exact wf_staging h _ _ _

theorem clone_ok {s s' : ProcessSession} {parent u offset size : Nat}
    (hs : s.clone parent offset size = .ok (u, s')) :
    ∃ p, s.find parent = some p ∧ offset + size ≤ p.size ∧ u = s.next_uuid ∧
      s' = { s with
        repo := (match p.claim with
          | none => s.repo
          | some c => (s.repo.clone_claim c.content_id).2),
        files := s.files ++ [p.clone s.next_uuid offset size],
        next_uuid := s.next_uuid + 1,
        cloned := s.next_uuid :: s.cloned,
        provisional := p.claim.toList ++ s.provisional } := by
  unfold clone at hs
  cases hp : s.find parent with
  | none => simp [hp] at hs
  | some p =>
    by_cases hw : offset + size > p.size
    · simp [hp, hw] at hs
    · simp only [hp, hw, if_false, Except.ok.injEq, Prod.mk.injEq] at hs
      exact ⟨p, rfl, by omega, hs.1.symm, hs.2.symm⟩

theorem wf_clone {s s' : ProcessSession} {parent u offset size : Nat} (h : s.WF)
    (hs : s.clone parent offset size = .ok (u, s')) : s'.WF := by
  obtain ⟨p, hp, _, _, rfl⟩ := clone_ok hs
  have hpm := (find_some hp).1
  cases hc : p.claim with
  | none =>
    have hh : handles (s.files ++ [p.clone s.next_uuid offset size]) = handles s.files := by
      simp [handles_append, handles, FlowFile.clone, hc]
    constructor
    · exact h.repo
    · intro k
      simp only [hh]
      exact h.held k
    · intro k
      simp only [hh, Option.toList, List.nil_append]
      exact h.staged k
    · intro f hf
      simp only [List.mem_append, List.mem_singleton] at hf
      rcases hf with hf | hf
      · have := h.uuids f hf
        simp only
        omega
      · subst hf
        simp only [FlowFile.clone]
        omega
    · intro f hf
      have := h.base_uuids f hf
      simp only
      omega
    · intro w hw
      obtain ⟨f, hf, d, h1, h2, h3, h4⟩ := h.writer w hw
      exact ⟨f, List.mem_append_left _ hf, d, h1, h2, h3, h4⟩
  | some c =>
    have hh : ∀ k, (handles (s.files ++ [p.clone s.next_uuid offset size])).count k
        = (handles s.files).count k + [c].count k := by
      intro k
      simp [handles_append, handles, FlowFile.clone, hc]
    have hpos : 0 < s.repo.refcount c.content_id := by
      have := h.held c
      have := count_handles_pos hpm hc
      omega
    constructor
    · exact ContentRepository.inv_clone_claim _ _ h.repo hpos
    · intro k
      simp only [hh]
      have := h.held k
      by_cases hk : k.content_id = c.content_id
      · have hk' : k = c := by cases k; cases c; simp at hk; simp [hk]
        subst hk'
        simp [ContentRepository.clone_claim, upd_same]
        omega
      · have hk' : ¬ (c = k) := fun e => hk (by rw [e])
        simp [ContentRepository.clone_claim, upd_other _ _ _ _ hk, List.count_cons, hk']
        omega
    · intro k
      simp only [hh, Option.toList, List.count_append]
      have := h.staged k
      omega
    · intro f hf
      simp only [List.mem_append, List.mem_singleton] at hf
      rcases hf with hf | hf
      · have := h.uuids f hf
        simp only
        omega
      · subst hf
        simp only [FlowFile.clone]
        omega
    · intro f hf
      have := h.base_uuids f hf
      simp only
      omega
    · intro w hw
      obtain ⟨f, hf, d, h1, h2, h3, h4⟩ := h.writer w hw
      exact ⟨f, List.mem_append_left _ hf, d, h1, h2, h3, h4⟩

end ProcessSession

namespace ProcessSession

theorem create_claim_write_blobs (r : ContentRepository) (bytes : List Byte) (c : Nat) :
    (r.create_claim.2.write r.create_claim.1.content_id bytes).backend.blobs c
      = if c = r.backend.next_id then some bytes else r.backend.blobs c := by
  by_cases hc : c = r.backend.next_id
  · subst hc
    simp [ContentRepository.write, ContentRepository.create_claim, ContentStore.open_write,
      ContentStore.append, upd_same]
  · simp [ContentRepository.write, ContentRepository.create_claim, ContentStore.open_write,
      ContentStore.append, upd_same, upd_other _ _ _ _ hc, hc]

theorem create_claim_write_refcount (r : ContentRepository) (bytes : List Byte) (c : Nat) :
    (r.create_claim.2.write r.create_claim.1.content_id bytes).refcount c
      = if c = r.backend.next_id then 1 else r.refcount c := by
  by_cases hc : c = r.backend.next_id
  · subst hc
    simp [ContentRepository.write, ContentRepository.create_claim, ContentStore.open_write,
      upd_same]
  · simp [ContentRepository.write, ContentRepository.create_claim, ContentStore.open_write,
      upd_other _ _ _ _ hc, hc]

theorem find_uuid_self {s : ProcessSession} {u : Nat} {ff : FlowFile} (h : s.find u = some ff) :
    s.files.find? (fun f => f.uuid == ff.uuid) = some ff := by
  have := (find_some h).2
  rw [this]
  exact h

theorem wf_materialize {s : ProcessSession} {u : Nat} {ff : FlowFile} (h : s.WF)
    (hf : s.find u = some ff) (bytes : List Byte) : (s.materialize ff bytes).WF := by
  have hmem := (find_some hf).1
  have hfind : s.files.find? (fun f => f.uuid == ({ ff with
      claim := some s.repo.create_claim.1, offset := 0, size := bytes.length } : FlowFile).uuid)
      = some ff := find_uuid_self hf
  have hfresh : s.repo.refcount s.repo.backend.next_id = 0 := h.repo.fresh _ (Nat.le_refl _)
  have hid : s.repo.create_claim.1 = ⟨s.repo.backend.next_id⟩ := rfl
  have hrep : ∀ k : ResourceClaim, (handles (replaceFile s.files { ff with
      claim := some s.repo.create_claim.1, offset := 0, size := bytes.length })).count k
      + ff.claim.toList.count k
      = (handles s.files).count k + [s.repo.create_claim.1].count k :=
    fun k => count_handles_replaceFile hfind k
  constructor
  · exact ContentRepository.inv_write _ _ _ (ContentRepository.inv_create_claim _ h.repo)
  · intro k
    have h1 := hrep k
    have h2 := h.held k
    simp only [materialize, create_claim_write_refcount, List.count_append]
    by_cases hk : k.content_id = s.repo.backend.next_id
    · have hk' : k = ⟨s.repo.backend.next_id⟩ := by cases k; simp at hk; simp [hk]
      subst hk'
      have hc1 : [s.repo.create_claim.1].count (ResourceClaim.mk s.repo.backend.next_id) = 1 := by
        simp [hid]
      simp only [if_true]
      simp only at h2
      omega
    · have hc0 : [s.repo.create_claim.1].count k = 0 := by
        have hk' : ¬ (s.repo.create_claim.1 = k) := by
          intro e
          exact hk (by rw [← e, hid])
        simp [List.count_cons, hk']
      simp only [hk, if_false]
      omega
  · intro k
    have h1 := hrep k
    have h2 := h.staged k
    have h3 : (s.repo.create_claim.1 :: s.provisional).count k
        = [s.repo.create_claim.1].count k + s.provisional.count k := by
      rw [← List.count_append]
      rfl
    simp only [materialize, List.count_append, h3]
    omega
  · intro f hfm
    rcases mem_replaceFile hfm with hfm | hfm
    · subst hfm
      exact h.uuids ff hmem
    · exact h.uuids f hfm
  · exact h.base_uuids
  · intro w hw
    simp only [materialize, Option.some.injEq] at hw
    subst hw
    refine ⟨_, replaceFile_mem hfind, bytes, rfl, rfl, ?_, rfl⟩
    simp only [materialize, create_claim_write_blobs]
    simp [ContentRepository.create_claim, ContentStore.open_write]

theorem appendSafe_spec {s : ProcessSession} {ff : FlowFile} (h : s.appendSafe ff = true) :
    ∃ c, ff.claim = some c ∧ s.writer = some c.content_id ∧ s.repo.refcount c.content_id = 1 := by
  unfold appendSafe at h
  cases hc : ff.claim with
  | none => simp [hc] at h
  | some c =>
    simp only [hc, Bool.and_eq_true, beq_iff_eq] at h
    exact ⟨c, rfl, h.1.2, h.2⟩

theorem write_blobs_self (r : ContentRepository) (id : Nat) (d bytes : List Byte)
    (h : r.backend.blobs id = some d) :
    (r.write id bytes).backend.blobs id = some (d ++ bytes) := by
  simp [ContentRepository.write, ContentStore.append, h, upd_same]

/-- In a well-formed session a flow file that is append-safe spans the whole content of the
session's open writer. -/
theorem appendSafe_whole {s : ProcessSession} {u : Nat} {ff : FlowFile} (h : s.WF)
    (hf : s.find u = some ff) (hs : s.appendSafe ff = true) :
    ∃ c d, ff.claim = some c ∧ s.repo.backend.blobs c.content_id = some d ∧ ff.offset = 0 ∧
      ff.size = d.length := by
  obtain ⟨c, hc, hw, hr⟩ := appendSafe_spec hs
  obtain ⟨f, hfm, d, h1, h2, h3, h4⟩ := h.writer _ hw
  have hcount : (handles s.files).count c ≤ 1 := by
    have := h.held c
    omega
  have hc' : (ResourceClaim.mk c.content_id) = c := rfl
  rw [hc'] at h1
  have heq : f = ff := holder_unique hfm (find_some hf).1 h1 hc hcount
  subst heq
  exact ⟨c, d, hc, h3, h2, h4⟩

theorem wf_appendInPlace {s : ProcessSession} {u : Nat} {ff : FlowFile} (h : s.WF)
    (hf : s.find u = some ff) (hs : s.appendSafe ff = true) (bytes : List Byte) :
    (s.appendInPlace ff bytes).WF := by
  obtain ⟨c, hc, hw, hr⟩ := appendSafe_spec hs
  obtain ⟨c', d, hc2, hd, hoff, hsize⟩ := appendSafe_whole h hf hs
  have hcc : c' = c := by
    rw [hc] at hc2
    exact (Option.some.inj hc2).symm
  subst hcc
  have hfind : s.files.find? (fun f => f.uuid == ({ ff with
      size := ff.size + bytes.length } : FlowFile).uuid) = some ff := find_uuid_self hf
  have hmem := (find_some hf).1
  have hrep : ∀ k : ResourceClaim,
      (handles (replaceFile s.files { ff with size := ff.size + bytes.length })).count k
        = (handles s.files).count k := by
    intro k
    have h1 : (handles (replaceFile s.files { ff with size := ff.size + bytes.length })).count k
        + ff.claim.toList.count k = (handles s.files).count k + ff.claim.toList.count k :=
      count_handles_replaceFile hfind k
    omega
  have hshape : s.appendInPlace ff bytes = { s with
      repo := s.repo.write c'.content_id bytes,
      files := replaceFile s.files { ff with size := ff.size + bytes.length },
      updated := ff.uuid :: s.updated } := by
    unfold appendInPlace
    rw [hc]
  rw [hshape]
  constructor
  · exact ContentRepository.inv_write _ _ _ h.repo
  · intro k
    have h2 := h.held k
    simp only [ContentRepository.write, hrep]
    exact h2
  · intro k
    have h2 := h.staged k
    simp only [hrep]
    exact h2
  · intro f hfm
    rcases mem_replaceFile hfm with hfm | hfm
    · subst hfm
      exact h.uuids ff hmem
    · exact h.uuids f hfm
  · exact h.base_uuids
  · intro w hw2
    simp only at hw2
    rw [hw] at hw2
    have hwc : w = c'.content_id := (Option.some.inj hw2).symm
    subst hwc
    refine ⟨_, replaceFile_mem hfind, d ++ bytes, hc, hoff, ?_, ?_⟩
    · exact write_blobs_self _ _ _ _ hd
    · simp [hsize]

theorem write_ok {s s' : ProcessSession} {u : Nat} {cb : OutputStreamCallback}
    (hs : s.write u cb = .ok s') :
    ∃ ff ret, s.find u = some ff ∧ (cb ContentStream.sink).1 = some ret ∧ 0 ≤ ret ∧
      s' = s.materialize ff (cb ContentStream.sink).2.data := by
  unfold write at hs
  cases hp : s.find u with
  | none => simp [hp] at hs
  | some ff =>
    rcases hcb : cb ContentStream.sink with ⟨r, out⟩
    cases r with
    | none => simp [hp, hcb] at hs
    | some ret =>
      by_cases hr : ret < 0
      · simp [hp, hcb, hr] at hs
      · simp only [hp, hcb, hr, if_false, Except.ok.injEq] at hs
        exact ⟨ff, ret, rfl, rfl, by omega, hs.symm⟩

theorem wf_write {s s' : ProcessSession} {u : Nat} {cb : OutputStreamCallback} (h : s.WF)
    (hs : s.write u cb = .ok s') : s'.WF := by
  obtain ⟨ff, ret, hf, _, _, rfl⟩ := write_ok hs
  exact wf_materialize h hf _

theorem append_ok {s s' : ProcessSession} {u : Nat} {cb : OutputStreamCallback}
    (hs : s.append u cb = .ok s') :
    ∃ ff existing ret, s.find u = some ff ∧ s.content ff = .ok existing ∧
      (cb ContentStream.sink).1 = some ret ∧ 0 ≤ ret ∧
      s' = if s.appendSafe ff then s.appendInPlace ff (cb ContentStream.sink).2.data
           else s.materialize ff (existing ++ (cb ContentStream.sink).2.data) := by
  unfold append at hs
  cases hp : s.find u with
  | none => simp [hp] at hs
  | some ff =>
    cases hc : s.content ff with
    | error e => simp [hp, hc] at hs
    | ok existing =>
      rcases hcb : cb ContentStream.sink with ⟨r, out⟩
      cases r with
      | none => simp [hp, hc, hcb] at hs
      | some ret =>
        by_cases hr : ret < 0
        · simp [hp, hc, hcb, hr] at hs
        · refine ⟨ff, existing, ret, rfl, hc, rfl, by omega, ?_⟩
          by_cases hsafe : s.appendSafe ff = true
          · simp only [hp, hc, hcb, hr, if_false, hsafe, if_true, Except.ok.injEq] at hs
            simp only [hsafe, if_true]
            exact hs.symm
          · have hsafe' : s.appendSafe ff = false := by simpa using hsafe
            simp only [hp, hc, hcb, hr, if_false, hsafe', Bool.false_eq_true,
              Except.ok.injEq] at hs
            simp only [hsafe', Bool.false_eq_true, if_false]
            exact hs.symm

theorem wf_append {s s' : ProcessSession} {u : Nat} {cb : OutputStreamCallback} (h : s.WF)
    (hs : s.append u cb = .ok s') : s'.WF := by
  obtain ⟨ff, existing, ret, hf, _, _, _, rfl⟩ := append_ok hs
  by_cases hsafe : s.appendSafe ff = true
  · simp only [hsafe, if_true]
    exact wf_appendInPlace h hf hsafe _
  · simp only [hsafe]
    exact wf_materialize h hf _

end ProcessSession

namespace ProcessSession

theorem commit_ok {s s' : ProcessSession} (hs : s.commit = .ok s') :
    s' = { s with
      repo := s.repo.releaseAll (s.dropped
        ++ handles (s.files.filter (fun f => decide (f.uuid ∈ s.deleted)))),
      files := s.files.filter (fun f => decide (f.uuid ∉ s.deleted)),
      base := s.files.filter (fun f => decide (f.uuid ∉ s.deleted)),
      queues := s.queues ++
        (s.transferred.filter (fun t => decide (t.1 ∉ s.deleted))).map (fun t => (t.2.name, t.1)),
      created := [], updated := [], cloned := [], added := [], transferred := [],
      deleted := [], provisional := [], dropped := [], writer := none } := by
  unfold commit at hs
  by_cases hv : s.validate = true
  · simp only [hv, if_true, Except.ok.injEq] at hs
    exact hs.symm
  · simp [hv] at hs

theorem wf_commit {s s' : ProcessSession} (h : s.WF) (hs : s.commit = .ok s') : s'.WF := by
  rw [commit_ok hs]
  have hpart : ∀ k : ResourceClaim, (handles s.files).count k
      = (handles (s.files.filter (fun f => decide (f.uuid ∉ s.deleted)))).count k
        + (handles (s.files.filter (fun f => decide (f.uuid ∈ s.deleted)))).count k := by
    intro k
    have := count_handles_filter s.files (fun f => decide (f.uuid ∉ s.deleted)) k
    have he : (fun f : FlowFile => !(decide (f.uuid ∉ s.deleted)))
        = (fun f : FlowFile => decide (f.uuid ∈ s.deleted)) := by
      funext f
      simp
    rw [he] at this
    exact this
  constructor
  · exact ContentRepository.inv_releaseAll _ _ h.repo
  · intro k
    have h1 := h.held k
    have h2 := hpart k
    simp only [ContentRepository.releaseAll_refcount, List.count_append, List.count_nil]
    omega
  · intro k
    simp
  · intro f hf
    exact h.uuids f (List.mem_of_mem_filter hf)
  · intro f hf
    exact h.uuids f (List.mem_of_mem_filter hf)
  · intro w hw
    simp at hw

theorem wf_rollback {s : ProcessSession} (h : s.WF) : s.rollback.WF := by
  unfold rollback
  constructor
  · exact ContentRepository.inv_releaseAll _ _ h.repo
  · intro k
    have h1 := h.held k
    have h2 := h.staged k
    simp only [ContentRepository.releaseAll_refcount, List.count_nil]
    omega
  · intro k
    simp
  · exact h.base_uuids
  · exact h.base_uuids
  · intro w hw
    simp at hw

end ProcessSession

/-- Every state a session can be in satisfies the session invariant. -/
theorem SessionReachable.wf {s : ProcessSession} (h : SessionReachable s) : s.WF := by
  induction h with
  | start rels aip => exact ProcessSession.wf_start rels aip
  | create _ ih => exact ProcessSession.wf_create ih
  | createFrom _ hs ih => exact ProcessSession.wf_createFrom ih hs
  | clone _ hs ih => exact ProcessSession.wf_clone ih hs
  | write _ hs ih => exact ProcessSession.wf_write ih hs
  | append _ hs ih => exact ProcessSession.wf_append ih hs
  | transfer _ hs ih => exact ProcessSession.wf_transfer ih hs
  | remove _ hs ih => exact ProcessSession.wf_remove ih hs
  | add _ hs ih => exact ProcessSession.wf_add ih hs
  | commit _ hs ih => exact ProcessSession.wf_commit ih hs
  | rollback _ ih => exact ProcessSession.wf_rollback ih

/-! ## Reading flow-file content -/

theorem window_length {content r : List Byte} {offset size : Nat}
    (h : window content offset size = .ok r) : r.length = size := by
  unfold window at h
  by_cases hb : offset + size ≤ content.length
  · simp only [hb, if_true, Except.ok.injEq] at h
    rw [← h, List.length_take, List.length_drop]
    omega
  · simp [hb] at h

theorem window_whole (content : List Byte) : window content 0 content.length = .ok content := by
  simp [window]

theorem window_sub {content r : List Byte} {offset size : Nat} (a b : Nat)
    (h : window content offset size = .ok r) (hab : a + b ≤ size) :
    window content (offset + a) b = .ok ((r.drop a).take b) := by
  unfold window at h ⊢
  by_cases hb : offset + size ≤ content.length
  · simp only [hb, if_true, Except.ok.injEq] at h
    have hb2 : offset + a + b ≤ content.length := by omega
    simp only [hb2, if_true, Except.ok.injEq]
    rw [← h, List.drop_take, List.drop_drop, List.take_take]
    congr 1
    omega
  · simp [hb] at h

theorem source_data (w : List Byte) : (ContentStream.source w).data = w := rfl

namespace ProcessSession

theorem readBuffer_iff {s : ProcessSession} {u : Nat} {r : List Byte} :
    s.readBuffer u = .ok r ↔ ∃ ff, s.find u = some ff ∧ s.content ff = .ok r := by
  unfold readBuffer reader
  cases hf : s.find u with
  | none => simp
  | some ff =>
    cases hc : s.content ff with
    | error e => simp [hc]
    | ok bytes => simp [hc, ContentStream.source]

theorem content_length {s : ProcessSession} {ff : FlowFile} {r : List Byte}
    (h : s.content ff = .ok r) : r.length = ff.size := by
  unfold content at h
  cases hc : ff.claim with
  | none =>
    rw [hc] at h
    exact window_length h
  | some c =>
    rw [hc] at h
    unfold ContentRepository.reader at h
    cases hb : s.repo.backend.blobs c.content_id with
    | none => simp [hb] at h
    | some d =>
      simp only [hb] at h
      exact window_length h

open ContentRepositoryDependentTests in
/-- What `read` with the `ReadUntilItCan` callback does when `readBuffer` returns `r`: the
callback is left with exactly `r`. -/
theorem read_of_readBuffer {s : ProcessSession} {u : Nat} {r : List Byte}
    (h : s.readBuffer u = .ok r) (fuel : Nat) (value_ : List Byte)
    (hfuel : r.length / 1024 + 2 ≤ fuel) :
    s.read u (ReadUntilItCan.callback fuel) value_
      = some (if sizeToInt64 r.length < 0 then .error Error.StreamIo
              else .ok (sizeToInt64 r.length), r) := by
  obtain ⟨ff, hf, hc⟩ := readBuffer_iff.mp h
  unfold read reader
  simp only [hf, hc]
  rw [ReadUntilItCan.callback_source fuel value_ r hfuel]

theorem materialize_find {s : ProcessSession} {u : Nat} {ff : FlowFile}
    (hf : s.find u = some ff) (bytes : List Byte) :
    (s.materialize ff bytes).find u
      = some { ff with claim := some ⟨s.repo.backend.next_id⟩, offset := 0,
                       size := bytes.length } := by
  have hu := (find_some hf).2
  unfold find at hf ⊢
  simp only [materialize, find_replaceFile, hu, if_true, hf, Option.map_some']
  rfl

theorem materialize_readBuffer {s : ProcessSession} {u : Nat} {ff : FlowFile}
    (hf : s.find u = some ff) (bytes : List Byte) :
    (s.materialize ff bytes).readBuffer u = .ok bytes := by
  apply readBuffer_iff.mpr
  refine ⟨_, materialize_find hf bytes, ?_⟩
  simp only [content, ContentRepository.reader, materialize, create_claim_write_blobs]
  simp only [ContentRepository.create_claim, ContentStore.open_write, if_true]
  exact window_whole bytes

theorem materialize_getSize {s : ProcessSession} {u : Nat} {ff : FlowFile}
    (hf : s.find u = some ff) (bytes : List Byte) :
    (s.materialize ff bytes).getSize u = some bytes.length := by
  simp [getSize, materialize_find hf bytes]

theorem write_eq {s : ProcessSession} {u : Nat} {ff : FlowFile} {cb : OutputStreamCallback}
    {ret : Int} (hf : s.find u = some ff) (hret : (cb ContentStream.sink).1 = some ret)
    (hpos : 0 ≤ ret) : s.write u cb = .ok (s.materialize ff (cb ContentStream.sink).2.data) := by
  unfold write
  rcases hcb : cb ContentStream.sink with ⟨r, out⟩
  rw [hcb] at hret
  simp only at hret
  subst hret
  have hr : ¬ (ret < 0) := by omega
  simp [hf, hr]

end ProcessSession

namespace ProcessSession

theorem clone_eq {s : ProcessSession} {u : Nat} {p : FlowFile} (offset size : Nat)
    (hp : s.find u = some p) (hw : offset + size ≤ p.size) :
    s.clone u offset size = .ok (s.next_uuid, { s with
      repo := (match p.claim with
        | none => s.repo
        | some c => (s.repo.clone_claim c.content_id).2),
      files := s.files ++ [p.clone s.next_uuid offset size],
      next_uuid := s.next_uuid + 1,
      cloned := s.next_uuid :: s.cloned,
      provisional := p.claim.toList ++ s.provisional }) := by
  unfold clone
  have hw' : ¬ (offset + size > p.size) := by omega
  simp only [hp, hw', if_false]

theorem clone_blobs {s s' : ProcessSession} {parent u offset size : Nat}
    (hs : s.clone parent offset size = .ok (u, s')) :
    s'.repo.backend = s.repo.backend := by
  obtain ⟨p, _, _, _, rfl⟩ := clone_ok hs
  cases hc : p.claim <;> simp [ContentRepository.clone_claim]

theorem content_congr {s s' : ProcessSession} (h : s'.repo.backend = s.repo.backend)
    (f : FlowFile) : s'.content f = s.content f := by
  unfold content ContentRepository.reader
  rw [h]

/-- The record of the new flow file of a clone, and the records of the others. -/
theorem clone_find {s s' : ProcessSession} {parent u offset size : Nat} (h : s.WF)
    (hs : s.clone parent offset size = .ok (u, s')) :
    ∃ p, s.find parent = some p ∧ s'.find u = some (p.clone u offset size) ∧
      ∀ v, v ≠ u → s'.find v = s.find v := by
  obtain ⟨p, hp, _, hu, rfl⟩ := clone_ok hs
  subst hu
  refine ⟨p, hp, ?_, ?_⟩
  · unfold find
    exact find_append_new (p.clone s.next_uuid offset size) h.uuids
  · intro v hv
    unfold find
    have hv' : ¬ (s.next_uuid = v) := fun e => hv e.symm
    simp [List.find?_append, FlowFile.clone, hv']

/-- A clone leaves every flow file that existed before as it was. -/
theorem clone_frame {s s' : ProcessSession} {parent u offset size : Nat} (h : s.WF)
    (hs : s.clone parent offset size = .ok (u, s')) (v : Nat) (f : FlowFile)
    (hv : s.find v = some f) : s'.find v = some f ∧ s'.readBuffer v = s.readBuffer v := by
  obtain ⟨p, _, _, hold⟩ := clone_find h hs
  have hne : v ≠ u := by
    obtain ⟨_, _, _, hu, _⟩ := clone_ok hs
    have := h.uuids f (find_some hv).1
    have := (find_some hv).2
    omega
  have hfind : s'.find v = some f := by rw [hold v hne, hv]
  refine ⟨hfind, ?_⟩
  unfold readBuffer reader
  simp only [hfind, hv, content_congr (clone_blobs hs) f]

theorem cloneEach_frame (ws : List (Nat × Nat)) :
    ∀ (s : ProcessSession), s.WF → ∀ (parent v : Nat) (f : FlowFile), s.find v = some f →
      (s.cloneEach parent ws).find v = some f
        ∧ (s.cloneEach parent ws).readBuffer v = s.readBuffer v := by
  induction ws with
  | nil => intro s _ parent v f hv; exact ⟨hv, rfl⟩
  | cons w ws ih =>
    intro s h parent v f hv
    unfold cloneEach
    cases hc : s.clone parent w.1 w.2 with
    | error e => exact ih s h parent v f hv
    | ok r =>
      have hc' : s.clone parent w.1 w.2 = .ok (r.1, r.2) := hc
      obtain ⟨h1, h2⟩ := clone_frame h hc' v f hv
      obtain ⟨h3, h4⟩ := ih r.2 (wf_clone h hc') parent v f h1
      exact ⟨h3, h4.trans h2⟩

end ProcessSession

/-! ## The sessions of the tests are reachable -/

namespace ContentRepositoryDependentTests

theorem reachable_after {s : ProcessSession} {r : Except Error ProcessSession}
    (hs : SessionReachable s) (hr : ∀ s', r = .ok s' → SessionReachable s') :
    SessionReachable (after s r) := by
  unfold after
  cases r with
  | error e => exact hs
  | ok s' => exact hr s' rfl

theorem reachable_writeToFlowFile {s s' : ProcessSession} {u : Nat} {content : List Byte}
    (hs : SessionReachable s) (h : Fixture.writeToFlowFile s u content = .ok s') :
    SessionReachable s' :=
  SessionReachable.write hs h

theorem reachable_transferAndCommit {s s' : ProcessSession} {u : Nat}
    (hs : SessionReachable s) (h : Fixture.transferAndCommit s u = .ok s') :
    SessionReachable s' := by
  unfold Fixture.transferAndCommit at h
  cases ht : s.transfer u Fixture.Success with
  | error e => simp [ht] at h
  | ok s1 =>
    simp only [ht] at h
    exact SessionReachable.commit (SessionReachable.transfer hs ht) h

theorem reachable_appendToFlowFile {s s' : ProcessSession} {u : Nat} {content : List Byte}
    (hs : SessionReachable s) (h : Fixture.appendToFlowFile s u content = .ok s') :
    SessionReachable s' := by
  unfold Fixture.appendToFlowFile at h
  cases ht : s.add u with
  | error e => simp [ht] at h
  | ok s1 =>
    simp only [ht] at h
    exact SessionReachable.append (SessionReachable.add hs ht) h

theorem reachable_cloneEach (ws : List (Nat × Nat)) :
    ∀ (s : ProcessSession) (parent : Nat), SessionReachable s →
      SessionReachable (s.cloneEach parent ws) := by
  induction ws with
  | nil => intro s parent hs; exact hs
  | cons w ws ih =>
    intro s parent hs
    unfold ProcessSession.cloneEach
    cases hc : s.clone parent w.1 w.2 with
    | error e => exact ih s parent hs
    | ok r =>
      have hc' : s.clone parent w.1 w.2 = .ok (r.1, r.2) := hc
      exact ih r.2 parent (SessionReachable.clone hs hc')

theorem reachable_fixture (aip : Bool) : SessionReachable (Fixture.new aip) :=
  SessionReachable.start _ _

theorem reachable_sessionFoobar : SessionReachable sessionFoobar := by
  unfold sessionFoobar
  have h1 : SessionReachable (Fixture.new true).create.2 :=
    SessionReachable.create (reachable_fixture true)
  have h2 : SessionReachable (after (Fixture.new true).create.2
      (Fixture.writeToFlowFile (Fixture.new true).create.2 0 (bytesOf "foobar"))) :=
    reachable_after h1 (fun s' h => reachable_writeToFlowFile h1 h)
  exact reachable_after h2 (fun s' h => reachable_transferAndCommit h2 h)

theorem reachable_sessionClones : SessionReachable sessionClones :=
  reachable_cloneEach _ _ _ reachable_sessionFoobar

theorem reachable_unmanagedSession (aip : Bool) (content : List Byte) :
    SessionReachable (unmanagedSession aip content) := by
  unfold unmanagedSession
  have h1 : SessionReachable (Fixture.new aip).create.2 :=
    SessionReachable.create (reachable_fixture aip)
  have h2 : SessionReachable (after (Fixture.new aip).create.2
      (Fixture.writeToFlowFile (Fixture.new aip).create.2 0 content)) :=
    reachable_after h1 (fun s' h => reachable_writeToFlowFile h1 h)
  have h3 : SessionReachable (after (after (Fixture.new aip).create.2
      (Fixture.writeToFlowFile (Fixture.new aip).create.2 0 content))
      (Fixture.transferAndCommit (after (Fixture.new aip).create.2
        (Fixture.writeToFlowFile (Fixture.new aip).create.2 0 content)) 0)) :=
    reachable_after h2 (fun s' h => reachable_transferAndCommit h2 h)
  exact reachable_after h3 (fun s' h => SessionReachable.add h3 h)

theorem reachable_managedSession (aip : Bool) (content : List Byte) :
    SessionReachable (managedSession aip content) := by
  unfold managedSession
  have h1 : SessionReachable (Fixture.new aip).create.2 :=
    SessionReachable.create (reachable_fixture aip)
  have h2 : SessionReachable (after (Fixture.new aip).create.2
      (Fixture.writeToFlowFile (Fixture.new aip).create.2 0 content)) :=
    reachable_after h1 (fun s' h => reachable_writeToFlowFile h1 h)
  exact reachable_after h2 (fun s' h => SessionReachable.add h2 h)

end ContentRepositoryDependentTests

/-! ## Appending and committing -/

namespace ProcessSession

theorem appendInPlace_eq {s : ProcessSession} {ff : FlowFile} {c : ResourceClaim}
    (hc : ff.claim = some c) (bytes : List Byte) :
    s.appendInPlace ff bytes = { s with
      repo := s.repo.write c.content_id bytes,
      files := replaceFile s.files { ff with size := ff.size + bytes.length },
      updated := ff.uuid :: s.updated } := by
  unfold appendInPlace
  rw [hc]

theorem materialize_deleted (s : ProcessSession) (ff : FlowFile) (bytes : List Byte) :
    (s.materialize ff bytes).deleted = s.deleted := rfl

theorem appendInPlace_deleted (s : ProcessSession) (ff : FlowFile) (bytes : List Byte) :
    (s.appendInPlace ff bytes).deleted = s.deleted := by
  unfold appendInPlace
  cases ff.claim <;> rfl

/-- One append in a well-formed session: it succeeds and the flow file then reads what it read
before followed by the bytes of the callback. -/
theorem append_read {s : ProcessSession} (h : s.WF) {u : Nat} {r b : List Byte}
    {cb : OutputStreamCallback} {ret : Int} (hr : s.readBuffer u = .ok r)
    (hret : (cb ContentStream.sink).1 = some ret) (hpos : 0 ≤ ret)
    (hb : (cb ContentStream.sink).2.data = b) :
    ∃ s1, s.append u cb = .ok s1 ∧ s1.readBuffer u = .ok (r ++ b) ∧
      s1.getSize u = some (r.length + b.length) ∧ s1.deleted = s.deleted := by
  obtain ⟨ff, hf, hc⟩ := readBuffer_iff.mp hr
  have happ : s.append u cb = .ok (if s.appendSafe ff
      then s.appendInPlace ff b else s.materialize ff (r ++ b)) := by
    unfold append
    rcases hcb : cb ContentStream.sink with ⟨ro, out⟩
    rw [hcb] at hret hb
    simp only at hret hb
    subst hret
    subst hb
    have hneg : ¬ (ret < 0) := by omega
    by_cases hsafe : s.appendSafe ff = true
    · simp [hf, hc, hneg, hsafe]
    · simp [hf, hc, hneg, hsafe]
  refine ⟨_, happ, ?_⟩
  by_cases hsafe : s.appendSafe ff = true
  · simp only [hsafe, if_true]
    obtain ⟨c, d, hcl, hd, hoff, hsize⟩ := appendSafe_whole h hf hsafe
    have hrd : r = d := by
      unfold content at hc
      rw [hcl] at hc
      unfold ContentRepository.reader at hc
      simp only [hd, hoff, hsize, window_whole, Except.ok.injEq] at hc
      exact hc.symm
    subst hrd
    have hu := (find_some hf).2
    have hfind : (s.appendInPlace ff b).find u
        = some { ff with size := ff.size + b.length } := by
      rw [appendInPlace_eq hcl]
      unfold find at hf ⊢
      simp only [find_replaceFile, hu, if_true, hf, Option.map_some']
    refine ⟨?_, ?_, appendInPlace_deleted _ _ _⟩
    · apply readBuffer_iff.mpr
      refine ⟨_, hfind, ?_⟩
      rw [appendInPlace_eq hcl]
      simp only [content, hcl, ContentRepository.reader, write_blobs_self _ _ _ _ hd, hoff, hsize]
      have := window_whole (r ++ b)
      rw [List.length_append] at this
      exact this
    · simp [getSize, hfind, hsize]
  · have hsafe' : s.appendSafe ff = false := by simpa using hsafe
    simp only [hsafe', Bool.false_eq_true, if_false]
    refine ⟨materialize_readBuffer hf _, ?_, materialize_deleted _ _ _⟩
    rw [materialize_getSize hf, List.length_append]

/-- A successful commit leaves the content and the size of every flow file that is not removed
as they were. -/
theorem commit_read {s s' : ProcessSession} (h : s.WF) (hc : s.commit = .ok s') {u : Nat}
    {x : List Byte} (hdel : u ∉ s.deleted) (hr : s.readBuffer u = .ok x) :
    s'.readBuffer u = .ok x ∧ s'.getSize u = s.getSize u := by
  have hwf' := wf_commit h hc
  obtain ⟨ff, hf, hcontent⟩ := readBuffer_iff.mp hr
  have hu := (find_some hf).2
  have hs' := commit_ok hc
  have hfind : s'.find u = some ff := by
    rw [hs']
    unfold find at hf ⊢
    apply find_filter _ _ hf
    intro g hg
    simp [hg, hdel]
  refine ⟨?_, ?_⟩
  · apply readBuffer_iff.mpr
    refine ⟨ff, hfind, ?_⟩
    unfold content at hcontent ⊢
    cases hcl : ff.claim with
    | none =>
      rw [hcl] at hcontent
      exact hcontent
    | some c =>
      rw [hcl] at hcontent
      simp only
      have hpos : 0 < s'.repo.refcount c.content_id := by
        have h1 := hwf'.held c
        have h2 := count_handles_pos (find_some hfind).1 hcl
        omega
      have hne : s'.repo.backend.blobs c.content_id ≠ none := by
        intro e
        have := (hwf'.repo.stored c.content_id).mp e
        omega
      have hsame : s'.repo.backend.blobs c.content_id = s.repo.backend.blobs c.content_id := by
        have hrepo : s'.repo = s.repo.releaseAll (s.dropped
            ++ handles (s.files.filter (fun f => decide (f.uuid ∈ s.deleted)))) := by
          rw [hs']
        rcases ContentRepository.releaseAll_blobs (s.dropped
            ++ handles (s.files.filter (fun f => decide (f.uuid ∈ s.deleted)))) s.repo
            c.content_id with h1 | h1
        · rw [← hrepo] at h1
          exact absurd h1 hne
        · rw [← hrepo] at h1
          exact h1
      unfold ContentRepository.reader at hcontent ⊢
      rw [hsame]
      exact hcontent
  · simp [getSize, hfind, hf]

end ProcessSession

namespace ProcessSession

/-- What an append stages: the flow file is marked updated, and nothing else of the snapshot
changes. -/
theorem append_staged {s s1 : ProcessSession} {u : Nat} {cb : OutputStreamCallback}
    (hs : s.append u cb = .ok s1) :
    s1.updated = u :: s.updated ∧ s1.transferred = s.transferred ∧ s1.deleted = s.deleted ∧
      s1.created = s.created ∧ s1.cloned = s.cloned ∧ s1.added = s.added ∧
      s1.relationships = s.relationships := by
  obtain ⟨ff, existing, ret, hf, _, _, _, rfl⟩ := append_ok hs
  have hu := (find_some hf).2
  by_cases hsafe : s.appendSafe ff = true
  · obtain ⟨c, hc, _, _⟩ := appendSafe_spec hsafe
    rw [if_pos hsafe, appendInPlace_eq hc, ← hu]
    exact ⟨rfl, rfl, rfl, rfl, rfl, rfl, rfl⟩
  · rw [if_neg hsafe, ← hu]
    exact ⟨rfl, rfl, rfl, rfl, rfl, rfl, rfl⟩

/-- A session that passes the validation of commit still passes it after appending to a flow
file it owns. -/
theorem validate_append {s s1 : ProcessSession} {u : Nat} {cb : OutputStreamCallback}
    (hs : s.append u cb = .ok s1) (hv : s.validate = true)
    (hown : u ∈ s.created ++ s.cloned ++ s.added) : s1.validate = true := by
  obtain ⟨h1, h2, h3, h4, h5, h6, h7⟩ := append_staged hs
  unfold validate knows at hv ⊢
  rw [h1, h2, h3, h4, h5, h6, h7]
  simp only [Bool.and_eq_true, List.all_eq_true, List.mem_append, List.mem_cons,
    decide_eq_true_eq] at hv ⊢
  refine ⟨hv.1, ?_⟩
  intro x hx
  rcases hx with (hx | hx | hx) | hx
  · exact hv.2 x (Or.inl (Or.inl hx))
  · subst hx
    simpa [List.mem_append, or_assoc] using hown
  · exact hv.2 x (Or.inl (Or.inr hx))
  · exact hv.2 x (Or.inr hx)

theorem commit_of_validate {s : ProcessSession} (hv : s.validate = true) :
    ∃ s', s.commit = .ok s' := by
  unfold commit
  simp only [hv, if_true]
  exact ⟨_, rfl⟩

end ProcessSession

/-! ## The repository of a session is a reachable repository -/

theorem RepoReachable.releaseAll (cs : List ResourceClaim) :
    ∀ r : ContentRepository, RepoReachable r → (∀ k, cs.count k ≤ r.live.count k) →
      RepoReachable (r.releaseAll cs) := by
  induction cs with
  | nil => intro r h _; exact h
  | cons c cs ih =>
    intro r h hle
    rw [ContentRepository.releaseAll_cons]
    have hc : c ∈ r.live := by
      apply List.count_pos_iff.mp
      have := hle c
      simp only [List.count_cons_self] at this
      omega
    apply ih _ (RepoReachable.step h (RepoStep.release r c hc))
    intro k
    have h1 := hle k
    by_cases hk : k = c
    · subst hk
      simp only [ContentRepository.release, List.count_erase_self, List.count_cons_self] at h1 ⊢
      omega
    · have hck : ¬ (c = k) := fun e => hk e.symm
      simp only [ContentRepository.release, List.count_erase_of_ne hk, List.count_cons, beq_iff_eq,
        hck, if_false] at h1 ⊢
      omega

namespace ProcessSession

theorem live_count {s : ProcessSession} (h : s.WF) (k : ResourceClaim) :
    s.repo.live.count k = (handles s.files).count k + s.dropped.count k := by
  have h1 := h.repo.count k.content_id
  have h2 := h.held k
  have hk : (ResourceClaim.mk k.content_id) = k := rfl
  rw [hk] at h1
  omega

theorem held_live {s : ProcessSession} (h : s.WF) {f : FlowFile} {c : ResourceClaim}
    (hf : f ∈ s.files) (hc : f.claim = some c) : c ∈ s.repo.live := by
  apply List.count_pos_iff.mp
  have := live_count h c
  have := count_handles_pos hf hc
  omega

theorem reachable_create_write (r : ContentRepository) (h : RepoReachable r)
    (bytes : List Byte) :
    RepoReachable (r.create_claim.2.write r.create_claim.1.content_id bytes) := by
  apply RepoReachable.step (RepoReachable.step h (RepoStep.create r))
  apply RepoStep.write _ r.create_claim.1
  simp [ContentRepository.create_claim]

theorem createFrom_repo {s s' : ProcessSession} {parent u : Nat}
    (hs : s.createFrom parent = .ok (u, s')) : s'.repo = s.repo := by
  unfold createFrom at hs
  cases hp : s.find parent with
  | none => simp [hp] at hs
  | some p =>
    simp only [hp, Except.ok.injEq, Prod.mk.injEq] at hs
    rw [← hs.2]

theorem transfer_repo {s s' : ProcessSession} {u : Nat} {r : Relationship}
    (hs : s.transfer u r = .ok s') : s'.repo = s.repo := by
  unfold transfer at hs
  cases hp : s.find u with
  | none => simp [hp] at hs
  | some p =>
    by_cases hk : s.knows r = true
    · simp only [hp, hk, if_true, Except.ok.injEq] at hs
      rw [← hs]
    · simp [hp, hk] at hs

theorem remove_repo {s s' : ProcessSession} {u : Nat} (hs : s.remove u = .ok s') :
    s'.repo = s.repo := by
  unfold remove at hs
  cases hp : s.find u with
  | none => simp [hp] at hs
  | some p =>
    simp only [hp, Except.ok.injEq] at hs
    rw [← hs]

theorem add_repo {s s' : ProcessSession} {u : Nat} (hs : s.add u = .ok s') :
    s'.repo = s.repo := by
  unfold add at hs
  cases hp : s.find u with
  | none => simp [hp] at hs
  | some p =>
    simp only [hp, Except.ok.injEq] at hs
    rw [← hs]

end ProcessSession

/-- Every session works on a repository that the operations of the repository can produce. -/
theorem SessionReachable.repo_reachable {s : ProcessSession} (h : SessionReachable s) :
    RepoReachable s.repo := by
  induction h with
  | start rels aip => exact RepoReachable.init
  | create _ ih => exact ih
  | createFrom _ hs ih =>
    rw [ProcessSession.createFrom_repo hs]
    exact ih
  | clone hr hs ih =>
    obtain ⟨p, hp, _, _, rfl⟩ := ProcessSession.clone_ok hs
    cases hc : p.claim with
    | none => exact ih
    | some c =>
      exact RepoReachable.step ih (RepoStep.clone _ c
        (ProcessSession.held_live hr.wf (ProcessSession.find_some hp).1 hc))
  | write hr hs ih =>
    obtain ⟨ff, ret, hf, _, _, rfl⟩ := ProcessSession.write_ok hs
    exact ProcessSession.reachable_create_write _ ih _
  | @append s0 _ _ _ hr hs ih =>
    obtain ⟨ff, existing, ret, hf, _, _, _, rfl⟩ := ProcessSession.append_ok hs
    by_cases hsafe : s0.appendSafe ff = true
    · simp only [hsafe, if_true]
      obtain ⟨c, hc, _, _⟩ := ProcessSession.appendSafe_spec hsafe
      rw [ProcessSession.appendInPlace_eq hc]
      exact RepoReachable.step ih (RepoStep.write _ c
        (ProcessSession.held_live hr.wf (ProcessSession.find_some hf).1 hc) _)
    · simp only [hsafe]
      exact ProcessSession.reachable_create_write _ ih _
  | transfer _ hs ih =>
    rw [ProcessSession.transfer_repo hs]
    exact ih
  | remove _ hs ih =>
    rw [ProcessSession.remove_repo hs]
    exact ih
  | add _ hs ih =>
    rw [ProcessSession.add_repo hs]
    exact ih
  | @commit s s' hr hs ih =>
    rw [ProcessSession.commit_ok hs]
    apply RepoReachable.releaseAll _ _ ih
    intro k
    have h1 := ProcessSession.live_count hr.wf k
    have h2 := ProcessSession.count_handles_filter s.files
      (fun f => decide (f.uuid ∈ s.deleted)) k
    simp only [List.count_append]
    omega
  | @rollback s hr ih =>
    apply RepoReachable.releaseAll _ _ ih
    intro k
    have h1 := ProcessSession.live_count hr.wf k
    have h2 := hr.wf.staged k
    omega

/-! ## Every flow file of a session is readable -/

theorem window_prefix {d r : List Byte} {offset size : Nat} (x : List Byte)
    (h : window d offset size = .ok r) : window (d ++ x) offset size = .ok r := by
  unfold window at h ⊢
  by_cases hb : offset + size ≤ d.length
  · simp only [hb, if_true, Except.ok.injEq] at h
    have hb2 : offset + size ≤ (d ++ x).length := by
      rw [List.length_append]
      omega
    simp only [hb2, if_true, Except.ok.injEq]
    rw [← h, List.drop_append_of_le_length (by omega), List.take_append_of_le_length]
    rw [List.length_drop]
    omega
  · simp [hb] at h

namespace ProcessSession

theorem content_eq_of_blobs {s s' : ProcessSession} (f : FlowFile)
    (h : ∀ c, f.claim = some c →
      s'.repo.backend.blobs c.content_id = s.repo.backend.blobs c.content_id) :
    s'.content f = s.content f := by
  unfold content ContentRepository.reader
  cases hc : f.claim with
  | none => rfl
  | some c =>
    simp only
    rw [h c hc]

/-- Appending to stored content keeps every window that was readable. -/
theorem content_write {s : ProcessSession} (id : Nat) (bytes : List Byte) (f : FlowFile)
    {r : List Byte} (h : s.content f = .ok r) (s' : ProcessSession)
    (hs' : s'.repo = s.repo.write id bytes) : s'.content f = .ok r := by
  unfold content at h ⊢
  cases hc : f.claim with
  | none =>
    rw [hc] at h
    exact h
  | some c =>
    rw [hc] at h
    simp only
    unfold ContentRepository.reader at h ⊢
    rw [hs']
    cases hb : s.repo.backend.blobs c.content_id with
    | none => simp [hb] at h
    | some d =>
      simp only [hb] at h
      by_cases hid : c.content_id = id
      · subst hid
        rw [write_blobs_self _ _ _ _ hb]
        exact window_prefix bytes h
      · have : (s.repo.write id bytes).backend.blobs c.content_id
            = s.repo.backend.blobs c.content_id := by
          unfold ContentRepository.write ContentStore.append
          cases s.repo.backend.blobs id <;> simp [upd_other _ _ _ _ hid]
        rw [this, hb]
        exact h

/-- A claim that is counted has an id that was issued. -/
theorem counted_lt_next {s : ProcessSession} (h : s.WF) {k : ResourceClaim}
    (hk : 0 < s.repo.refcount k.content_id) : k.content_id < s.repo.backend.next_id := by
  by_contra hge
  have := h.repo.fresh k.content_id (by omega)
  omega

theorem files_claim_lt_next {s : ProcessSession} (h : s.WF) {f : FlowFile} {k : ResourceClaim}
    (hf : f ∈ s.files) (hk : f.claim = some k) : k.content_id < s.repo.backend.next_id := by
  apply counted_lt_next h
  have := h.held k
  have := count_handles_pos hf hk
  omega

theorem base_claim_lt_next {s : ProcessSession} (h : s.WF) {f : FlowFile} {k : ResourceClaim}
    (hf : f ∈ s.base) (hk : f.claim = some k) : k.content_id < s.repo.backend.next_id := by
  apply counted_lt_next h
  have := h.held k
  have := h.staged k
  have := count_handles_pos hf hk
  omega

theorem materialize_content_old {s : ProcessSession} (ff : FlowFile) (bytes : List Byte)
    (f : FlowFile) (hlt : ∀ k, f.claim = some k → k.content_id < s.repo.backend.next_id) :
    (s.materialize ff bytes).content f = s.content f := by
  apply content_eq_of_blobs
  intro c hc
  have := hlt c hc
  have hne : c.content_id ≠ s.repo.backend.next_id := by omega
  simp only [materialize, create_claim_write_blobs, hne, if_false]

theorem readable_materialize {s : ProcessSession} (ff : FlowFile) (h : s.WF)
    (hr : s.Readable) (bytes : List Byte) :
    (s.materialize ff bytes).Readable := by
  constructor
  · intro f hfm
    rcases mem_replaceFile hfm with hfm | hfm
    · subst hfm
      refine ⟨bytes, ?_⟩
      simp only [content, ContentRepository.reader, materialize, create_claim_write_blobs]
      simp only [ContentRepository.create_claim, ContentStore.open_write, if_true]
      exact window_whole bytes
    · rw [materialize_content_old ff bytes f (fun k hk => files_claim_lt_next h hfm hk)]
      exact hr.files f hfm
  · intro f hfm
    rw [materialize_content_old ff bytes f (fun k hk => base_claim_lt_next h hfm hk)]
    exact hr.base f hfm

theorem readable_appendInPlace {s : ProcessSession} {u : Nat} {ff : FlowFile} (h : s.WF)
    (hr : s.Readable) (hf : s.find u = some ff) (hs : s.appendSafe ff = true)
    (bytes : List Byte) : (s.appendInPlace ff bytes).Readable := by
  obtain ⟨c, d, hcl, hd, hoff, hsize⟩ := appendSafe_whole h hf hs
  have hrepo : (s.appendInPlace ff bytes).repo = s.repo.write c.content_id bytes := by
    rw [appendInPlace_eq hcl]
  constructor
  · intro f hfm
    rw [appendInPlace_eq hcl] at hfm
    rcases mem_replaceFile hfm with hfm | hfm
    · subst hfm
      refine ⟨d ++ bytes, ?_⟩
      rw [appendInPlace_eq hcl]
      simp only [content, hcl, ContentRepository.reader, write_blobs_self _ _ _ _ hd, hoff, hsize]
      have := window_whole (d ++ bytes)
      rw [List.length_append] at this
      exact this
    · obtain ⟨r, hrf⟩ := hr.files f hfm
      exact ⟨r, content_write _ _ f hrf _ hrepo⟩
  · intro f hfm
    have hbase : (s.appendInPlace ff bytes).base = s.base := by
      rw [appendInPlace_eq hcl]
    rw [hbase] at hfm
    obtain ⟨r, hrf⟩ := hr.base f hfm
    exact ⟨r, content_write _ _ f hrf _ hrepo⟩

/-- After releases, a record whose claim is still counted reads what it read before. -/
theorem content_releaseAll {s s' : ProcessSession} (h' : s'.WF) (cs : List ResourceClaim)
    (hrepo : s'.repo = s.repo.releaseAll cs) {f : FlowFile} (hf : f ∈ s'.files) :
    s'.content f = s.content f := by
  apply content_eq_of_blobs
  intro c hc
  have hpos : 0 < s'.repo.refcount c.content_id := by
    have h1 := h'.held c
    have h2 := count_handles_pos hf hc
    omega
  have hne : s'.repo.backend.blobs c.content_id ≠ none := by
    intro e
    have := (h'.repo.stored c.content_id).mp e
    omega
  rcases ContentRepository.releaseAll_blobs cs s.repo c.content_id with h1 | h1
  · rw [← hrepo] at h1
    exact absurd h1 hne
  · rw [← hrepo] at h1
    exact h1

theorem readable_same {s s' : ProcessSession} (hr : s.Readable) (h1 : s'.repo = s.repo)
    (h2 : s'.files = s.files) (h3 : s'.base = s.base) : s'.Readable := by
  have hc : ∀ f, s'.content f = s.content f := by
    intro f
    unfold content
    rw [h1]
  constructor
  · intro f hf
    rw [h2] at hf
    rw [hc]
    exact hr.files f hf
  · intro f hf
    rw [h3] at hf
    rw [hc]
    exact hr.base f hf

theorem readable_addRecord {s : ProcessSession} (hr : s.Readable) (ff : FlowFile)
    (hc : ff.claim = none) (ho : ff.offset = 0) (hz : ff.size = 0) (next : Nat)
    (created : List Nat) :
    ({ s with files := s.files ++ [ff], next_uuid := next,
              created := created } : ProcessSession).Readable := by
  constructor
  · intro f hf
    simp only [List.mem_append, List.mem_singleton] at hf
    rcases hf with hf | hf
    · exact hr.files f hf
    · subst hf
      refine ⟨[], ?_⟩
      simp [content, hc, ho, hz, window]
  · exact hr.base

theorem transfer_shape {s s' : ProcessSession} {u : Nat} {r : Relationship}
    (hs : s.transfer u r = .ok s') : s'.files = s.files ∧ s'.base = s.base := by
  unfold transfer at hs
  cases hp : s.find u with
  | none => simp [hp] at hs
  | some p =>
    by_cases hk : s.knows r = true
    · simp only [hp, hk, if_true, Except.ok.injEq] at hs
      rw [← hs]
      exact ⟨rfl, rfl⟩
    · simp [hp, hk] at hs

theorem remove_shape {s s' : ProcessSession} {u : Nat} (hs : s.remove u = .ok s') :
    s'.files = s.files ∧ s'.base = s.base := by
  unfold remove at hs
  cases hp : s.find u with
  | none => simp [hp] at hs
  | some p =>
    simp only [hp, Except.ok.injEq] at hs
    rw [← hs]
    exact ⟨rfl, rfl⟩

theorem add_shape {s s' : ProcessSession} {u : Nat} (hs : s.add u = .ok s') :
    s'.files = s.files ∧ s'.base = s.base := by
  unfold add at hs
  cases hp : s.find u with
  | none => simp [hp] at hs
  | some p =>
    simp only [hp, Except.ok.injEq] at hs
    rw [← hs]
    exact ⟨rfl, rfl⟩

end ProcessSession

/-- In every state of a session every flow file is readable: its window lies inside the stored
content of its claim (the record invariant `offset + size ≤ physical_length` of 3). -/
theorem SessionReachable.readable {s : ProcessSession} (h : SessionReachable s) :
    s.Readable := by
  induction h with
  | start rels aip =>
    constructor <;> intro f hf <;> simp [ProcessSession.start] at hf
  | create _ ih =>
    exact ProcessSession.readable_addRecord ih _ rfl rfl rfl _ _
  | createFrom _ hs ih =>
    unfold ProcessSession.createFrom at hs
    split at hs
    · simp at hs
    · simp only [Except.ok.injEq, Prod.mk.injEq] at hs
      rw [← hs.2]
      exact ProcessSession.readable_addRecord ih _ rfl rfl rfl _ _
  | @clone s0 s1 parent u offset size hr hs ih =>
    obtain ⟨p, hp, hw, _, hs1⟩ := ProcessSession.clone_ok hs
    have hcong := ProcessSession.content_congr (ProcessSession.clone_blobs hs)
    have hfiles : s1.files = s0.files ++ [p.clone s0.next_uuid offset size] := by rw [hs1]
    have hbase : s1.base = s0.base := by rw [hs1]
    constructor
    · intro f hf
      rw [hfiles] at hf
      simp only [List.mem_append, List.mem_singleton] at hf
      rw [hcong]
      rcases hf with hf | hf
      · exact ih.files f hf
      · subst hf
        obtain ⟨r, hr0⟩ := ih.files p (ProcessSession.find_some hp).1
        refine ⟨(r.drop offset).take size, ?_⟩
        unfold ProcessSession.content at hr0 ⊢
        cases hcl : p.claim with
        | none =>
          rw [hcl] at hr0
          simp only [FlowFile.clone, hcl]
          exact window_sub offset size hr0 hw
        | some k =>
          rw [hcl] at hr0
          simp only [FlowFile.clone, hcl]
          unfold ContentRepository.reader at hr0 ⊢
          cases hbl : s0.repo.backend.blobs k.content_id with
          | none => simp [hbl] at hr0
          | some d =>
            simp only [hbl] at hr0 ⊢
            exact window_sub offset size hr0 hw
    · intro f hf
      rw [hbase] at hf
      rw [hcong]
      exact ih.base f hf
  | write hr hs ih =>
    obtain ⟨ff, ret, hf, _, _, rfl⟩ := ProcessSession.write_ok hs
    exact ProcessSession.readable_materialize ff hr.wf ih _
  | @append s0 _ _ _ hr hs ih =>
    obtain ⟨ff, existing, ret, hf, _, _, _, rfl⟩ := ProcessSession.append_ok hs
    by_cases hsafe : s0.appendSafe ff = true
    · simp only [hsafe, if_true]
      exact ProcessSession.readable_appendInPlace hr.wf ih hf hsafe _
    · simp only [hsafe]
      exact ProcessSession.readable_materialize ff hr.wf ih _
  | transfer _ hs ih =>
    exact ProcessSession.readable_same ih (ProcessSession.transfer_repo hs)
      (ProcessSession.transfer_shape hs).1 (ProcessSession.transfer_shape hs).2
  | remove _ hs ih =>
    exact ProcessSession.readable_same ih (ProcessSession.remove_repo hs)
      (ProcessSession.remove_shape hs).1 (ProcessSession.remove_shape hs).2
  | add _ hs ih =>
    exact ProcessSession.readable_same ih (ProcessSession.add_repo hs)
      (ProcessSession.add_shape hs).1 (ProcessSession.add_shape hs).2
  | @commit s0 s1 hr hs ih =>
    have hwf1 := ProcessSession.wf_commit hr.wf hs
    have hs1 := ProcessSession.commit_ok hs
    have hrepo : s1.repo = s0.repo.releaseAll (s0.dropped ++ ProcessSession.handles
        (s0.files.filter (fun f => decide (f.uuid ∈ s0.deleted)))) := by rw [hs1]
    have hfiles : s1.files = s0.files.filter (fun f => decide (f.uuid ∉ s0.deleted)) := by
      rw [hs1]
    have hbase : s1.base = s1.files := by rw [hs1]
    have hall : ∀ f ∈ s1.files, ∃ r, s1.content f = .ok r := by
      intro f hf
      rw [ProcessSession.content_releaseAll hwf1 _ hrepo hf]
      rw [hfiles] at hf
      exact ih.files f (List.mem_of_mem_filter hf)
    constructor
    · exact hall
    · intro f hf
      rw [hbase] at hf
      exact hall f hf
  | @rollback s0 hr ih =>
    have hwf1 := ProcessSession.wf_rollback hr.wf
    have hall : ∀ f ∈ s0.rollback.files, ∃ r, s0.rollback.content f = .ok r := by
      intro f hf
      rw [ProcessSession.content_releaseAll hwf1 s0.provisional rfl hf]
      exact ih.base f hf
    constructor
    · exact hall
    · exact hall

/-- In every state of a session `readBuffer` returns, for each flow file the session knows, a
buffer as long as the size of the flow file. -/
theorem SessionReachable.readBuffer_ok {s : ProcessSession} (h : SessionReachable s) {u : Nat}
    {f : FlowFile} (hf : s.find u = some f) :
    ∃ r, s.readBuffer u = .ok r ∧ r.length = f.size := by
  obtain ⟨r, hr⟩ := h.readable.files f (ProcessSession.find_some hf).1
  exact ⟨r, ProcessSession.readBuffer_iff.mpr ⟨f, hf, hr⟩, ProcessSession.content_length hr⟩

/-! ## The claims -/

open ContentRepositoryDependentTests in
/-- C1: for every byte string `b`, after `session.write(ff, cb)` with an output callback that
writes exactly `b` to the sink, `readBuffer(ff)` returns exactly `b`, and `read(ff, cb)` with the
`ReadUntilItCan` callback (given enough iterations for the 1024-byte chunks of `b`) leaves exactly
`b` in the callback. -/
theorem write_then_read_roundtrip (s : ProcessSession) (u : Nat) (ff : FlowFile)
    (cb : OutputStreamCallback) (b : List Byte) (ret : Int)
    (hff : s.find u = some ff) (hret : (cb ContentStream.sink).1 = some ret) (hpos : 0 ≤ ret)
    (hb : (cb ContentStream.sink).2.data = b) :
    ∃ s', s.write u cb = .ok s' ∧ s'.readBuffer u = .ok b ∧
      ∀ fuel value_, b.length / 1024 + 2 ≤ fuel →
        ∃ res, s'.read u (ReadUntilItCan.callback fuel) value_ = some (res, b) := by
  refine ⟨_, ProcessSession.write_eq hff hret hpos, ?_, ?_⟩
  · rw [hb]
    exact ProcessSession.materialize_readBuffer hff b
  · intro fuel value_ hfuel
    rw [hb]
    exact ⟨_, ProcessSession.read_of_readBuffer (ProcessSession.materialize_readBuffer hff b)
      fuel value_ hfuel⟩

open ContentRepositoryDependentTests in
/-- C1, witness: the flow file created by the fixture, written with
`WriteStringToFlowFile("foobar")`, reads "foobar" both ways. -/
theorem write_then_read_roundtrip_witness :
    ∃ s', (Fixture.new true).create.2.write 0
        (WriteStringToFlowFile.process contentApi (bytesOf "foobar")) = .ok s' ∧
      s'.readBuffer 0 = .ok (bytesOf "foobar") ∧
      ∀ fuel value_, (bytesOf "foobar").length / 1024 + 2 ≤ fuel →
        ∃ res, s'.read 0 (ReadUntilItCan.callback fuel) value_ = some (res, bytesOf "foobar") :=
  write_then_read_roundtrip (Fixture.new true).create.2 0
    { uuid := 0, attributes := [], claim := none, offset := 0, size := 0, lineage := [] }
    (WriteStringToFlowFile.process contentApi (bytesOf "foobar")) (bytesOf "foobar") 6
    (by decide) (by decide) (by decide) (by decide)

/-- C2: for every flow file `f` of a session and every window `(a, b)` with `a + b ≤ f.size`,
`f` is readable, `clone(f, a, b)` succeeds, and reading the clone yields exactly the `b` bytes
`read(f)[a .. a+b)`. -/
theorem clone_reads_window (s : ProcessSession) (hs : SessionReachable s) (u a b : Nat)
    (f : FlowFile) (hf : s.find u = some f) (hab : a + b ≤ f.size) :
    ∃ r c s', s.readBuffer u = .ok r ∧ s.clone u a b = .ok (c, s') ∧
      s'.readBuffer c = .ok ((r.drop a).take b) ∧ ((r.drop a).take b).length = b := by
  obtain ⟨r, hr, hlen⟩ := hs.readBuffer_ok hf
  have hc := ProcessSession.clone_eq a b hf hab
  obtain ⟨p, hp, hfind, _⟩ := ProcessSession.clone_find hs.wf hc
  have hpf : p = f := by
    rw [hf] at hp
    exact (Option.some.inj hp).symm
  subst hpf
  obtain ⟨ff, hff, hcontent⟩ := ProcessSession.readBuffer_iff.mp hr
  have hpf : ff = p := by
    rw [hf] at hff
    exact (Option.some.inj hff).symm
  subst hpf
  refine ⟨r, _, _, hr, hc, ?_, ?_⟩
  · apply ProcessSession.readBuffer_iff.mpr
    refine ⟨_, hfind, ?_⟩
    rw [ProcessSession.content_congr (ProcessSession.clone_blobs hc)]
    unfold ProcessSession.content at hcontent ⊢
    cases hcl : ff.claim with
    | none =>
      rw [hcl] at hcontent
      simp only [FlowFile.clone, hcl]
      exact window_sub a b hcontent hab
    | some k =>
      rw [hcl] at hcontent
      simp only [FlowFile.clone, hcl]
      unfold ContentRepository.reader at hcontent ⊢
      cases hbl : s.repo.backend.blobs k.content_id with
      | none => simp [hbl] at hcontent
      | some d =>
        simp only [hbl] at hcontent ⊢
        exact window_sub a b hcontent hab
  · rw [List.length_take, List.length_drop]
    omega

open ContentRepositoryDependentTests in
/-- C2, witness: the committed flow file "foobar" reads "foobar", and its clones over the
windows (0,3) and (3,3) read "foo" and "bar". -/
theorem clone_reads_window_witness :
    (∃ r c s', sessionFoobar.readBuffer 0 = .ok r ∧ sessionFoobar.clone 0 3 3 = .ok (c, s') ∧
      s'.readBuffer c = .ok ((r.drop 3).take 3) ∧ ((r.drop 3).take 3).length = 3) ∧
    sessionFoobar.readBuffer 0 = .ok (bytesOf "foobar") ∧
    sessionClones.readBuffer 1 = .ok (bytesOf "foo") ∧
    sessionClones.readBuffer 2 = .ok (bytesOf "bar") :=
  ⟨clone_reads_window sessionFoobar reachable_sessionFoobar 0 3 3
    { uuid := 0, attributes := [], claim := some ⟨0⟩, offset := 0, size := 6, lineage := [] }
    (by decide) (by decide), by rfl, by rfl, by rfl⟩

/-- C5: cloning does not change the parent: after any number of `clone(f, a, b)` calls on a
session, whatever the windows, every flow file that existed before (the parent among them) has
the same record, hence the same size, and reads the same bytes. -/
theorem clone_leaves_parent_unchanged (s : ProcessSession) (hs : SessionReachable s)
    (parent : Nat) (f : FlowFile) (hf : s.find parent = some f) (ws : List (Nat × Nat)) :
    (s.cloneEach parent ws).find parent = some f ∧
      (s.cloneEach parent ws).getSize parent = s.getSize parent ∧
      (s.cloneEach parent ws).readBuffer parent = s.readBuffer parent := by
  obtain ⟨h1, h2⟩ := ProcessSession.cloneEach_frame ws s hs.wf parent parent f hf
  refine ⟨h1, ?_, h2⟩
  simp [ProcessSession.getSize, h1, hf]

open ContentRepositoryDependentTests in
/-- C5, witness: after the clones (0,3) and (3,3) the original still has size 6 and reads
"foobar". -/
theorem clone_leaves_parent_unchanged_witness :
    (sessionClones.getSize 0 = some 6 ∧ sessionClones.readBuffer 0 = .ok (bytesOf "foobar")) ∧
    ((sessionFoobar.cloneEach 0 [(0, 3), (3, 3)]).find 0
        = some { uuid := 0, attributes := [], claim := some ⟨0⟩, offset := 0, size := 6,
                 lineage := [] } ∧
      (sessionFoobar.cloneEach 0 [(0, 3), (3, 3)]).getSize 0 = sessionFoobar.getSize 0 ∧
      (sessionFoobar.cloneEach 0 [(0, 3), (3, 3)]).readBuffer 0 = sessionFoobar.readBuffer 0) :=
  ⟨⟨by decide, by rfl⟩,
   clone_leaves_parent_unchanged sessionFoobar reachable_sessionFoobar 0 _ (by decide)
    [(0, 3), (3, 3)]⟩

/-- C6: the flow file returned by `clone(parent, o, n)` has size `n`, offset
`parent.offset + o` and the claim of the parent (a new handle to the same content id: the count
of the id went up by one and no content was written). -/
theorem clone_window_record (s : ProcessSession) (hs : SessionReachable s) (u o n c : Nat)
    (p : FlowFile) (s' : ProcessSession) (hp : s.find u = some p)
    (hc : s.clone u o n = .ok (c, s')) :
    ∃ f, s'.find c = some f ∧ f.size = n ∧ f.offset = p.offset + o ∧ f.claim = p.claim ∧
      s'.repo.backend = s.repo.backend ∧
      ∀ k, p.claim = some k →
        s'.repo.refcount k.content_id = s.repo.refcount k.content_id + 1 := by
  obtain ⟨q, hq, hfind, _⟩ := ProcessSession.clone_find hs.wf hc
  have hpq : q = p := by
    rw [hp] at hq
    exact (Option.some.inj hq).symm
  subst hpq
  refine ⟨_, hfind, rfl, rfl, rfl, ProcessSession.clone_blobs hc, ?_⟩
  intro k hk
  obtain ⟨q', hq', _, _, rfl⟩ := ProcessSession.clone_ok hc
  have hpq : q' = q := by
    rw [hp] at hq'
    exact (Option.some.inj hq').symm
  subst hpq
  simp [hk, ContentRepository.clone_claim, upd_same]

open ContentRepositoryDependentTests in
/-- C6, witness: the clone (3,3) of the 6-byte flow file reports size 3 at offset 3. -/
theorem clone_window_record_witness :
    ∃ f, (sessionFoobar.cloneEach 0 [(3, 3)]).find 1 = some f ∧
      f.size = 3 ∧ f.offset = 0 + 3 ∧ f.claim = some ⟨0⟩ ∧
      (sessionFoobar.cloneEach 0 [(3, 3)]).repo.backend = sessionFoobar.repo.backend ∧
      ∀ k, some (ResourceClaim.mk 0) = some k →
        (sessionFoobar.cloneEach 0 [(3, 3)]).repo.refcount k.content_id
          = sessionFoobar.repo.refcount k.content_id + 1 :=
  clone_window_record sessionFoobar reachable_sessionFoobar 0 3 3 1
    { uuid := 0, attributes := [], claim := some ⟨0⟩, offset := 0, size := 6, lineage := [] }
    (sessionFoobar.cloneEach 0 [(3, 3)]) (by decide) (by rfl)

open ContentRepositoryDependentTests in
/-- C7: the two read paths agree: whenever `readBuffer(ff)` returns the buffer `r`, `read(ff, cb)`
with the `ReadUntilItCan` callback (1024-byte chunks until the stream returns 0, given enough
iterations for the chunks of `r`) leaves exactly `r` in the callback, whatever the callback held
before, and returns the length of `r` when it fits `int64_t`; this holds in every session state
and for every flow file, original, clone or appended. -/
theorem readBuffer_agrees_with_read (s : ProcessSession) (u : Nat) (r : List Byte) (fuel : Nat)
    (value_ : List Byte) (hr : s.readBuffer u = .ok r) (hfuel : r.length / 1024 + 2 ≤ fuel) :
    ∃ res, s.read u (ReadUntilItCan.callback fuel) value_ = some (res, r) ∧
      (r.length < 2 ^ 63 → res = .ok (Int.ofNat r.length)) := by
  refine ⟨_, ProcessSession.read_of_readBuffer hr fuel value_ hfuel, ?_⟩
  intro hlt
  rw [sizeToInt64_small hlt]
  have : ¬ (Int.ofNat r.length < 0) := by
    simp
  simp only [this, if_false]

open ContentRepositoryDependentTests in
/-- C7, witness: the clone over the window (3,3) of "foobar" reads "bar" both ways, the callback
still holding "foo" from the read before. -/
theorem readBuffer_agrees_with_read_witness :
    sessionClones.readBuffer 2 = .ok (bytesOf "bar") ∧
    ∃ res, sessionClones.read 2 (ReadUntilItCan.callback 3) (bytesOf "foo")
        = some (res, bytesOf "bar") ∧
      ((bytesOf "bar").length < 2 ^ 63 → res = .ok (Int.ofNat (bytesOf "bar").length)) :=
  ⟨by rfl, readBuffer_agrees_with_read sessionClones 2 (bytesOf "bar") 3 (bytesOf "foo") (by rfl)
    (by decide)⟩

/-- C8: for every flow file `ff` and output callback that writes `n` bytes without error, after
`session.write(ff, cb)` the size of the flow file is `n`, the length of its readable content. -/
theorem write_sets_size (s : ProcessSession) (u : Nat) (ff : FlowFile)
    (cb : OutputStreamCallback) (n : Nat) (ret : Int) (hff : s.find u = some ff)
    (hret : (cb ContentStream.sink).1 = some ret) (hpos : 0 ≤ ret)
    (hn : (cb ContentStream.sink).2.data.length = n) :
    ∃ s', s.write u cb = .ok s' ∧ s'.getSize u = some n ∧
      ∃ r, s'.readBuffer u = .ok r ∧ r.length = n := by
  refine ⟨_, ProcessSession.write_eq hff hret hpos, ?_, _,
    ProcessSession.materialize_readBuffer hff _, hn⟩
  rw [ProcessSession.materialize_getSize hff, hn]

open ContentRepositoryDependentTests in
/-- C8, witness: writing "foobar" gives `getSize() == 6`. -/
theorem write_sets_size_witness :
    ∃ s', (Fixture.new true).create.2.write 0
        (WriteStringToFlowFile.process contentApi (bytesOf "foobar")) = .ok s' ∧
      s'.getSize 0 = some 6 ∧ ∃ r, s'.readBuffer 0 = .ok r ∧ r.length = 6 :=
  write_sets_size (Fixture.new true).create.2 0
    { uuid := 0, attributes := [], claim := none, offset := 0, size := 0, lineage := [] }
    (WriteStringToFlowFile.process contentApi (bytesOf "foobar")) 6 6
    (by decide) (by decide) (by decide) (by decide)

/-- C9: for a flow file `ff` of the session, `clone(ff, offset, size)` fails if and only if the
window exceeds the parent (`offset + size > ff.size`), and then with `OutOfRange`; every window
with `offset + size ≤ ff.size`, one ending exactly at the end of the parent included, returns a
flow file. -/
theorem clone_out_of_range_iff (s : ProcessSession) (u offset size : Nat) (ff : FlowFile)
    (hff : s.find u = some ff) :
    (s.clone u offset size = .error Error.OutOfRange ↔ offset + size > ff.size) ∧
    ((∃ e, s.clone u offset size = .error e) ↔ offset + size > ff.size) ∧
    (offset + size ≤ ff.size → ∃ c s', s.clone u offset size = .ok (c, s')) := by
  by_cases hw : offset + size > ff.size
  · have hc : s.clone u offset size = .error Error.OutOfRange := by
      unfold ProcessSession.clone
      simp [hff, hw]
    refine ⟨⟨fun _ => hw, fun _ => hc⟩, ⟨fun _ => hw, fun _ => ⟨_, hc⟩⟩, ?_⟩
    intro h
    omega
  · have hc := ProcessSession.clone_eq offset size hff (by omega)
    refine ⟨⟨?_, fun h => absurd h hw⟩, ⟨?_, fun h => absurd h hw⟩, fun _ => ⟨_, _, hc⟩⟩
    · intro h
      rw [hc] at h
      cases h
    · intro h
      obtain ⟨e, he⟩ := h
      rw [hc] at he
      cases he

open ContentRepositoryDependentTests in
/-- C9, witness: over the 6-byte flow file the windows (0,3) and (3,3) succeed, the latter ending
exactly at the end of the parent, and the window (4,3) is `OutOfRange`. -/
theorem clone_out_of_range_iff_witness :
    ((sessionFoobar.clone 0 3 3 = .error Error.OutOfRange ↔ 3 + 3 > 6) ∧
     ((∃ e, sessionFoobar.clone 0 3 3 = .error e) ↔ 3 + 3 > 6) ∧
     (3 + 3 ≤ 6 → ∃ c s', sessionFoobar.clone 0 3 3 = .ok (c, s'))) ∧
    (∃ c s', sessionFoobar.clone 0 0 3 = .ok (c, s')) ∧
    sessionFoobar.clone 0 4 3 = .error Error.OutOfRange :=
  ⟨clone_out_of_range_iff sessionFoobar 0 3 3
    { uuid := 0, attributes := [], claim := some ⟨0⟩, offset := 0, size := 6, lineage := [] }
    (by decide), ⟨_, _, rfl⟩, by rfl⟩

/-- C10: in every reachable state of the content repository, for every content id `c` the
reference count stored for `c` equals the number of live claims referencing `c`, and content is
stored for `c` exactly while that count is not zero; `create_claim` registers its id with count
1, `clone_claim` increments, `release` decrements, and after a release the content is reclaimed
exactly when the count has reached zero. -/
theorem refcount_equals_live_claims (r : ContentRepository) (h : RepoReachable r) (c : Nat) :
    r.refcount c = r.liveClaims c ∧
    (r.backend.blobs c = none ↔ r.refcount c = 0) ∧
    r.create_claim.2.refcount r.create_claim.1.content_id = 1 ∧
    (r.clone_claim c).2.refcount c = r.refcount c + 1 ∧
    (r.release c).refcount c = r.refcount c - 1 ∧
    ((r.release c).backend.blobs c = none ↔ (r.release c).refcount c = 0) := by
  refine ⟨h.inv.count c, h.inv.stored c, ?_, ?_, ?_,
    (ContentRepository.inv_release r c h.inv).stored c⟩
  · simp [ContentRepository.create_claim, ContentStore.open_write, upd_same]
  · simp [ContentRepository.clone_claim, upd_same]
  · simp [ContentRepository.release, upd_same]

open ContentRepositoryDependentTests in
/-- C10, witness: in the session of `testReadOnSmallerClonedFlowFiles` the content id 0 of
"foobar" has the count 3, for the claims of the original and of its two clones. -/
theorem refcount_equals_live_claims_witness :
    (sessionClones.repo.refcount 0 = sessionClones.repo.liveClaims 0 ∧
     (sessionClones.repo.backend.blobs 0 = none ↔ sessionClones.repo.refcount 0 = 0) ∧
     sessionClones.repo.create_claim.2.refcount sessionClones.repo.create_claim.1.content_id = 1 ∧
     (sessionClones.repo.clone_claim 0).2.refcount 0 = sessionClones.repo.refcount 0 + 1 ∧
     (sessionClones.repo.release 0).refcount 0 = sessionClones.repo.refcount 0 - 1 ∧
     ((sessionClones.repo.release 0).backend.blobs 0 = none
       ↔ (sessionClones.repo.release 0).refcount 0 = 0)) ∧
    sessionClones.repo.refcount 0 = 3 ∧
    sessionClones.repo.live = [⟨0⟩, ⟨0⟩, ⟨0⟩] :=
  ⟨refcount_equals_live_claims sessionClones.repo
    (SessionReachable.repo_reachable reachable_sessionClones) 0, by decide, by decide⟩

/-- C3: for every flow file of a session that reads `r` and is not staged for removal, and every
pair of output callbacks writing `b1` and `b2`: `append(cb1)` then `append(cb2)` succeed, and the
flow file reads `r ++ b1 ++ b2` with size `|r| + |b1| + |b2|`, before the commit and after it;
the commit succeeds whenever the session passed its validation before the appends and owns the
flow file. -/
theorem append_append_commit_reads_concatenation (s : ProcessSession) (hs : SessionReachable s)
    (u : Nat) (r b1 b2 : List Byte) (cb1 cb2 : OutputStreamCallback) (ret1 ret2 : Int)
    (hr : s.readBuffer u = .ok r) (hdel : u ∉ s.deleted)
    (hret1 : (cb1 ContentStream.sink).1 = some ret1) (hpos1 : 0 ≤ ret1)
    (hb1 : (cb1 ContentStream.sink).2.data = b1)
    (hret2 : (cb2 ContentStream.sink).1 = some ret2) (hpos2 : 0 ≤ ret2)
    (hb2 : (cb2 ContentStream.sink).2.data = b2) :
    ∃ s1 s2, s.append u cb1 = .ok s1 ∧ s1.append u cb2 = .ok s2 ∧
      s2.readBuffer u = .ok (r ++ b1 ++ b2) ∧
      s2.getSize u = some (r.length + b1.length + b2.length) ∧
      (∀ s3, s2.commit = .ok s3 →
        s3.readBuffer u = .ok (r ++ b1 ++ b2) ∧
        s3.getSize u = some (r.length + b1.length + b2.length)) ∧
      (s.validate = true → u ∈ s.created ++ s.cloned ++ s.added →
        ∃ s3, s2.commit = .ok s3) := by
  obtain ⟨s1, ha1, hr1, _, hd1⟩ := ProcessSession.append_read hs.wf hr hret1 hpos1 hb1
  have hs1 : SessionReachable s1 := SessionReachable.append hs ha1
  obtain ⟨s2, ha2, hr2, hz2, hd2⟩ := ProcessSession.append_read hs1.wf hr1 hret2 hpos2 hb2
  have hs2 : SessionReachable s2 := SessionReachable.append hs1 ha2
  have hz2' : s2.getSize u = some (r.length + b1.length + b2.length) := by
    rw [hz2, List.length_append]
  refine ⟨s1, s2, ha1, ha2, hr2, hz2', ?_, ?_⟩
  · intro s3 hc
    have hdel2 : u ∉ s2.deleted := by rw [hd2, hd1]; exact hdel
    obtain ⟨h1, h2⟩ := ProcessSession.commit_read hs2.wf hc hdel2 hr2
    exact ⟨h1, by rw [h2, hz2']⟩
  · intro hv hown
    have hst := ProcessSession.append_staged ha1
    have hv1 := ProcessSession.validate_append ha1 hv hown
    have hown1 : u ∈ s1.created ++ s1.cloned ++ s1.added := by
      rw [hst.2.2.2.1, hst.2.2.2.2.1, hst.2.2.2.2.2.1]
      exact hown
    exact ProcessSession.commit_of_validate (ProcessSession.validate_append ha2 hv1 hown1)

open ContentRepositoryDependentTests in
/-- C3, witness: the committed flow file "my" of `testAppendToUnmanagedFlowFile`, appended with
"foo" and then "bar", reads "myfoobar" with size 8 and the commit succeeds; the test itself
(write "my", commit, append "foobar", commit) observes size 8 and "myfoobar". -/
theorem append_append_commit_reads_concatenation_witness :
    (∃ s1 s2,
      (unmanagedSession true (bytesOf "my")).append 0
        (WriteStringToFlowFile.process contentApi (bytesOf "foo")) = .ok s1 ∧
      s1.append 0 (WriteStringToFlowFile.process contentApi (bytesOf "bar")) = .ok s2 ∧
      s2.readBuffer 0 = .ok (bytesOf "my" ++ bytesOf "foo" ++ bytesOf "bar") ∧
      s2.getSize 0 = some ((bytesOf "my").length + (bytesOf "foo").length + (bytesOf "bar").length) ∧
      (∀ s3, s2.commit = .ok s3 →
        s3.readBuffer 0 = .ok (bytesOf "my" ++ bytesOf "foo" ++ bytesOf "bar") ∧
        s3.getSize 0
          = some ((bytesOf "my").length + (bytesOf "foo").length + (bytesOf "bar").length)) ∧
      ((unmanagedSession true (bytesOf "my")).validate = true →
        0 ∈ (unmanagedSession true (bytesOf "my")).created
          ++ (unmanagedSession true (bytesOf "my")).cloned
          ++ (unmanagedSession true (bytesOf "my")).added →
        ∃ s3, s2.commit = .ok s3)) ∧
    (unmanagedSession true (bytesOf "my")).validate = true ∧
    0 ∈ (unmanagedSession true (bytesOf "my")).added ∧
    testAppendToUnmanagedFlowFile true 3 (bytesOf "my") (bytesOf "foobar")
      = some ⟨some 8, bytesOf "myfoobar", bytesOf "myfoobar"⟩ :=
  ⟨append_append_commit_reads_concatenation (unmanagedSession true (bytesOf "my"))
    (reachable_unmanagedSession true (bytesOf "my")) 0 (bytesOf "my") (bytesOf "foo")
    (bytesOf "bar") (WriteStringToFlowFile.process contentApi (bytesOf "foo"))
    (WriteStringToFlowFile.process contentApi (bytesOf "bar")) 3 3
    (by rfl) (by decide) (by decide) (by decide) (by decide) (by decide) (by decide) (by decide),
   by decide, by decide, by decide⟩

open ContentRepositoryDependentTests in
/-- C4: for every initial content `r` and appended bytes `b` (of a total length an `int64_t`
holds), the test that appends to a flow file whose content was already committed (unmanaged) and
the test that appends to a flow file written earlier in the same uncommitted session (managed)
observe the same: size `|r| + |b|` and the bytes `r ++ b` on both read paths, whether or not
`session.append_in_place` is set. With the option set, the unmanaged append is not append-safe
(it materializes a new claim) and the managed append is (it appends in place). -/
theorem managed_and_unmanaged_append_agree (fuel : Nat) (r b : List Byte)
    (hlen : r.length + b.length < 2 ^ 63) (hfuel : (r.length + b.length) / 1024 + 2 ≤ fuel) :
    (∀ aip : Bool,
      testAppendToUnmanagedFlowFile aip fuel r b
        = some ⟨some (r.length + b.length), r ++ b, r ++ b⟩ ∧
      testAppendToManagedFlowFile aip fuel r b
        = some ⟨some (r.length + b.length), r ++ b, r ++ b⟩) ∧
    ((unmanagedSession true r).find 0).map (unmanagedSession true r).appendSafe = some false ∧
    ((managedSession true r).find 0).map (managedSession true r).appendSafe = some true := by
  have hr : r.length < 2 ^ 63 := by omega
  have hb : b.length < 2 ^ 63 := by omega
  have hr' : ¬ ((r.length : Int) < 0) := by omega
  have hb' : ¬ ((b.length : Int) < 0) := by omega
  have hfuel' : (r ++ b).length / 1024 + 2 ≤ fuel := by rw [List.length_append]; exact hfuel
  have hcb := ReadUntilItCan.callback_source fuel [] (r ++ b) hfuel'
  have hsz' : ¬ (sizeToInt64 (r.length + b.length) < 0) := by
    rw [sizeToInt64_small hlen]
    exact Int.not_lt.mpr (Int.ofNat_nonneg _)
  have htake : List.take (r.length + b.length) (r ++ b) = r ++ b := by
    apply List.take_of_length_le
    simp
  refine ⟨?_, ?_, ?_⟩
  · intro aip
    constructor
    · cases aip <;>
      simp [testAppendToUnmanagedFlowFile, Fixture.new, ProcessSession.start,
        ProcessSession.create, Fixture.writeToFlowFile, ProcessSession.write,
        WriteStringToFlowFile.process_sink _ hr, WriteStringToFlowFile.process_sink _ hb,
        ProcessSession.find, ProcessSession.materialize, ProcessSession.replaceFile,
        Fixture.appendToFlowFile, ProcessSession.add, ProcessSession.append,
        ProcessSession.content, ContentRepository.reader, ContentRepository.write,
        ContentRepository.create_claim, ContentStore.open_write, ContentStore.append,
        ContentRepository.empty, upd, window, hr', hb', ProcessSession.appendSafe,
        ProcessSession.appendInPlace, Fixture.transferAndCommit, ProcessSession.transfer,
        ProcessSession.knows, Fixture.Success, Fixture.Failure, ProcessSession.commit,
        ProcessSession.validate, ContentRepository.releaseAll, ContentRepository.release,
        ContentStore.remove, ProcessSession.handles, observe, ProcessSession.readBuffer,
        ProcessSession.reader, ProcessSession.read, ProcessSession.getSize, htake, hcb, hsz',
        source_data]
    · cases aip <;>
      simp [testAppendToManagedFlowFile, Fixture.new, ProcessSession.start,
        ProcessSession.create, Fixture.writeToFlowFile, ProcessSession.write,
        WriteStringToFlowFile.process_sink _ hr, WriteStringToFlowFile.process_sink _ hb,
        ProcessSession.find, ProcessSession.materialize, ProcessSession.replaceFile,
        Fixture.appendToFlowFile, ProcessSession.add, ProcessSession.append,
        ProcessSession.content, ContentRepository.reader, ContentRepository.write,
        ContentRepository.create_claim, ContentStore.open_write, ContentStore.append,
        ContentRepository.empty, upd, window, hr', hb', ProcessSession.appendSafe,
        ProcessSession.appendInPlace, Fixture.transferAndCommit, ProcessSession.transfer,
        ProcessSession.knows, Fixture.Success, Fixture.Failure, ProcessSession.commit,
        ProcessSession.validate, ContentRepository.releaseAll, ContentRepository.release,
        ContentStore.remove, ProcessSession.handles, observe, ProcessSession.readBuffer,
        ProcessSession.reader, ProcessSession.read, ProcessSession.getSize, htake, hcb, hsz',
        source_data]
  · simp [unmanagedSession, after, Fixture.new, ProcessSession.start,
      ProcessSession.create, Fixture.writeToFlowFile, ProcessSession.write,
      WriteStringToFlowFile.process_sink _ hr, ProcessSession.find, ProcessSession.materialize,
      ProcessSession.replaceFile, ProcessSession.add, hr', ProcessSession.appendSafe,
      Fixture.transferAndCommit, ProcessSession.transfer, ProcessSession.knows, Fixture.Success,
      Fixture.Failure, ProcessSession.commit, ProcessSession.validate]
  · simp [managedSession, after, Fixture.new, ProcessSession.start,
      ProcessSession.create, Fixture.writeToFlowFile, ProcessSession.write,
      WriteStringToFlowFile.process_sink _ hr, ProcessSession.find, ProcessSession.materialize,
      ProcessSession.replaceFile, ProcessSession.add, hr', ProcessSession.appendSafe,
      ContentRepository.write, ContentRepository.create_claim, ContentStore.open_write,
      ContentRepository.empty, upd]

open ContentRepositoryDependentTests in
/-- C4, witness: both tests read "myfoobar" with size 8. -/
theorem managed_and_unmanaged_append_agree_witness :
    (∀ aip : Bool,
      testAppendToUnmanagedFlowFile aip 3 (bytesOf "my") (bytesOf "foobar")
        = some ⟨some ((bytesOf "my").length + (bytesOf "foobar").length),
                bytesOf "my" ++ bytesOf "foobar", bytesOf "my" ++ bytesOf "foobar"⟩ ∧
      testAppendToManagedFlowFile aip 3 (bytesOf "my") (bytesOf "foobar")
        = some ⟨some ((bytesOf "my").length + (bytesOf "foobar").length),
                bytesOf "my" ++ bytesOf "foobar", bytesOf "my" ++ bytesOf "foobar"⟩) ∧
    ((unmanagedSession true (bytesOf "my")).find 0).map
      (unmanagedSession true (bytesOf "my")).appendSafe = some false ∧
    ((managedSession true (bytesOf "my")).find 0).map
      (managedSession true (bytesOf "my")).appendSafe = some true :=
  managed_and_unmanaged_append_agree 3 (bytesOf "my") (bytesOf "foobar") (by decide) (by decide)


/-! ## Rollback returns to the state at session begin -/

theorem ContentRepository.releaseAll_live (cs : List ResourceClaim) :
    ∀ r : ContentRepository, (r.releaseAll cs).live = cs.foldl (fun l c => l.erase c) r.live := by
  induction cs with
  | nil => intro r; rfl
  | cons c cs ih =>
    intro r
    rw [ContentRepository.releaseAll_cons, ih]
    rfl

theorem foldl_erase_append (added : List ResourceClaim) :
    ∀ l : List ResourceClaim, added.foldl (fun l c => l.erase c) (added ++ l) = l := by
  induction added with
  | nil => intro l; rfl
  | cons c cs ih =>
    intro l
    simp only [List.foldl_cons, List.cons_append, List.erase_cons_head]
    exact ih l

namespace ProcessSession

theorem stagedFrom_refl (s : ProcessSession) : StagedFrom s s :=
  ⟨[], rfl, rfl, rfl, rfl⟩

theorem stagedFrom_trans {a b c : ProcessSession} (h1 : StagedFrom a b) (h2 : StagedFrom b c) :
    StagedFrom a c := by
  obtain ⟨g1, p1, l1, q1, b1⟩ := h1
  obtain ⟨g2, p2, l2, q2, b2⟩ := h2
  exact ⟨g2 ++ g1, by rw [p2, p1, List.append_assoc], by rw [l2, l1, List.append_assoc],
    by rw [q2, q1], by rw [b2, b1]⟩

theorem stagedFrom_materialize (s : ProcessSession) (ff : FlowFile) (bytes : List Byte) :
    StagedFrom s (s.materialize ff bytes) :=
  ⟨[s.repo.create_claim.1], rfl, rfl, rfl, rfl⟩

theorem stagedFrom_appendInPlace (s : ProcessSession) (ff : FlowFile) (bytes : List Byte) :
    StagedFrom s (s.appendInPlace ff bytes) := by
  unfold appendInPlace
  cases ff.claim with
  | none => exact stagedFrom_refl s
  | some c => exact ⟨[], rfl, rfl, rfl, rfl⟩

theorem stagedFrom_stage (s : ProcessSession) (op : StagedOp) : StagedFrom s (s.stage op) := by
  cases op with
  | create => exact ⟨[], rfl, rfl, rfl, rfl⟩
  | createFrom parent =>
    cases hf : s.find parent with
    | none => simp only [stage, createFrom, hf]; exact stagedFrom_refl s
    | some p => simp only [stage, createFrom, hf]; exact ⟨[], rfl, rfl, rfl, rfl⟩
  | write u cb =>
    cases hf : s.find u with
    | none => simp only [stage, write, hf]; exact stagedFrom_refl s
    | some ff =>
      rcases hcb : cb ContentStream.sink with ⟨ret, out⟩
      cases ret with
      | none => simp only [stage, write, hf, hcb]; exact stagedFrom_refl s
      | some v =>
        by_cases hv : v < 0
        · simp only [stage, write, hf, hcb, hv, if_true]; exact stagedFrom_refl s
        · simp only [stage, write, hf, hcb, hv, if_false]
          exact stagedFrom_materialize s ff out.data
  | append u cb =>
    cases hf : s.find u with
    | none => simp only [stage, append, hf]; exact stagedFrom_refl s
    | some ff =>
      cases hc : s.content ff with
      | error e => simp only [stage, append, hf, hc]; exact stagedFrom_refl s
      | ok existing =>
        rcases hcb : cb ContentStream.sink with ⟨ret, out⟩
        cases ret with
        | none => simp only [stage, append, hf, hc, hcb]; exact stagedFrom_refl s
        | some v =>
          by_cases hv : v < 0
          · simp only [stage, append, hf, hc, hcb, hv, if_true]; exact stagedFrom_refl s
          · by_cases hsafe : s.appendSafe ff = true
            · simp only [stage, append, hf, hc, hcb, hv, if_false, hsafe, if_true]
              exact stagedFrom_appendInPlace s ff out.data
            · simp only [stage, append, hf, hc, hcb, hv, if_false, hsafe]
              exact stagedFrom_materialize s ff _
  | clone parent offset size =>
    cases hf : s.find parent with
    | none => simp only [stage, ProcessSession.clone, hf]; exact stagedFrom_refl s
    | some p =>
      by_cases hw : offset + size > p.size
      · simp only [stage, ProcessSession.clone, hf, hw, if_true]; exact stagedFrom_refl s
      · simp only [stage, ProcessSession.clone, hf, hw, if_false]
        cases hc : p.claim with
        | none => exact ⟨[], by simp, by simp, rfl, rfl⟩
        | some c => exact ⟨[c], by simp, by simp [ContentRepository.clone_claim], rfl, rfl⟩
  | transfer u r =>
    cases hf : s.find u with
    | none => simp only [stage, transfer, hf]; exact stagedFrom_refl s
    | some ff =>
      by_cases hk : s.knows r = true
      · simp only [stage, transfer, hf, hk, if_true]; exact ⟨[], rfl, rfl, rfl, rfl⟩
      · simp only [stage, transfer, hf, hk]; exact stagedFrom_refl s
  | remove u =>
    cases hf : s.find u with
    | none => simp only [stage, remove, hf]; exact stagedFrom_refl s
    | some ff => simp only [stage, remove, hf]; exact ⟨[], rfl, rfl, rfl, rfl⟩
  | add u =>
    cases hf : s.find u with
    | none => simp only [stage, add, hf]; exact stagedFrom_refl s
    | some ff => simp only [stage, add, hf]; exact ⟨[], rfl, rfl, rfl, rfl⟩

theorem stagedFrom_stageAll (ops : List StagedOp) :
    ∀ s : ProcessSession, StagedFrom s (s.stageAll ops) := by
  induction ops with
  | nil => intro s; exact stagedFrom_refl s
  | cons op ops ih =>
    intro s
    exact stagedFrom_trans (stagedFrom_stage s op) (ih (s.stage op))

end ProcessSession

theorem reachable_stage {s : ProcessSession} (h : SessionReachable s) (op : StagedOp) :
    SessionReachable (s.stage op) := by
  cases op with
  | create => exact SessionReachable.create h
  | createFrom parent =>
    cases hs : s.createFrom parent with
    | error e => simp only [ProcessSession.stage, hs]; exact h
    | ok r =>
      simp only [ProcessSession.stage, hs]
      exact SessionReachable.createFrom h (show s.createFrom parent = .ok (r.1, r.2) from hs)
  | write u cb =>
    cases hs : s.write u cb with
    | error e => simp only [ProcessSession.stage, hs]; exact h
    | ok r => simp only [ProcessSession.stage, hs]; exact SessionReachable.write h hs
  | append u cb =>
    cases hs : s.append u cb with
    | error e => simp only [ProcessSession.stage, hs]; exact h
    | ok r => simp only [ProcessSession.stage, hs]; exact SessionReachable.append h hs
  | clone parent offset size =>
    cases hs : s.clone parent offset size with
    | error e => simp only [ProcessSession.stage, hs]; exact h
    | ok r =>
      simp only [ProcessSession.stage, hs]
      exact SessionReachable.clone h (show s.clone parent offset size = .ok (r.1, r.2) from hs)
  | transfer u r =>
    cases hs : s.transfer u r with
    | error e => simp only [ProcessSession.stage, hs]; exact h
    | ok r => simp only [ProcessSession.stage, hs]; exact SessionReachable.transfer h hs
  | remove u =>
    cases hs : s.remove u with
    | error e => simp only [ProcessSession.stage, hs]; exact h
    | ok r => simp only [ProcessSession.stage, hs]; exact SessionReachable.remove h hs
  | add u =>
    cases hs : s.add u with
    | error e => simp only [ProcessSession.stage, hs]; exact h
    | ok r => simp only [ProcessSession.stage, hs]; exact SessionReachable.add h hs

theorem reachable_stageAll (ops : List StagedOp) :
    ∀ s : ProcessSession, SessionReachable s → SessionReachable (s.stageAll ops) := by
  induction ops with
  | nil => intro s h; exact h
  | cons op ops ih => intro s h; exact ih (s.stage op) (reachable_stage h op)

/-- C11: for every session that begins in a reachable state `s0` (no staged work) and every
sequence of staged operations (create, create from a parent, write, append, clone, transfer,
remove, add; a failing one leaves the session as it was), after `rollback()` the live claim
handles are exactly those before the session began, with the same reference counts, every
outcome queue is unchanged, the flow-file records are those of the begin, and the session is
again without staged work. -/
theorem rollback_restores_claims_and_queues (s0 : ProcessSession) (hr : SessionReachable s0)
    (h0 : s0.AtBegin) (ops : List StagedOp) :
    (s0.stageAll ops).rollback.repo.live = s0.repo.live ∧
    (s0.stageAll ops).rollback.queues = s0.queues ∧
    (s0.stageAll ops).rollback.files = s0.files ∧
    (∀ c, (s0.stageAll ops).rollback.repo.refcount c = s0.repo.refcount c) ∧
    (s0.stageAll ops).rollback.AtBegin := by
  obtain ⟨gained, hp, hl, hq, hb⟩ := ProcessSession.stagedFrom_stageAll ops s0
  obtain ⟨hbase, _, _, _, _, _, _, hprov, _, _⟩ := h0
  rw [hprov, List.append_nil] at hp
  have hlive : (s0.stageAll ops).rollback.repo.live = s0.repo.live := by
    show ((s0.stageAll ops).repo.releaseAll (s0.stageAll ops).provisional).live = s0.repo.live
    rw [ContentRepository.releaseAll_live, hp, hl]
    exact foldl_erase_append gained s0.repo.live
  refine ⟨hlive, hq, ?_, ?_, ?_⟩
  · show (s0.stageAll ops).base = s0.files
    rw [hb, hbase]
  · intro c
    have h1 := (SessionReachable.wf (SessionReachable.rollback
      (reachable_stageAll ops s0 hr))).repo.count c
    have h2 := (SessionReachable.wf hr).repo.count c
    rw [h1, h2, hlive]
  · exact ⟨rfl, rfl, rfl, rfl, rfl, rfl, rfl, rfl, rfl, rfl⟩

open ContentRepositoryDependentTests in
/-- C11, witness: the session of the first test after its commit ("foobar" is live in the
success queue); it clones the flow file, overwrites and appends to it, creates and removes
another one, and rolls back. -/
theorem rollback_restores_claims_and_queues_witness :
    (sessionFoobar.stageAll
        [StagedOp.clone 0 0 3,
         StagedOp.write 0 (WriteStringToFlowFile.process contentApi (bytesOf "my")),
         StagedOp.append 0 (WriteStringToFlowFile.process contentApi (bytesOf "foobar")),
         StagedOp.create, StagedOp.transfer 2 Fixture.Success,
         StagedOp.remove 0]).rollback.repo.live = sessionFoobar.repo.live ∧
    (sessionFoobar.stageAll
        [StagedOp.clone 0 0 3,
         StagedOp.write 0 (WriteStringToFlowFile.process contentApi (bytesOf "my")),
         StagedOp.append 0 (WriteStringToFlowFile.process contentApi (bytesOf "foobar")),
         StagedOp.create, StagedOp.transfer 2 Fixture.Success,
         StagedOp.remove 0]).rollback.queues = sessionFoobar.queues ∧
    (sessionFoobar.stageAll
        [StagedOp.clone 0 0 3,
         StagedOp.write 0 (WriteStringToFlowFile.process contentApi (bytesOf "my")),
         StagedOp.append 0 (WriteStringToFlowFile.process contentApi (bytesOf "foobar")),
         StagedOp.create, StagedOp.transfer 2 Fixture.Success,
         StagedOp.remove 0]).rollback.files = sessionFoobar.files ∧
    (∀ c, (sessionFoobar.stageAll
        [StagedOp.clone 0 0 3,
         StagedOp.write 0 (WriteStringToFlowFile.process contentApi (bytesOf "my")),
         StagedOp.append 0 (WriteStringToFlowFile.process contentApi (bytesOf "foobar")),
         StagedOp.create, StagedOp.transfer 2 Fixture.Success,
         StagedOp.remove 0]).rollback.repo.refcount c = sessionFoobar.repo.refcount c) ∧
    (sessionFoobar.stageAll
        [StagedOp.clone 0 0 3,
         StagedOp.write 0 (WriteStringToFlowFile.process contentApi (bytesOf "my")),
         StagedOp.append 0 (WriteStringToFlowFile.process contentApi (bytesOf "foobar")),
         StagedOp.create, StagedOp.transfer 2 Fixture.Success,
         StagedOp.remove 0]).rollback.AtBegin :=
  rollback_restores_claims_and_queues sessionFoobar reachable_sessionFoobar
    (by decide) _

/-! ## The stream callbacks over an arbitrary stream -/

theorem narrowInt64_of_le {x : Nat} (h : x ≤ INT64_MAX) : narrowInt64 x = some (Int.ofNat x) := by
  unfold narrowInt64
  rw [if_pos h]

theorem narrowInt64_of_gt {x : Nat} (h : INT64_MAX < x) : narrowInt64 x = none := by
  unfold narrowInt64
  rw [if_neg (by omega)]

theorem narrowInt64_ne_neg_one (x : Nat) : narrowInt64 x ≠ some (-1) := by
  unfold narrowInt64
  split
  · intro h
    have h1 := Option.some.inj h
    have h2 : (0 : Int) ≤ Int.ofNat x := Int.ofNat_nonneg x
    omega
  · intro h; cases h

namespace ContentRepositoryDependentTests

theorem ReadUntilItCan.loop_yields_end {σ : Type} (api : StreamApi σ) (hzero : api.isError 0 = false)
    (chunks : List (List Byte)) :
    ∀ (st : σ) (buffer : List Byte) (bytes_read : Nat) (value_ : List Byte) (fuel : Nat),
      Yields api st chunks 0 → chunks.length < fuel →
      bytes_read + (chunks.map List.length).sum ≤ INT64_MAX →
      ∃ st', ReadUntilItCan.loop api fuel st buffer bytes_read value_
        = some (Int.ofNat (bytes_read + (chunks.map List.length).sum), value_ ++ chunks.flatten, st') := by
  induction chunks with
  | nil =>
    intro st buffer bytes_read value_ fuel hy hfuel hsum
    obtain ⟨n, rfl⟩ : ∃ n, fuel = n + 1 := ⟨fuel - 1, by simp at hfuel; omega⟩
    have h0 := hy buffer
    refine ⟨(api.read st buffer 1024).2.2, ?_⟩
    simp only [List.map_nil, List.sum_nil, Nat.add_zero] at hsum ⊢
    have hI : INT64_MAX = 2 ^ 63 - 1 := rfl
    simp only [ReadUntilItCan.loop, h0, hzero, if_true, List.flatten_nil, List.append_nil]
    rw [sizeToInt64_small (by omega)]
    rfl
  | cons c cs ih =>
    intro st buffer bytes_read value_ fuel hy hfuel hsum
    obtain ⟨n, rfl⟩ : ∃ n, fuel = n + 1 := ⟨fuel - 1, by simp at hfuel; omega⟩
    obtain ⟨h1, h2, hne, herr, hrest⟩ := hy buffer
    have hpos : c.length ≠ 0 := fun h => hne (List.length_eq_zero.mp h)
    have hI : INT64_MAX = 2 ^ 63 - 1 := rfl
    simp only [List.map_cons, List.sum_cons, List.length_cons] at hsum hfuel
    have hmod : (bytes_read + c.length) % 2 ^ 64 = bytes_read + c.length :=
      Nat.mod_eq_of_lt (by omega)
    obtain ⟨st', hst'⟩ := ih (api.read st buffer 1024).2.2 c (bytes_read + c.length)
      (value_ ++ c) n hrest (by omega) (by omega)
    refine ⟨st', ?_⟩
    simp only [ReadUntilItCan.loop, h1, h2, herr, hpos, if_false, hmod]
    rw [hst']
    simp only [List.map_cons, List.sum_cons, List.flatten_cons, List.append_assoc, Nat.add_assoc]
    trivial

theorem ReadUntilItCan.loop_yields_error {σ : Type} (api : StreamApi σ) (last : Nat)
    (hlast : api.isError last = true) (chunks : List (List Byte)) :
    ∀ (st : σ) (buffer : List Byte) (bytes_read : Nat) (value_ : List Byte) (fuel : Nat),
      Yields api st chunks last → chunks.length < fuel →
      ∃ st', ReadUntilItCan.loop api fuel st buffer bytes_read value_
        = some (-1, value_ ++ chunks.flatten, st') := by
  induction chunks with
  | nil =>
    intro st buffer bytes_read value_ fuel hy hfuel
    obtain ⟨n, rfl⟩ : ∃ n, fuel = n + 1 := ⟨fuel - 1, by simp at hfuel; omega⟩
    have h0 := hy buffer
    refine ⟨(api.read st buffer 1024).2.2, ?_⟩
    simp only [ReadUntilItCan.loop, h0, hlast, if_true, List.flatten_nil, List.append_nil]
  | cons c cs ih =>
    intro st buffer bytes_read value_ fuel hy hfuel
    obtain ⟨n, rfl⟩ : ∃ n, fuel = n + 1 := ⟨fuel - 1, by simp at hfuel; omega⟩
    obtain ⟨h1, h2, hne, herr, hrest⟩ := hy buffer
    have hpos : c.length ≠ 0 := fun h => hne (List.length_eq_zero.mp h)
    simp only [List.length_cons] at hfuel
    obtain ⟨st', hst'⟩ := ih (api.read st buffer 1024).2.2 c
      ((bytes_read + c.length) % 2 ^ 64) (value_ ++ c) n hrest (by omega)
    refine ⟨st', ?_⟩
    simp only [ReadUntilItCan.loop, h1, h2, herr, hpos, if_false]
    rw [hst']
    simp only [List.flatten_cons, List.append_assoc]
    trivial

end ContentRepositoryDependentTests
open ContentRepositoryDependentTests in
/-- C12: for every buffer and every sink whose write reports an error or a count that `int64_t`
holds (as every count of at most the bytes offered is, a buffer being a `std::vector` of fewer
than 2^63 bytes), and for every `isError`, `WriteStringToFlowFile::process` and
`WriteToFlowFileCallback::process` return `-1` exactly when the result of the sink's write is an
error, and otherwise the number of bytes the sink reported as written, which is not negative;
the stream is left as the one write left it. -/
theorem output_callbacks_return {σ : Type} (api : StreamApi σ) (buffer : List Byte) (stream : σ)
    (hcount : api.isError (api.write stream buffer buffer.length).1 = false →
      (api.write stream buffer buffer.length).1 ≤ INT64_MAX) :
    ((WriteStringToFlowFile.process api buffer stream).1 = some (-1) ↔
      api.isError (api.write stream buffer buffer.length).1 = true) ∧
    ((WriteToFlowFileCallback.process api buffer stream).1 = some (-1) ↔
      api.isError (api.write stream buffer buffer.length).1 = true) ∧
    (api.isError (api.write stream buffer buffer.length).1 = false →
      (WriteStringToFlowFile.process api buffer stream).1
        = some (Int.ofNat (api.write stream buffer buffer.length).1) ∧
      (WriteToFlowFileCallback.process api buffer stream).1
        = some (Int.ofNat (api.write stream buffer buffer.length).1) ∧
      (0 : Int) ≤ Int.ofNat (api.write stream buffer buffer.length).1) ∧
    (WriteStringToFlowFile.process api buffer stream).2
      = (api.write stream buffer buffer.length).2 ∧
    (WriteToFlowFileCallback.process api buffer stream).2
      = (api.write stream buffer buffer.length).2 := by
  have key : ∀ r : Nat, ((if api.isError r = true then some (-1) else narrowInt64 r) = some (-1)
      ↔ api.isError r = true) := by
    intro r
    cases h : api.isError r with
    | true => simp
    | false => simpa using narrowInt64_ne_neg_one r
  refine ⟨key _, key _, ?_, rfl, rfl⟩
  intro herr
  have hle := hcount herr
  simp only [WriteStringToFlowFile.process, WriteToFlowFileCallback.process, herr]
  exact ⟨by simpa using narrowInt64_of_le hle, by simpa using narrowInt64_of_le hle,
    Int.ofNat_nonneg _⟩

open ContentRepositoryDependentTests in
/-- C12, witness: "foobar" written to an empty content sink, which reports 6 and no error: both
callbacks return 6 and leave the sink holding "foobar". -/
theorem output_callbacks_return_witness :
    (contentApi.isError
        (contentApi.write ContentStream.sink (bytesOf "foobar") (bytesOf "foobar").length).1
          = false →
      (contentApi.write ContentStream.sink (bytesOf "foobar") (bytesOf "foobar").length).1
        ≤ INT64_MAX) ∧
    (WriteStringToFlowFile.process contentApi (bytesOf "foobar") ContentStream.sink).1
      = some 6 ∧
    (WriteToFlowFileCallback.process contentApi (bytesOf "foobar") ContentStream.sink).1
      = some 6 ∧
    (WriteStringToFlowFile.process contentApi (bytesOf "foobar") ContentStream.sink).2
      = (contentApi.write ContentStream.sink (bytesOf "foobar") (bytesOf "foobar").length).2 :=
  ⟨fun _ => by decide,
    ((output_callbacks_return contentApi (bytesOf "foobar") ContentStream.sink
      (fun _ => by decide)).2.2.1 (by decide)).1,
    ((output_callbacks_return contentApi (bytesOf "foobar") ContentStream.sink
      (fun _ => by decide)).2.2.1 (by decide)).2.1,
    (output_callbacks_return contentApi (bytesOf "foobar") ContentStream.sink
      (fun _ => by decide)).2.2.2.1⟩

open ContentRepositoryDependentTests in
/-- C13: for every source stream that hands out a finite sequence of non-empty chunks and then
reports 0, `ReadUntilItCan::process` returns (any iteration bound above the number of chunks
suffices), its result is the sum of the chunk lengths (a total that `int64_t` and the string
`value_` can hold) and `value_` is left as the concatenation of the chunks, whatever it held
before; if instead of the 0 a read reports an error, it returns `-1`. -/
theorem readUntilItCan_reads_all_chunks {σ : Type} (api : StreamApi σ) (st : σ)
    (chunks : List (List Byte)) (last : Nat) (fuel : Nat) (value_ : List Byte)
    (hy : Yields api st chunks last) (hfuel : chunks.length < fuel) :
    (last = 0 → api.isError 0 = false → (chunks.map List.length).sum ≤ INT64_MAX →
      ∃ st', ReadUntilItCan.process api fuel value_ st
        = some (Int.ofNat (chunks.map List.length).sum, chunks.flatten, st')) ∧
    (api.isError last = true →
      ∃ st', ReadUntilItCan.process api fuel value_ st = some (-1, chunks.flatten, st')) := by
  constructor
  · intro h0 hzero hsum
    subst h0
    have := ReadUntilItCan.loop_yields_end api hzero chunks st [] 0 [] fuel hy hfuel
      (by omega)
    simpa [ReadUntilItCan.process] using this
  · intro hlast
    have := ReadUntilItCan.loop_yields_error api last hlast chunks st [] 0 [] fuel hy hfuel
    simpa [ReadUntilItCan.process] using this

open ContentRepositoryDependentTests in
/-- C13, witness: the content source over "foobar" hands out the one chunk "foobar" and then 0;
a callback that held "stale" returns 6 and holds "foobar". -/
theorem readUntilItCan_reads_all_chunks_witness :
    Yields contentApi (ContentStream.source (bytesOf "foobar")) [bytesOf "foobar"] 0 ∧
    ([bytesOf "foobar"].map List.length).sum ≤ INT64_MAX ∧
    ∃ st', ReadUntilItCan.process contentApi 2 (bytesOf "stale")
        (ContentStream.source (bytesOf "foobar"))
      = some (Int.ofNat ([bytesOf "foobar"].map List.length).sum,
          [bytesOf "foobar"].flatten, st') :=
  ⟨fun _ => ⟨rfl, rfl, by decide, rfl, fun _ => rfl⟩, by decide,
    (readUntilItCan_reads_all_chunks contentApi (ContentStream.source (bytesOf "foobar"))
      [bytesOf "foobar"] 0 2 (bytesOf "stale")
      (fun _ => ⟨rfl, rfl, by decide, rfl, fun _ => rfl⟩) (by decide)).1 rfl rfl (by decide)⟩

theorem partialSink_isError_count (accept : Nat → Nat) (buffer : List Byte) (n : Nat)
    (hlen : buffer.length ≤ INT64_MAX) :
    (partialSink accept).isError (buffer.take n).length = false := by
  have h1 : (buffer.take n).length ≤ buffer.length := by
    rw [List.length_take]
    omega
  have hI : INT64_MAX = 2 ^ 63 - 1 := rfl
  have hne : (buffer.take n).length ≠ 2 ^ 64 - 1 := by omega
  simp only [partialSink, STREAM_ERROR, SIZE_MAX, beq_eq_false_iff_ne, ne_eq]
  exact hne

open ContentRepositoryDependentTests in
/-- C18, counterexample: a sink that accepts at most 3 bytes per call is offered "foobar": both
callbacks return 3, a non-negative value that is not the buffer length 6, and the sink holds
"foo", not the whole buffer. -/
theorem output_callbacks_partial_write_counterexample :
    WriteStringToFlowFile.process (partialSink (fun len => min len 3)) (bytesOf "foobar") []
      = (some 3, bytesOf "foo") ∧
    WriteToFlowFileCallback.process (partialSink (fun len => min len 3)) (bytesOf "foobar") []
      = (some 3, bytesOf "foo") ∧
    (0 : Int) ≤ 3 ∧ (3 : Int) ≠ Int.ofNat (bytesOf "foobar").length ∧
    bytesOf "foo" ≠ bytesOf "foobar" := by
  decide

open ContentRepositoryDependentTests in
/-- C18, amended: the output callbacks issue a single write and do not loop: for every buffer and
every sink that accepts the first `accept len` of the `len` bytes offered, they return the number
of bytes the sink accepted in that one call and the sink has received exactly those bytes; the
return value equals the buffer length exactly when the sink accepted the whole buffer. -/
theorem output_callbacks_write_once (accept : Nat → Nat) (buffer held : List Byte)
    (hlen : buffer.length ≤ INT64_MAX) :
    WriteStringToFlowFile.process (partialSink accept) buffer held
      = (some (Int.ofNat (buffer.take (accept buffer.length)).length),
          held ++ buffer.take (accept buffer.length)) ∧
    WriteToFlowFileCallback.process (partialSink accept) buffer held
      = (some (Int.ofNat (buffer.take (accept buffer.length)).length),
          held ++ buffer.take (accept buffer.length)) ∧
    ((buffer.take (accept buffer.length)).length = buffer.length ↔
      buffer.take (accept buffer.length) = buffer) := by
  have herr := partialSink_isError_count accept buffer (accept buffer.length) hlen
  have hle : (buffer.take (accept buffer.length)).length ≤ INT64_MAX := by
    rw [List.length_take]
    omega
  have hn := narrowInt64_of_le hle
  have hw : (partialSink accept).write held buffer buffer.length
      = ((buffer.take (accept buffer.length)).length, held ++ buffer.take (accept buffer.length)) :=
    rfl
  refine ⟨?_, ?_, ?_⟩
  · simp only [WriteStringToFlowFile.process, hw, herr, hn]
    rfl
  · simp only [WriteToFlowFileCallback.process, hw, herr, hn]
    rfl
  · constructor
    · intro h
      have h2 : buffer.length ≤ accept buffer.length := by
        rw [List.length_take] at h
        omega
      exact List.take_of_length_le h2
    · intro h
      rw [h]

open ContentRepositoryDependentTests in
/-- C18, witness of the amended statement: a sink that accepts everything it is offered, given
"foobar". -/
theorem output_callbacks_write_once_witness :
    (bytesOf "foobar").length ≤ INT64_MAX ∧
    WriteStringToFlowFile.process (partialSink (fun len => len)) (bytesOf "foobar") []
      = (some (Int.ofNat ((bytesOf "foobar").take (bytesOf "foobar").length).length),
          [] ++ (bytesOf "foobar").take (bytesOf "foobar").length) :=
  ⟨by decide, (output_callbacks_write_once (fun len => len) (bytesOf "foobar") [] (by decide)).1⟩

/-! ## WriteToFlowFileTestProcessor::onTrigger -/

theorem WriteToFlowFileCallback.process_content_sink (content_ : List Byte) (h : content_.length < 2 ^ 63) :
    WriteToFlowFileCallback.process contentApi content_ ContentStream.sink
      = (some (Int.ofNat content_.length), { data := content_, pos := 0 }) := by
  have hne : ¬ (content_.length = STREAM_ERROR) := by
    unfold STREAM_ERROR SIZE_MAX
    omega
  have hle : content_.length ≤ INT64_MAX := by
    unfold INT64_MAX
    omega
  simp [WriteToFlowFileCallback.process, contentApi, ContentStream.write, ContentStream.sink,
    narrowInt64, hne, hle]

theorem ProcessSession.transfer_eq {s : ProcessSession} {u : Nat} {f : FlowFile} {r : Relationship}
    (hf : s.find u = some f) (hk : s.knows r = true) :
    s.transfer u r = .ok { s with transferred := s.transferred ++ [(u, r)] } := by
  simp only [ProcessSession.transfer, hf, hk, if_true]

theorem WriteToFlowFileTestProcessor.onTrigger_eq (p : WriteToFlowFileTestProcessor)
    (context : ProcessContext) (s s1 s2 : ProcessSession) (hemp : p.content_.isEmpty = false)
    (hw : s.create.2.write s.create.1 (WriteToFlowFileCallback.process contentApi p.content_)
      = .ok s1)
    (ht : s1.transfer s.create.1 WriteToFlowFileTestProcessor.Success = .ok s2) :
    p.onTrigger context s = .ok (context, s2) := by
  simp only [WriteToFlowFileTestProcessor.onTrigger, hemp, hw, ht]
  rfl

/-- C20: for every non-empty `content_` (of a length a `std::string` can have) and every session
of the stage (a reachable session whose known relationships are those installed by
`initialize`), `onTrigger` succeeds without yielding; it creates exactly one flow file, whose
content is then exactly `content_`, and stages exactly one transfer, of that flow file to
`Success`; `Success` is a member of the supported relationships installed by `initialize`, and
every transfer staged by the call targets a relationship the session knows. -/
theorem onTrigger_writes_content_and_transfers_to_success (p : WriteToFlowFileTestProcessor)
    (context : ProcessContext) (s : ProcessSession) (hs : SessionReachable s)
    (hrel : s.relationships = p.initialise.supported_relationships)
    (hne : p.content_ ≠ []) (hlen : p.content_.length < 2 ^ 63) :
    ∃ s', p.initialise.onTrigger context s = .ok (context, s') ∧
      s'.files.length = s.files.length + 1 ∧
      s'.created = s.next_uuid :: s.created ∧
      s.find s.next_uuid = none ∧
      s'.readBuffer s.next_uuid = .ok p.content_ ∧
      s'.getSize s.next_uuid = some p.content_.length ∧
      s'.transferred = s.transferred ++ [(s.next_uuid, WriteToFlowFileTestProcessor.Success)] ∧
      WriteToFlowFileTestProcessor.Success ∈ p.initialise.supported_relationships ∧
      (∀ t ∈ s'.transferred, t ∉ s.transferred → s'.knows t.2 = true) := by
  have hwf := SessionReachable.wf hs
  let ff : FlowFile :=
    { uuid := s.next_uuid, attributes := [], claim := none, offset := 0, size := 0, lineage := [] }
  have hfind : s.create.2.find s.next_uuid = some ff :=
    ProcessSession.find_append_new ff hwf.uuids
  have hnone : s.find s.next_uuid = none := by
    unfold ProcessSession.find
    apply List.find?_eq_none.mpr
    intro f hf
    have := hwf.uuids f hf
    simp
    omega
  have hcb := WriteToFlowFileCallback.process_content_sink p.content_ hlen
  have hwrite : s.create.2.write s.next_uuid (WriteToFlowFileCallback.process contentApi p.content_)
      = .ok (s.create.2.materialize ff p.content_) := by
    have hret : (WriteToFlowFileCallback.process contentApi p.content_ ContentStream.sink).1
        = some (Int.ofNat p.content_.length) := by rw [hcb]
    have := ProcessSession.write_eq hfind hret (Int.ofNat_nonneg _)
    rw [hcb] at this
    exact this
  have hfind2 := ProcessSession.materialize_find hfind p.content_
  have hknows : (s.create.2.materialize ff p.content_).knows WriteToFlowFileTestProcessor.Success
      = true := by
    have : (s.create.2.materialize ff p.content_).relationships
        = [WriteToFlowFileTestProcessor.Success] := hrel
    simp [ProcessSession.knows, this]
  have hempty : p.initialise.content_.isEmpty = false := by
    cases hc : p.content_ with
    | nil => exact absurd hc hne
    | cons b bs => simp [WriteToFlowFileTestProcessor.initialise, hc]
  refine ⟨{ s.create.2.materialize ff p.content_ with
      transferred := (s.create.2.materialize ff p.content_).transferred
        ++ [(s.next_uuid, WriteToFlowFileTestProcessor.Success)] }, ?_, ?_, rfl, hnone, ?_, ?_,
      rfl, ?_, ?_⟩
  · exact WriteToFlowFileTestProcessor.onTrigger_eq p.initialise context s _ _ hempty hwrite
      (ProcessSession.transfer_eq hfind2 hknows)
  · have h1 : ∀ (l : List FlowFile) (g : FlowFile),
        (ProcessSession.replaceFile l g).length = l.length := by
      intro l g
      induction l with
      | nil => rfl
      | cons a l ih =>
        unfold ProcessSession.replaceFile
        split
        · rfl
        · simp [ih]
    show (ProcessSession.replaceFile (s.files ++ [ff]) _).length = _
    rw [h1]
    simp
  · exact ProcessSession.materialize_readBuffer hfind p.content_
  · exact ProcessSession.materialize_getSize hfind p.content_
  · simp [WriteToFlowFileTestProcessor.initialise]
  · intro t ht hnt
    have ht2 : t ∈ s.transferred ++ [(s.next_uuid, WriteToFlowFileTestProcessor.Success)] := ht
    rcases List.mem_append.mp ht2 with h | h
    · exact absurd h hnt
    · have : t = (s.next_uuid, WriteToFlowFileTestProcessor.Success) := by simpa using h
      rw [this]
      exact hknows

/-- C20, witness: the processor with `content_ = "foobar"`, on a fresh session of the stage. -/
theorem onTrigger_writes_content_and_transfers_to_success_witness :
    bytesOf "foobar" ≠ [] ∧ (bytesOf "foobar").length < 2 ^ 63 ∧
    ∃ s', (WriteToFlowFileTestProcessor.initialise
          { content_ := bytesOf "foobar", supported_properties := [],
            supported_relationships := [] }).onTrigger { yielded := false }
        (ProcessSession.start [WriteToFlowFileTestProcessor.Success] true)
        = .ok ({ yielded := false }, s') ∧
      s'.files.length = (ProcessSession.start [WriteToFlowFileTestProcessor.Success] true).files.length + 1 ∧
      s'.created = [0] ∧
      s'.readBuffer 0 = .ok (bytesOf "foobar") ∧
      s'.getSize 0 = some 6 ∧
      s'.transferred = [(0, WriteToFlowFileTestProcessor.Success)] :=
  ⟨by decide, by decide,
    match onTrigger_writes_content_and_transfers_to_success
      { content_ := bytesOf "foobar", supported_properties := [], supported_relationships := [] }
      { yielded := false } (ProcessSession.start [WriteToFlowFileTestProcessor.Success] true)
      (SessionReachable.start _ _) rfl (by decide) (by decide) with
    | ⟨s', h1, h2, h3, _, h5, h6, h7, _, _⟩ => ⟨s', h1, h2, h3, h5, h6, h7⟩⟩

/-! ## The auto-persisting key-value store service -/

namespace AbstractAutoPersistingKeyValueStoreService

theorem persistingThreadFunc_replicate_true (n : Nat) :
    persistingThreadFunc (List.replicate n true) = List.replicate n PersistingThreadStep.persist := by
  induction n with
  | zero => rfl
  | succ n ih => simp [List.replicate_succ, persistingThreadFunc, ih]

theorem persistingThreadFunc_until_stop (n : Nat) (later : List Bool) :
    persistingThreadFunc (List.replicate n true ++ false :: later)
      = List.replicate n PersistingThreadStep.persist ++ [PersistingThreadStep.returned] := by
  induction n with
  | zero => rfl
  | succ n ih => simp [List.replicate_succ, persistingThreadFunc, ih]

end AbstractAutoPersistingKeyValueStoreService

open AbstractAutoPersistingKeyValueStoreService in
/-- C14: for a freshly constructed service with a configuration, whatever `getProperty` yields:
after `onEnable` the persisting thread is running (`running_` true, thread started) if and only
if `always_persist_` resolved to false and the resolved interval is not zero; the resolved
values are the property values where `getProperty` yields them and the constructor's (false, 0)
otherwise; and when "Always Persist" resolves to true no thread is started whatever the
interval is. -/
theorem onEnable_starts_thread_iff (toBool : String → Option Bool)
    (props : AutoPersistingProperties) :
    (((new true).onEnable toBool props).running_ = true ∧
        ((new true).onEnable toBool props).persisting_thread_joinable = true ↔
      ((new true).onEnable toBool props).always_persist_ = false ∧
        ((new true).onEnable toBool props).auto_persistence_interval_ ≠ 0) ∧
    ((new true).onEnable toBool props).always_persist_
      = ((props.always_persist.bind toBool).getD false) ∧
    ((new true).onEnable toBool props).auto_persistence_interval_
      = props.auto_persistence_interval.getD 0 ∧
    (((new true).onEnable toBool props).always_persist_ = true →
      ∀ interval : Option Nat,
        ((new true).onEnable toBool { props with auto_persistence_interval := interval }).running_
          = false ∧
        ((new true).onEnable toBool
          { props with auto_persistence_interval := interval }).persisting_thread_joinable
          = false) := by
  rcases props with ⟨ap, iv⟩
  cases ap with
  | none =>
    cases iv with
    | none => simp [onEnable, new]
    | some ms =>
      by_cases h : ms = 0
      · subst h; simp [onEnable, new]
      · simp [onEnable, new, h]
  | some value =>
    cases hb : toBool value with
    | none =>
      cases iv with
      | none => simp [onEnable, new, hb]
      | some ms =>
        by_cases h : ms = 0
        · subst h; simp [onEnable, new, hb]
        · simp [onEnable, new, hb, h]
    | some b =>
      cases b with
      | true =>
        cases iv with
        | none => simp [onEnable, new, hb]
        | some ms => simp [onEnable, new, hb]
      | false =>
        cases iv with
        | none => simp [onEnable, new, hb]
        | some ms =>
          by_cases h : ms = 0
          · subst h; simp [onEnable, new, hb]
          · simp [onEnable, new, hb, h]

open AbstractAutoPersistingKeyValueStoreService in
/-- C14, witness: "Always Persist" read as true: no thread is started, also with an interval of
one minute. -/
theorem onEnable_starts_thread_iff_witness :
    ((new true).onEnable (fun _ => some true)
        { always_persist := some "true", auto_persistence_interval := some 60000 }).always_persist_
      = true ∧
    ((new true).onEnable (fun _ => some true)
        { always_persist := some "true", auto_persistence_interval := some 60000 }).running_
      = false ∧
    ((new true).onEnable (fun _ => some true)
        { always_persist := some "true",
          auto_persistence_interval := some 60000 }).persisting_thread_joinable = false :=
  ⟨by decide,
    (onEnable_starts_thread_iff (fun _ => some true)
      { always_persist := some "true", auto_persistence_interval := some 60000 }).2.2.2
      (by decide) (some 60000)⟩

open AbstractAutoPersistingKeyValueStoreService in
/-- C15: what the code does where the claim fails: for every service with a configuration whose
persisting thread is running (started by an earlier `onEnable`), an `onEnable` that reads an
interval of 0 stores the interval 0 and leaves the thread joinable and `running_` true, so
that every later wake-up of the thread function calls `persist()`: auto persistence is not
disabled. -/
theorem onEnable_zero_interval_keeps_thread (toBool : String → Option Bool)
    (always_persist : Option String) (s : AbstractAutoPersistingKeyValueStoreService)
    (hconf : s.configuration_ = true) (hjoin : s.persisting_thread_joinable = true)
    (hrun : s.running_ = true) :
    (s.onEnable toBool ⟨always_persist, some 0⟩).auto_persistence_interval_ = 0 ∧
    (s.onEnable toBool ⟨always_persist, some 0⟩).persisting_thread_joinable = true ∧
    (s.onEnable toBool ⟨always_persist, some 0⟩).running_ = true ∧
    ∀ n, persistingThreadFunc
        (List.replicate n (s.onEnable toBool ⟨always_persist, some 0⟩).running_)
      = List.replicate n PersistingThreadStep.persist := by
  have h3 : (s.onEnable toBool ⟨always_persist, some 0⟩).running_ = true := by
    simp [onEnable, hconf, hjoin, hrun]
  refine ⟨by simp [onEnable, hconf], by simp [onEnable, hconf, hjoin], h3, ?_⟩
  intro n
  rw [h3]
  exact persistingThreadFunc_replicate_true n

open AbstractAutoPersistingKeyValueStoreService in
/-- C15, witness (the failing input): a fresh service is enabled with "Always Persist" false and
an interval of one minute, which starts the thread, and is then enabled again with an interval
of 0 seconds: the thread is still running and its next two wake-ups both call `persist()`. -/
theorem onEnable_zero_interval_keeps_thread_witness :
    ((new true).onEnable (fun _ => some false)
        { always_persist := some "false", auto_persistence_interval := some 60000 }).configuration_
      = true ∧
    ((new true).onEnable (fun _ => some false)
        { always_persist := some "false",
          auto_persistence_interval := some 60000 }).persisting_thread_joinable = true ∧
    (((new true).onEnable (fun _ => some false)
        { always_persist := some "false", auto_persistence_interval := some 60000 }).onEnable
        (fun _ => some false)
        { always_persist := some "false", auto_persistence_interval := some 0 }).running_ = true ∧
    persistingThreadFunc (List.replicate 2
      (((new true).onEnable (fun _ => some false)
        { always_persist := some "false", auto_persistence_interval := some 60000 }).onEnable
        (fun _ => some false)
        { always_persist := some "false", auto_persistence_interval := some 0 }).running_)
      = List.replicate 2 PersistingThreadStep.persist :=
  ⟨by decide, by decide,
    (onEnable_zero_interval_keeps_thread (fun _ => some false) (some "false")
      ((new true).onEnable (fun _ => some false)
        { always_persist := some "false", auto_persistence_interval := some 60000 })
      (by decide) (by decide) (by decide)).2.2.1,
    (onEnable_zero_interval_keeps_thread (fun _ => some false) (some "false")
      ((new true).onEnable (fun _ => some false)
        { always_persist := some "false", auto_persistence_interval := some 60000 })
      (by decide) (by decide) (by decide)).2.2.2 2⟩

open AbstractAutoPersistingKeyValueStoreService in
/-- C19, counterexample: a fresh service is enabled with an interval of one minute and stopped
before the first interval has passed: between the notification and the join the thread function
returns, and it does not call `persist()`; likewise a thread function whose first wake-up
finds `running_` false returns at once. -/
theorem persistingThreadFunc_stop_counterexample :
    ((new true).onEnable (fun _ => some false)
        { always_persist := some "false",
          auto_persistence_interval := some 60000 }).stopPersistingThread.2
      = [PersistingThreadStep.returned] ∧
    PersistingThreadStep.persist ∉ ((new true).onEnable (fun _ => some false)
        { always_persist := some "false",
          auto_persistence_interval := some 60000 }).stopPersistingThread.2 ∧
    persistingThreadFunc [false] = [PersistingThreadStep.returned] ∧
    persistingThreadFunc [true, false]
      = [PersistingThreadStep.persist, PersistingThreadStep.returned] := by
  decide

open AbstractAutoPersistingKeyValueStoreService in
/-- C19, amended: for every run of `persistingThreadFunc`, `persist()` is invoked once after each
wake-up that finds `running_` true, and when the stop flag is observed (`running_` false, after
`stopPersistingThread` / `notifyStop`) the thread function returns without invoking `persist()`:
a stop of a running thread sets `running_` to false, joins the thread, and the thread does
nothing but return. -/
theorem persistingThreadFunc_returns_without_persist (n : Nat) (later : List Bool)
    (s : AbstractAutoPersistingKeyValueStoreService) (hjoin : s.persisting_thread_joinable = true) :
    persistingThreadFunc (List.replicate n true ++ false :: later)
      = List.replicate n PersistingThreadStep.persist ++ [PersistingThreadStep.returned] ∧
    s.stopPersistingThread.2 = [PersistingThreadStep.returned] ∧
    s.notifyStop.2 = [PersistingThreadStep.returned] ∧
    s.stopPersistingThread.1.running_ = false ∧
    s.stopPersistingThread.1.persisting_thread_joinable = false := by
  refine ⟨persistingThreadFunc_until_stop n later, ?_, ?_, ?_, ?_⟩ <;>
    simp [notifyStop, stopPersistingThread, hjoin, persistingThreadFunc]

open AbstractAutoPersistingKeyValueStoreService in
/-- C19, witness of the amended statement: two periodic wake-ups, then the stop is observed; and
the stop of the service enabled with an interval of one minute. -/
theorem persistingThreadFunc_returns_without_persist_witness :
    ((new true).onEnable (fun _ => some false)
        { always_persist := some "false",
          auto_persistence_interval := some 60000 }).persisting_thread_joinable = true ∧
    persistingThreadFunc (List.replicate 2 true ++ false :: [true])
      = List.replicate 2 PersistingThreadStep.persist ++ [PersistingThreadStep.returned] :=
  ⟨by decide,
    (persistingThreadFunc_returns_without_persist 2 [true]
      ((new true).onEnable (fun _ => some false)
        { always_persist := some "false", auto_persistence_interval := some 60000 })
      (by decide)).1⟩

/-! ## Hexadecimal coding: decoding undoes encoding -/

namespace StringUtils

theorem byte_of_nibbles (b : Byte) :
    UInt8.ofNat ((((b.toNat >>> 4) <<< 4) ||| (b.toNat &&& 0xf)) % 256) = b := by
  rcases b with ⟨v⟩
  revert v
  decide

theorem high_nibble_lt (b : Byte) : b.toNat >>> 4 < 16 := by
  rcases b with ⟨v⟩
  revert v
  decide

theorem low_nibble_lt (b : Byte) : b.toNat &&& 0xf < 16 := by
  rcases b with ⟨v⟩
  revert v
  decide

theorem to_hex_loop_length (h : Header) (uppercase : Bool) (data : List Byte) :
    (to_hex_loop h uppercase data).length = data.length * 2 := by
  induction data with
  | nil => rfl
  | cons b rest ih => simp [to_hex_loop, ih]; omega

theorem from_hex_loop_digit (h : Header) (hc : h.HexConsistent) (n : Nat) (hn : n < 16)
    (uppercase : Bool) (rest : List Byte) (first : Option Nat) (decoded : List Byte) :
    from_hex_loop h (h.nibble_to_hex n uppercase :: rest) first decoded
      = match first with
        | some n1 => from_hex_loop h rest none (decoded ++ [UInt8.ofNat (((n1 <<< 4) ||| n) % 256)])
        | none => from_hex_loop h rest (some n) decoded := by
  obtain ⟨hskip, hdig⟩ := hc
  obtain ⟨h127, hlut⟩ := hdig n hn uppercase
  have h1 : ¬ (h.nibble_to_hex n uppercase).toNat > 127 := by omega
  have h2 : (n != h.SKIP) = true := by
    simp only [bne_iff_ne, ne_eq]
    omega
  simp only [from_hex_loop, h1, if_false, hlut, h2, if_true]

theorem from_hex_loop_to_hex (h : Header) (hc : h.HexConsistent) (uppercase : Bool)
    (data : List Byte) :
    ∀ (rest decoded : List Byte),
      from_hex_loop h (to_hex_loop h uppercase data ++ rest) none decoded
        = from_hex_loop h rest none (decoded ++ data) := by
  induction data with
  | nil => intro rest decoded; simp [to_hex_loop]
  | cons b bs ih =>
    intro rest decoded
    simp only [to_hex_loop, List.cons_append]
    rw [from_hex_loop_digit h hc _ (high_nibble_lt b), from_hex_loop_digit h hc _ (low_nibble_lt b)]
    simp only [byte_of_nibbles]
    rw [ih]
    simp

theorem from_hex_to_hex_loop (h : Header) (hc : h.HexConsistent) (uppercase : Bool)
    (data : List Byte) : from_hex h (to_hex_loop h uppercase data) = some data := by
  have := from_hex_loop_to_hex h hc uppercase data [] []
  simp only [List.append_nil, List.nil_append] at this
  simp [from_hex, from_hex_buf, this, from_hex_loop]

theorem take_store (buf written : List Byte) :
    (StdVector.store buf written).take written.length = written := by
  simp [StdVector.store]

theorem to_hex_eq (h : Header) (uppercase : Bool) (data : List Byte)
    (hlen : data.length < 2 ^ 62) :
    to_hex h data uppercase = some (to_hex_loop h uppercase data) := by
  have h1 : ¬ data.length > SIZE_MAX / 2 - 1 := by
    simp only [SIZE_MAX]
    omega
  have h2 : ¬ data.length > SIZE_MAX / 2 := by
    simp only [SIZE_MAX]
    omega
  have h3 : ¬ data.length * 2 > StdVector.max_size := by
    simp only [StdVector.max_size]
    omega
  simp only [to_hex, to_hex_buf, StdVector.create, h1, h2, h3, if_false]
  rw [← to_hex_loop_length h uppercase data, take_store]

theorem header_hexConsistent : header.HexConsistent := by
  refine ⟨by decide, ?_⟩
  decide

end StringUtils

/-- C17: for every byte sequence `data` of fewer than 2^62 bytes (so that the `2 * |data|`
characters of the result are what a `std::vector<char>` and a `std::string` hold) and either
value of `uppercase` (and header values that agree on hexadecimal digits), `to_hex(data,
uppercase)` returns a string of length `2 * |data|` and `from_hex` of it does not throw and
returns exactly `data`. -/
theorem hex_round_trip (h : StringUtils.Header) (hc : h.HexConsistent) (data : List Byte)
    (uppercase : Bool) (hlen : data.length < 2 ^ 62) :
    ∃ hex, StringUtils.to_hex h data uppercase = some hex ∧ hex.length = 2 * data.length ∧
      StringUtils.from_hex h hex = some data := by
  refine ⟨_, StringUtils.to_hex_eq h uppercase data hlen, ?_,
    StringUtils.from_hex_to_hex_loop h hc uppercase data⟩
  rw [StringUtils.to_hex_loop_length]
  omega

/-- C17, witness: the bytes of "foobar" in lower case, with the modelled header values. -/
theorem hex_round_trip_witness :
    StringUtils.header.HexConsistent ∧ (bytesOf "foobar").length < 2 ^ 62 ∧
    ∃ hex, StringUtils.to_hex StringUtils.header (bytesOf "foobar") false = some hex ∧
      hex.length = 2 * (bytesOf "foobar").length ∧
      StringUtils.from_hex StringUtils.header hex = some (bytesOf "foobar") :=
  ⟨StringUtils.header_hexConsistent, by decide,
    hex_round_trip StringUtils.header StringUtils.header_hexConsistent (bytesOf "foobar")
      false (by decide)⟩

/-! ## Base64 coding: decoding undoes encoding -/

namespace StringUtils

theorem shl_or (a y k : Nat) (hy : y < 2 ^ k) : ((a <<< k) ||| y) = a * 2 ^ k + y := by
  rw [Nat.shiftLeft_eq, Nat.mul_comm a, ← Nat.mul_add_lt_is_or hy]

set_option maxRecDepth 100000 in
theorem enc_bits : ∀ b : Fin 256,
    (b.val &&& 0xfc) >>> 2 = b.val / 4 ∧ (b.val &&& 0x03) <<< 4 = (b.val % 4) <<< 4 ∧
    (b.val &&& 0xf0) >>> 4 = b.val / 16 ∧ (b.val &&& 0x0f) <<< 2 = (b.val % 16) <<< 2 ∧
    (b.val &&& 0xc0) >>> 6 = b.val / 64 ∧ b.val &&& 0x3f = b.val % 64 := by
  decide

theorem digit0_eq (b0 : Nat) (h0 : b0 < 256) : (b0 &&& 0xfc) >>> 2 = b0 / 4 :=
  (enc_bits ⟨b0, h0⟩).1

theorem digit1_eq (b0 b1 : Nat) (h0 : b0 < 256) (h1 : b1 < 256) :
    (((b0 &&& 0x03) <<< 4) ||| ((b1 &&& 0xf0) >>> 4)) = (b0 % 4) * 16 + b1 / 16 := by
  have e0 := enc_bits ⟨b0, h0⟩
  have e1 := enc_bits ⟨b1, h1⟩
  simp only at e0 e1
  rw [e0.2.1, e1.2.2.1, shl_or _ _ 4 (by omega)]
  rfl

theorem digit2_eq (b1 b2 : Nat) (h1 : b1 < 256) (h2 : b2 < 256) :
    (((b1 &&& 0x0f) <<< 2) ||| ((b2 &&& 0xc0) >>> 6)) = (b1 % 16) * 4 + b2 / 64 := by
  have e1 := enc_bits ⟨b1, h1⟩
  have e2 := enc_bits ⟨b2, h2⟩
  simp only at e1 e2
  rw [e1.2.2.2.1, e2.2.2.2.2.1, shl_or _ _ 2 (by omega)]
  rfl

theorem digit3_eq (b2 : Nat) (h2 : b2 < 256) : b2 &&& 0x3f = b2 % 64 :=
  (enc_bits ⟨b2, h2⟩).2.2.2.2.2

theorem byte0_eq (d0 d1 : Nat) (h1 : d1 < 64) :
    ((d0 <<< 2) ||| (d1 >>> 4)) = d0 * 4 + d1 / 16 := by
  rw [Nat.shiftRight_eq_div_pow, shl_or _ _ 2 (by omega)]
  rfl

theorem byte1_eq (d1 d2 : Nat) (h2 : d2 < 64) :
    (((d1 &&& 0x0f) <<< 4) ||| (d2 >>> 2)) = (d1 % 16) * 16 + d2 / 4 := by
  have : d1 &&& 0x0f = d1 % 16 := Nat.and_pow_two_sub_one_eq_mod d1 4
  rw [this, Nat.shiftRight_eq_div_pow, shl_or _ _ 4 (by omega)]
  rfl

theorem byte2_eq (d2 d3 : Nat) (h3 : d3 < 64) :
    (((d2 &&& 0x03) <<< 6) ||| d3) = (d2 % 4) * 64 + d3 := by
  have : d2 &&& 0x03 = d2 % 4 := Nat.and_pow_two_sub_one_eq_mod d2 2
  rw [this, shl_or _ _ 6 (by omega)]
  rfl

theorem ofNat_toNat (b : Byte) : UInt8.ofNat b.toNat = b := by
  rcases b with ⟨v⟩
  apply UInt8.ext
  simp [UInt8.ofNat, UInt8.toNat]

/-- The four digits that `to_base64` makes of three byte values are below 64 and
`base64_digits_to_bytes` packs them back into the three bytes. -/
theorem digits_to_bytes_of_bytes (b0 b1 b2 : Nat) (h0 : b0 < 256) (h1 : b1 < 256)
    (h2 : b2 < 256) :
    (b0 &&& 0xfc) >>> 2 < 64 ∧
    (((b0 &&& 0x03) <<< 4) ||| ((b1 &&& 0xf0) >>> 4)) < 64 ∧
    (((b1 &&& 0x0f) <<< 2) ||| ((b2 &&& 0xc0) >>> 6)) < 64 ∧
    (b2 &&& 0x3f) < 64 ∧
    base64_digits_to_bytes [(b0 &&& 0xfc) >>> 2,
        (((b0 &&& 0x03) <<< 4) ||| ((b1 &&& 0xf0) >>> 4)),
        (((b1 &&& 0x0f) <<< 2) ||| ((b2 &&& 0xc0) >>> 6)), b2 &&& 0x3f]
      = [UInt8.ofNat b0, UInt8.ofNat b1, UInt8.ofNat b2] := by
  rw [digit0_eq b0 h0, digit1_eq b0 b1 h0 h1, digit2_eq b1 b2 h1 h2, digit3_eq b2 h2]
  refine ⟨by omega, by omega, by omega, by omega, ?_⟩
  simp only [base64_digits_to_bytes, List.getD_cons_zero, List.getD_cons_succ]
  rw [byte0_eq _ _ (by omega), byte1_eq _ _ (by omega), byte2_eq _ _ (by omega)]
  have e0 : (b0 / 4 * 4 + (b0 % 4 * 16 + b1 / 16) / 16) % 256 = b0 := by omega
  have e1 : ((b0 % 4 * 16 + b1 / 16) % 16 * 16 + (b1 % 16 * 4 + b2 / 64) / 4) % 256 = b1 := by
    omega
  have e2 : ((b1 % 16 * 4 + b2 / 64) % 4 * 64 + b2 % 64) % 256 = b2 := by omega
  rw [e0, e1, e2]

end StringUtils

namespace StringUtils

theorem enc_lut_consistent (h : Header) (hc : h.Base64Consistent) (url : Bool) (i : Nat)
    (hi : i < 64) :
    (enc_lut h url i).toNat ≤ 127 ∧ h.base64_dec_lut (enc_lut h url i).toNat = i := by
  obtain ⟨_, _, _, _, _, _, hstd, hurl⟩ := hc
  cases url with
  | false => exact hstd i hi
  | true => exact hurl i hi

theorem from_base64_loop_digit (h : Header) (hc : h.Base64Consistent) (url : Bool) (i : Nat)
    (hi : i < 64) (rest : List Byte) (digits : List Nat) (decoded : List Byte) :
    from_base64_loop h (enc_lut h url i :: rest) digits 0 decoded
      = if (digits ++ [i]).length = 4 then
          from_base64_loop h rest [] 0 (decoded ++ base64_digits_to_bytes (digits ++ [i]))
        else from_base64_loop h rest (digits ++ [i]) 0 decoded := by
  obtain ⟨h127, hdec⟩ := enc_lut_consistent h hc url i hi
  obtain ⟨hs, hi2, hp, _, _, _, _, _⟩ := hc
  have h1 : ¬ (enc_lut h url i).toNat > 127 := by omega
  have h2 : ¬ (i = h.SKIP) := by omega
  have h3 : ¬ (i = h.ILGL) := by omega
  have h4 : ¬ (i = h.PDNG) := by omega
  have h5 : ¬ (0 > 0) := by omega
  simp only [from_base64_loop, h1, if_false, hdec, h2, h3, h4, h5]

theorem from_base64_loop_padding (h : Header) (hc : h.Base64Consistent) (rest : List Byte)
    (digits : List Nat) (padding_counter : Nat) (decoded : List Byte) :
    from_base64_loop h (61 :: rest) digits padding_counter decoded
      = from_base64_loop h rest digits (padding_counter + 1) decoded := by
  obtain ⟨_, _, _, hps, hpi, hpad, _, _⟩ := hc
  have h0 : (61 : Byte).toNat = 61 := rfl
  have h1 : ¬ (61 > 127) := by omega
  simp only [from_base64_loop, h0, h1, if_false, hpad, hps, hpi, if_true]

theorem to_base64_group_three (h : Header) (url padded : Bool) (b0 b1 b2 : Byte) :
    to_base64_group h url padded b0 (some b1) (some b2)
      = [enc_lut h url ((b0.toNat &&& 0xfc) >>> 2),
         enc_lut h url (((b0.toNat &&& 0x03) <<< 4) ||| ((b1.toNat &&& 0xf0) >>> 4)),
         enc_lut h url (((b1.toNat &&& 0x0f) <<< 2) ||| ((b2.toNat &&& 0xc0) >>> 6)),
         enc_lut h url (b2.toNat &&& 0x3f)] := by
  simp [to_base64_group]

theorem to_base64_group_two (h : Header) (url padded : Bool) (b0 b1 : Byte) :
    to_base64_group h url padded b0 (some b1) none
      = [enc_lut h url ((b0.toNat &&& 0xfc) >>> 2),
         enc_lut h url (((b0.toNat &&& 0x03) <<< 4) ||| ((b1.toNat &&& 0xf0) >>> 4)),
         enc_lut h url (((b1.toNat &&& 0x0f) <<< 2) ||| ((0 &&& 0xc0) >>> 6))]
        ++ (if padded then [61] else []) := by
  simp [to_base64_group]

theorem to_base64_group_one (h : Header) (url padded : Bool) (b0 : Byte) :
    to_base64_group h url padded b0 none none
      = [enc_lut h url ((b0.toNat &&& 0xfc) >>> 2),
         enc_lut h url (((b0.toNat &&& 0x03) <<< 4) ||| ((0 &&& 0xf0) >>> 4))]
        ++ ((if padded then [61] else []) ++ (if padded then [61] else [])) := by
  simp [to_base64_group]

theorem list_induction_by_three {P : List Byte → Prop} (h0 : P []) (h1 : ∀ a, P [a])
    (h2 : ∀ a b, P [a, b]) (h3 : ∀ a b c rest, P rest → P (a :: b :: c :: rest)) :
    ∀ l, P l
  | [] => h0
  | [a] => h1 a
  | [a, b] => h2 a b
  | a :: b :: c :: rest => h3 a b c rest (list_induction_by_three h0 h1 h2 h3 rest)

end StringUtils

namespace StringUtils

theorem from_base64_finish_to_base64 (h : Header) (hc : h.Base64Consistent) (url padded : Bool) :
    ∀ (data decoded : List Byte),
      (from_base64_loop h (to_base64_loop h url padded data) [] 0 decoded).bind
          (fun r => from_base64_finish r.1 r.2.1 r.2.2)
        = some (decoded ++ data) := by
  apply list_induction_by_three
  · intro decoded
    simp [to_base64_loop, from_base64_loop, from_base64_finish]
  · intro a decoded
    obtain ⟨l0, l1, _, _, hbytes⟩ :=
      digits_to_bytes_of_bytes a.toNat 0 0 (UInt8.toNat_lt a) (by omega) (by omega)
    have z2 : (((0 &&& 0x0f) <<< 2) ||| ((0 &&& 0xc0) >>> 6)) = 0 := by decide
    have z3 : (0 &&& 0x3f) = 0 := by decide
    rw [z2, z3, ofNat_toNat] at hbytes
    simp at hbytes
    simp only [to_base64_loop, to_base64_group_one, List.cons_append, List.nil_append]
    rw [from_base64_loop_digit h hc url _ l0, if_neg (by simp),
      from_base64_loop_digit h hc url _ l1, if_neg (by simp)]
    cases padded with
    | false =>
      simp only [Bool.false_eq_true, if_false, List.append_nil, from_base64_loop, Option.some_bind,
        List.nil_append, List.cons_append]
      simp [from_base64_finish, hbytes]
    | true =>
      simp only [if_true, List.cons_append, List.nil_append, List.singleton_append]
      rw [from_base64_loop_padding h hc, from_base64_loop_padding h hc]
      simp only [from_base64_loop, Option.some_bind]
      simp [from_base64_finish, hbytes]
  · intro a b decoded
    obtain ⟨l0, l1, l2, _, hbytes⟩ :=
      digits_to_bytes_of_bytes a.toNat b.toNat 0 (UInt8.toNat_lt a) (UInt8.toNat_lt b) (by omega)
    have z3 : (0 &&& 0x3f) = 0 := by decide
    rw [z3, ofNat_toNat, ofNat_toNat] at hbytes
    simp at hbytes
    simp only [to_base64_loop, to_base64_group_two, List.cons_append, List.nil_append]
    rw [from_base64_loop_digit h hc url _ l0, if_neg (by simp),
      from_base64_loop_digit h hc url _ l1, if_neg (by simp),
      from_base64_loop_digit h hc url _ l2, if_neg (by simp)]
    cases padded with
    | false =>
      simp only [Bool.false_eq_true, if_false, from_base64_loop, Option.some_bind,
        List.nil_append, List.cons_append]
      simp [from_base64_finish, hbytes]
    | true =>
      simp only [if_true]
      rw [from_base64_loop_padding h hc]
      simp only [from_base64_loop, Option.some_bind]
      simp [from_base64_finish, hbytes]
  · intro a b c rest ih decoded
    obtain ⟨l0, l1, l2, l3, hbytes⟩ :=
      digits_to_bytes_of_bytes a.toNat b.toNat c.toNat (UInt8.toNat_lt a) (UInt8.toNat_lt b)
        (UInt8.toNat_lt c)
    rw [ofNat_toNat, ofNat_toNat, ofNat_toNat] at hbytes
    simp only [to_base64_loop, to_base64_group_three, List.cons_append, List.nil_append]
    rw [from_base64_loop_digit h hc url _ l0, if_neg (by simp),
      from_base64_loop_digit h hc url _ l1, if_neg (by simp),
      from_base64_loop_digit h hc url _ l2, if_neg (by simp),
      from_base64_loop_digit h hc url _ l3, if_pos (by simp)]
    simp only [List.nil_append, List.cons_append] at hbytes ⊢
    rw [hbytes, ih]
    simp

end StringUtils

namespace StringUtils

theorem from_base64_to_base64_loop (h : Header) (hc : h.Base64Consistent) (url padded : Bool)
    (data : List Byte) : from_base64 h (to_base64_loop h url padded data) = some data := by
  have key := from_base64_finish_to_base64 h hc url padded data []
  simp only [List.nil_append] at key
  have hcap : ¬ ((to_base64_loop h url padded data).length / 4 + 1) * 3
      < ((to_base64_loop h url padded data).length / 4 + 1) * 3 := by omega
  simp only [from_base64, from_base64_buf, hcap, if_false]
  cases hl : from_base64_loop h (to_base64_loop h url padded data) [] 0 [] with
  | none => rw [hl] at key; cases key
  | some r =>
    rw [hl] at key
    exact key

theorem to_base64_max_length_eq : to_base64_max_length = 2 ^ 62 - 4 := by
  decide

theorem to_base64_loop_length_le (h : Header) (url padded : Bool) :
    ∀ data : List Byte,
      (to_base64_loop h url padded data).length ≤ (data.length / 3 + 1) * 4 := by
  apply list_induction_by_three
  · simp [to_base64_loop]
  · intro a
    cases padded <;> simp [to_base64_loop, to_base64_group]
  · intro a b
    cases padded <;> simp [to_base64_loop, to_base64_group]
  · intro a b c rest ih
    simp only [to_base64_loop, to_base64_group, List.length_append, List.length_cons,
      List.length_nil, Option.isSome_some, if_true]
    have e : (rest.length + 1 + 1 + 1) / 3 = rest.length / 3 + 1 := by omega
    rw [e]
    omega

theorem to_base64_eq (h : Header) (url padded : Bool) (data : List Byte)
    (hlen : data.length ≤ to_base64_max_length) :
    to_base64 h data url padded = some (to_base64_loop h url padded data) := by
  have h1 : ¬ data.length > to_base64_max_length := by omega
  rw [to_base64_max_length_eq] at hlen
  have h2 : ¬ (data.length / 3 + 1) * 4 % 2 ^ 64 > StdVector.max_size := by
    simp only [StdVector.max_size]
    omega
  simp only [to_base64, to_base64_buf, StdVector.create, h1, h2, if_false]
  rw [take_store]

theorem header_enc_lut_checked :
    (List.range 64).all (fun i => decide ((header.base64_enc_lut i).toNat ≤ 127 ∧
      header.base64_dec_lut (header.base64_enc_lut i).toNat = i)) = true := by
  decide

theorem header_url_enc_lut_checked :
    (List.range 64).all (fun i => decide ((header.base64_url_enc_lut i).toNat ≤ 127 ∧
      header.base64_dec_lut (header.base64_url_enc_lut i).toNat = i)) = true := by
  decide

theorem header_base64Consistent : header.Base64Consistent := by
  refine ⟨by decide, by decide, by decide, by decide, by decide, by decide, ?_, ?_⟩
  · intro i hi
    exact of_decide_eq_true
      (List.all_eq_true.mp header_enc_lut_checked i (List.mem_range.mpr hi))
  · intro i hi
    exact of_decide_eq_true
      (List.all_eq_true.mp header_url_enc_lut_checked i (List.mem_range.mpr hi))

end StringUtils

/-- C16: for every byte sequence `data` of at most 2^62 - 4 bytes (the value of
`std::numeric_limits<size_t>::max() * 3 / 4 - 3` in `size_t` arithmetic; four exbibytes, more
than an address space holds) and every choice of `url` and `padded` (and header tables that
agree on base64 digits), `to_base64(data, url, padded)` returns and `from_base64` of the result
does not throw and returns exactly `data`. -/
theorem base64_round_trip (h : StringUtils.Header) (hc : h.Base64Consistent) (data : List Byte)
    (url padded : Bool) (hlen : data.length ≤ StringUtils.to_base64_max_length) :
    ∃ base64, StringUtils.to_base64 h data url padded = some base64 ∧
      StringUtils.from_base64 h base64 = some data :=
  ⟨_, StringUtils.to_base64_eq h url padded data hlen,
    StringUtils.from_base64_to_base64_loop h hc url padded data⟩

/-- C16, witness: the bytes of "fooba" with the URL-safe alphabet and padding, with the
modelled header values. -/
theorem base64_round_trip_witness :
    StringUtils.header.Base64Consistent ∧
    (bytesOf "fooba").length ≤ StringUtils.to_base64_max_length ∧
    ∃ base64, StringUtils.to_base64 StringUtils.header (bytesOf "fooba") true true = some base64 ∧
      StringUtils.from_base64 StringUtils.header base64 = some (bytesOf "fooba") :=
  ⟨StringUtils.header_base64Consistent, by decide,
    base64_round_trip StringUtils.header StringUtils.header_base64Consistent (bytesOf "fooba")
      true true (by decide)⟩

/-! ## Decoding hexadecimal strings -/

namespace StringUtils

theorem pairNibbles_length : ∀ digits : List Nat, (pairNibbles digits).length = digits.length / 2
  | [] => rfl
  | [_] => by simp [pairNibbles]
  | n1 :: n :: rest => by
    simp only [pairNibbles, List.length_cons, pairNibbles_length rest]
    omega

theorem from_hex_loop_spec (h : Header) (hex : List Byte) :
    ∀ (first : Option Nat) (decoded : List Byte),
      ((from_hex_loop h hex first decoded).1.isSome
          = decide ((first.toList ++ hexDigits h hex).length % 2 = 1)) ∧
      (from_hex_loop h hex first decoded).2
          = decoded ++ pairNibbles (first.toList ++ hexDigits h hex) := by
  induction hex with
  | nil =>
    intro first decoded
    cases first with
    | none => simp [from_hex_loop, hexDigits, pairNibbles]
    | some n1 => simp [from_hex_loop, hexDigits, pairNibbles]
  | cons c rest ih =>
    intro first decoded
    by_cases h127 : c.toNat > 127
    · have hd : hexDigits h (c :: rest) = hexDigits h rest := by
        have : ¬ (c.toNat ≤ 127 ∧ h.hex_lut c.toNat ≠ h.SKIP) := by omega
        simp [hexDigits, List.filterMap_cons, this]
      rw [hd]
      simp only [from_hex_loop, h127, if_true]
      exact ih first decoded
    · by_cases hskip : h.hex_lut c.toNat = h.SKIP
      · have hd : hexDigits h (c :: rest) = hexDigits h rest := by
          have : ¬ (c.toNat ≤ 127 ∧ h.hex_lut c.toNat ≠ h.SKIP) := fun hh => hh.2 hskip
          simp [hexDigits, List.filterMap_cons, this]
        rw [hd]
        have hb : (h.hex_lut c.toNat != h.SKIP) = false := by simp [hskip]
        simp only [from_hex_loop, h127, if_false, hb, Bool.false_eq_true]
        exact ih first decoded
      · have hd : hexDigits h (c :: rest) = h.hex_lut c.toNat :: hexDigits h rest := by
          have : c.toNat ≤ 127 ∧ h.hex_lut c.toNat ≠ h.SKIP := ⟨by omega, hskip⟩
          simp [hexDigits, List.filterMap_cons, this]
        rw [hd]
        have hb : (h.hex_lut c.toNat != h.SKIP) = true := by simp [hskip]
        cases first with
        | none =>
          simp only [from_hex_loop, h127, if_false, hb, if_true]
          have := ih (some (h.hex_lut c.toNat)) decoded
          simpa using this
        | some n1 =>
          simp only [from_hex_loop, h127, if_false, hb, if_true]
          have := ih none (decoded ++ [UInt8.ofNat (((n1 <<< 4) ||| h.hex_lut c.toNat) % 256)])
          constructor
          · rw [this.1]
            simp only [Option.toList, List.nil_append, List.cons_append, List.length_cons]
            congr 1
            apply propext
            omega
          · rw [this.2]
            simp [pairNibbles]

theorem from_hex_eq (h : Header) (hex : List Byte) :
    from_hex h hex
      = if (hexDigits h hex).length % 2 = 1 then none else some (pairNibbles (hexDigits h hex)) := by
  have hs := from_hex_loop_spec h hex none []
  simp only [Option.toList, List.nil_append] at hs
  have hcap : ¬ (hex.length / 2 < hex.length / 2) := by omega
  simp only [from_hex, from_hex_buf, hcap, if_false, hs.1, hs.2, decide_eq_true_eq]

end StringUtils

namespace StringUtils

theorem hexDigits_append (h : Header) (a b : List Byte) :
    hexDigits h (a ++ b) = hexDigits h a ++ hexDigits h b := by
  simp [hexDigits, List.filterMap_append]

theorem hexDigits_skip (h : Header) (c : Byte) (post : List Byte)
    (hc : 127 < c.toNat ∨ h.hex_lut c.toNat = h.SKIP) :
    hexDigits h (c :: post) = hexDigits h post := by
  have : ¬ (c.toNat ≤ 127 ∧ h.hex_lut c.toNat ≠ h.SKIP) := by
    rcases hc with hc | hc
    · omega
    · exact fun hh => hh.2 hc
  simp [hexDigits, List.filterMap_cons, this]

end StringUtils

/-- C24: for every input string `hex` (and every header table), the vector-returning
`from_hex(hex)` throws `std::invalid_argument` if and only if the number of hexadecimal digits in
`hex` is odd; otherwise it returns the bytes formed by pairing the digits in order, high nibble
first, and the result has half as many bytes as there are digits; a character that is not a
hexadecimal digit (a byte above 127, or one the table maps to `SKIP`) is ignored wherever it
stands. -/
theorem from_hex_throws_iff_odd_digits (h : StringUtils.Header) (hex : List Byte) :
    (StringUtils.from_hex h hex = none ↔ (StringUtils.hexDigits h hex).length % 2 = 1) ∧
    (StringUtils.from_hex h hex
      = if (StringUtils.hexDigits h hex).length % 2 = 1 then none
        else some (StringUtils.pairNibbles (StringUtils.hexDigits h hex))) ∧
    (StringUtils.pairNibbles (StringUtils.hexDigits h hex)).length
      = (StringUtils.hexDigits h hex).length / 2 ∧
    (∀ (pre post : List Byte) (c : Byte), hex = pre ++ c :: post →
      (127 < c.toNat ∨ h.hex_lut c.toNat = h.SKIP) →
        StringUtils.from_hex h hex = StringUtils.from_hex h (pre ++ post)) := by
  refine ⟨?_, StringUtils.from_hex_eq h hex, StringUtils.pairNibbles_length _, ?_⟩
  · rw [StringUtils.from_hex_eq]
    by_cases hodd : (StringUtils.hexDigits h hex).length % 2 = 1
    · simp [hodd]
    · simp [hodd]
  · intro pre post c hhex hc
    rw [StringUtils.from_hex_eq, StringUtils.from_hex_eq, hhex, StringUtils.hexDigits_append,
      StringUtils.hexDigits_append, StringUtils.hexDigits_skip h c post hc]

/-- C24, witness: with the usual digits, "66 6F\x80" and a stray "x" decode to "fo" (the space,
the byte 0x80 and the "x" are ignored), and "666" (three digits) makes `from_hex` throw. -/
theorem from_hex_throws_iff_odd_digits_witness :
    StringUtils.from_hex StringUtils.header (bytesOf "66 6F\x80x") = some (bytesOf "fo") ∧
    StringUtils.from_hex StringUtils.header (bytesOf "666") = none ∧
    (StringUtils.from_hex StringUtils.header (bytesOf "666") = none ↔
      (StringUtils.hexDigits StringUtils.header (bytesOf "666")).length % 2 = 1) :=
  ⟨by decide, by decide,
    (from_hex_throws_iff_odd_digits StringUtils.header (bytesOf "666")).1⟩

/-! ## Facts about `std::string::find` -/

namespace StdString

theorem findAt_some {str : List Byte} :
    ∀ {s : List Byte} {i p : Nat}, findAt str s i = some p →
      ∃ k, p = i + k ∧ k ≤ s.length ∧ str <+: s.drop k ∧ ∀ j, j < k → ¬ str <+: s.drop j := by
  intro s
  induction s with
  | nil =>
    intro i p hf
    by_cases he : str.isEmpty = true
    · simp only [findAt, he, if_true, Option.some.injEq] at hf
      refine ⟨0, by omega, by simp, ?_, by omega⟩
      have : str = [] := List.isEmpty_iff.mp he
      simp [this]
    · simp [findAt, he] at hf
  | cons c cs ih =>
    intro i p hf
    by_cases hp : str.isPrefixOf (c :: cs) = true
    · simp only [findAt, hp, if_true, Option.some.injEq] at hf
      exact ⟨0, by omega, by simp, by simpa using List.isPrefixOf_iff_prefix.mp hp, by omega⟩
    · simp only [findAt, hp] at hf
      obtain ⟨k, hk, hle, hpre, hmin⟩ := ih hf
      refine ⟨k + 1, by omega, by simp; omega, by simpa using hpre, ?_⟩
      intro j hj
      cases j with
      | zero =>
        intro hh
        exact hp (List.isPrefixOf_iff_prefix.mpr (by simpa using hh))
      | succ j => simpa using hmin j (by omega)

theorem findAt_none {str : List Byte} :
    ∀ {s : List Byte} {i : Nat}, findAt str s i = none →
      ∀ j, j ≤ s.length → ¬ str <+: s.drop j := by
  intro s
  induction s with
  | nil =>
    intro i hf j hj
    by_cases he : str.isEmpty = true
    · simp [findAt, he] at hf
    · intro hh
      have : str = [] := by simpa using hh
      exact he (by simp [this])
  | cons c cs ih =>
    intro i hf j hj
    by_cases hp : str.isPrefixOf (c :: cs) = true
    · simp [findAt, hp] at hf
    · simp only [findAt, hp] at hf
      cases j with
      | zero =>
        intro hh
        exact hp (List.isPrefixOf_iff_prefix.mpr (by simpa using hh))
      | succ j =>
        have := ih hf j (by simpa using hj)
        simpa using this

theorem find_eq_some {s str : List Byte} {pos p : Nat} (hf : find s str pos = some p) :
    pos ≤ p ∧ p ≤ s.length ∧ str <+: s.drop p ∧
      ∀ j, pos ≤ j → j < p → ¬ str <+: s.drop j := by
  unfold find at hf
  by_cases hpos : pos > s.length
  · simp [hpos] at hf
  · simp only [hpos, if_false] at hf
    obtain ⟨k, hk, hle, hpre, hmin⟩ := findAt_some hf
    rw [List.length_drop] at hle
    rw [List.drop_drop] at hpre
    refine ⟨by omega, by omega, ?_, ?_⟩
    · rw [hk]
      exact hpre
    · intro j hj1 hj2
      have := hmin (j - pos) (by omega)
      rw [List.drop_drop] at this
      have e : j - pos + pos = j := by omega
      have e2 : pos + (j - pos) = j := by omega
      simpa [e, e2] using this

theorem find_eq_none {s str : List Byte} {pos : Nat} (hf : find s str pos = none) :
    ∀ j, pos ≤ j → j ≤ s.length → ¬ str <+: s.drop j := by
  intro j hj1 hj2
  unfold find at hf
  have hpos : ¬ pos > s.length := by omega
  simp only [hpos, if_false] at hf
  have := findAt_none hf (j - pos) (by rw [List.length_drop]; omega)
  rw [List.drop_drop] at this
  have e : j - pos + pos = j := by omega
  have e2 : pos + (j - pos) = j := by omega
  simpa [e, e2] using this

end StdString

/-! ## `split` cuts at the occurrences of the delimiter -/

namespace StringUtils

theorem prefix_drop_of_infix {d e : List Byte} (h : d <:+: e) :
    ∃ j, j ≤ e.length ∧ d <+: e.drop j := by
  obtain ⟨s, t, rfl⟩ := h
  refine ⟨s.length, by simp, ?_⟩
  simp [List.append_assoc]

theorem prefix_drop_of_take {d s : List Byte} {p j : Nat} (h : d <+: (s.take p).drop j) :
    d <+: s.drop j := by
  rw [List.drop_take] at h
  exact h.trans (List.take_prefix _ _)

theorem split_at_occurrence {d s : List Byte} {p : Nat} (h : d <+: s.drop p) :
    s.take p ++ d ++ s.drop (p + d.length) = s := by
  obtain ⟨t, ht⟩ := h
  have h1 : s.drop (p + d.length) = t := by
    have : (s.drop p).drop d.length = t := by rw [← ht]; simp
    rw [List.drop_drop] at this
    exact this
  rw [h1, List.append_assoc, ht, List.take_append_drop]

theorem occurrence_fits {d s : List Byte} {p : Nat} (h : d <+: s.drop p) :
    p + d.length ≤ s.length ∨ d = [] := by
  by_cases hd : d = []
  · exact Or.inr hd
  · left
    have := h.length_le
    rw [List.length_drop] at this
    have hpos : 0 < d.length := List.length_pos.mpr hd
    omega

theorem countOccurrences_skip (d : List Byte) :
    ∀ (s : List Byte) (skip : Nat), countOccurrences d s skip = countOccurrences d (s.drop skip) 0 := by
  intro s
  induction s with
  | nil => intro skip; simp [countOccurrences]
  | cons c cs ih =>
    intro skip
    cases skip with
    | zero => rfl
    | succ k => simp only [countOccurrences, List.drop_succ_cons]; exact ih k

theorem countOccurrences_no_prefix (d : List Byte) :
    ∀ (k : Nat) (s : List Byte), k ≤ s.length → (∀ j, j < k → ¬ d <+: s.drop j) →
      countOccurrences d s 0 = countOccurrences d (s.drop k) 0 := by
  intro k
  induction k with
  | zero => intro s _ _; rfl
  | succ k ih =>
    intro s hk hno
    cases s with
    | nil => simp at hk
    | cons c cs =>
      have h0 : ¬ d.isPrefixOf (c :: cs) = true := by
        intro hh
        exact hno 0 (by omega) (by simpa using List.isPrefixOf_iff_prefix.mp hh)
      simp only [countOccurrences, h0, List.drop_succ_cons]
      apply ih cs (by simpa using hk)
      intro j hj
      have := hno (j + 1) (by omega)
      simpa using this

theorem countOccurrences_prefix {d s : List Byte} (hd : d ≠ []) (h : d <+: s) :
    countOccurrences d s 0 = 1 + countOccurrences d (s.drop d.length) 0 := by
  cases s with
  | nil =>
    have : d = [] := by simpa using h
    exact absurd this hd
  | cons c cs =>
    have h0 : d.isPrefixOf (c :: cs) = true := List.isPrefixOf_iff_prefix.mpr h
    have hpos : 0 < d.length := List.length_pos.mpr hd
    simp only [countOccurrences, h0, if_true]
    rw [countOccurrences_skip d cs (d.length - 1)]
    have : (c :: cs).drop d.length = cs.drop (d.length - 1) := by
      obtain ⟨n, hn⟩ : ∃ n, d.length = n + 1 := ⟨d.length - 1, by omega⟩
      rw [hn]
      simp
    rw [this]

theorem intercalate_cons_cons (d a b : List Byte) (l : List (List Byte)) :
    List.intercalate d (a :: b :: l) = a ++ d ++ List.intercalate d (b :: l) := by
  simp [List.intercalate, List.intersperse]

end StringUtils

namespace StringUtils

theorem split_transformed_loop_spec (d : List Byte) (hd : d ≠ []) :
    ∀ (fuel : Nat) (str : List Byte) (result : List (List Byte)), str.length < fuel →
      ∃ parts, split_transformed_loop id d fuel str (StdString.find str d 0) result
          = some (result ++ parts) ∧
        parts ≠ [] ∧ List.intercalate d parts = str ∧ (∀ e ∈ parts, ¬ d <:+: e) ∧
        parts.length = countOccurrences d str 0 + 1 := by
  have hdpos : 0 < d.length := List.length_pos.mpr hd
  intro fuel
  induction fuel with
  | zero => intro str result h; omega
  | succ n ih =>
    intro str result hlen
    cases hf : StdString.find str d 0 with
    | none =>
      have hno := StdString.find_eq_none hf
      refine ⟨[str], by simp [split_transformed_loop], by simp, by simp [List.intercalate], ?_, ?_⟩
      · intro e he hin
        have he' : e = str := by simpa using he
        subst he'
        obtain ⟨j, hj, hpre⟩ := prefix_drop_of_infix hin
        exact hno j (by omega) hj hpre
      · have := countOccurrences_no_prefix d str.length str (Nat.le_refl _)
          (fun j hj => hno j (by omega) (by omega))
        rw [this]
        simp [countOccurrences]
    | some p =>
      obtain ⟨_, hple, hpre, hmin⟩ := StdString.find_eq_some hf
      have hfit : p + d.length ≤ str.length := by
        rcases occurrence_fits hpre with h1 | h1
        · exact h1
        · exact absurd h1 hd
      have hsub : StdString.substr str 0 p = some (str.take p) := by
        simp [StdString.substr]
      have hrest : StdString.substrFrom str (p + d.length) = some (str.drop (p + d.length)) := by
        have : ¬ p + d.length > str.length := by omega
        simp [StdString.substrFrom, this]
      obtain ⟨parts, hloop, hne, hjoin, hinfix, hcount⟩ :=
        ih (str.drop (p + d.length)) (result ++ [str.take p])
          (by rw [List.length_drop]; omega)
      refine ⟨str.take p :: parts, ?_, by simp, ?_, ?_, ?_⟩
      · simp only [split_transformed_loop, hsub, hrest, id]
        rw [hloop]
        simp
      · cases parts with
        | nil => exact absurd rfl hne
        | cons b l =>
          rw [intercalate_cons_cons, hjoin]
          exact split_at_occurrence hpre
      · intro e he
        rcases List.mem_cons.mp he with h1 | h1
        · subst h1
          intro hin
          obtain ⟨j, hj, hpj⟩ := prefix_drop_of_infix hin
          by_cases hjp : j < p
          · exact hmin j (by omega) hjp (prefix_drop_of_take hpj)
          · have hnil : (str.take p).drop j = [] := by
              apply List.drop_eq_nil_of_le
              rw [List.length_take]
              omega
            rw [hnil] at hpj
            have : d = [] := by simpa using hpj
            exact hd this
        · exact hinfix e h1
      · have h1 := countOccurrences_no_prefix d p str hple (fun j hj => hmin j (by omega) hj)
        have h2 := countOccurrences_prefix hd hpre
        rw [List.drop_drop] at h2
        simp only [List.length_cons]
        rw [hcount, h1, h2]
        omega

end StringUtils

/-- C21: for every string `str` and every non-empty delimiter `d`, `StringUtils::split(str, d)`
returns (every bound above the length of `str` on the turns of its loop suffices) a non-empty
list whose elements joined with `d` equal `str`; no element contains `d` as a substring, and
the list has one more element than there are left-to-right non-overlapping occurrences of `d`
in `str`. For the empty delimiter it returns one single-character string per character of
`str`. -/
theorem split_joins_back (fuel : Nat) (str d : List Byte) (hfuel : str.length < fuel) :
    (d ≠ [] →
      ∃ parts, StringUtils.split fuel str d = some parts ∧ parts ≠ [] ∧
        List.intercalate d parts = str ∧ (∀ e ∈ parts, ¬ d <:+: e) ∧
        parts.length = StringUtils.countOccurrences d str 0 + 1) ∧
    StringUtils.split fuel str [] = some (str.map (fun c => [c])) := by
  constructor
  · intro hd
    have hemp : d.isEmpty = false := by
      cases d with
      | nil => exact absurd rfl hd
      | cons c cs => rfl
    obtain ⟨parts, hloop, hne, hjoin, hinfix, hcount⟩ :=
      StringUtils.split_transformed_loop_spec d hd fuel str [] hfuel
    refine ⟨parts, ?_, hne, hjoin, hinfix, hcount⟩
    simp only [StringUtils.split, StringUtils.split_transformed, hemp, Bool.false_eq_true, if_false]
    cases hf : StdString.find str d 0 with
    | none =>
      rw [hf] at hloop
      obtain ⟨n, rfl⟩ : ∃ n, fuel = n + 1 := ⟨fuel - 1, by omega⟩
      simpa [StringUtils.split_transformed_loop] using hloop
    | some p =>
      rw [hf] at hloop
      simpa using hloop
  · simp [StringUtils.split, StringUtils.split_transformed]

/-- C21, witness: "a,b,,c" split at "," gives "a", "b", "", "c". -/
theorem split_joins_back_witness :
    (bytesOf "a,b,,c").length < 7 ∧ bytesOf "," ≠ [] ∧
    StringUtils.split 7 (bytesOf "a,b,,c") (bytesOf ",")
      = some [bytesOf "a", bytesOf "b", bytesOf "", bytesOf "c"] ∧
    ∃ parts, StringUtils.split 7 (bytesOf "a,b,,c") (bytesOf ",") = some parts ∧ parts ≠ [] ∧
      List.intercalate (bytesOf ",") parts = bytesOf "a,b,,c" ∧
      (∀ e ∈ parts, ¬ bytesOf "," <:+: e) ∧
      parts.length = StringUtils.countOccurrences (bytesOf ",") (bytesOf "a,b,,c") 0 + 1 :=
  ⟨by decide, by decide, by decide,
    (split_joins_back 7 (bytesOf "a,b,,c") (bytesOf ",") (by decide)).1 (by decide)⟩

/-! ## `replaceAll` and `replaceEnvironmentVariables` -/

namespace StringUtils

theorem replaceAll_loop_returns (from_string to_string : List Byte) :
    ∀ (fuel : Nat) (source_string : List Byte) (loc : Nat),
      source_string.length + 2 - loc < fuel →
      ∃ r, replaceAll_loop from_string to_string fuel source_string loc = some r := by
  intro fuel
  induction fuel with
  | zero => intro s loc h; omega
  | succ n ih =>
    intro s loc hfuel
    cases hf : StdString.find s from_string loc with
    | none => exact ⟨s, by simp [replaceAll_loop, hf]⟩
    | some p =>
      obtain ⟨hlp, hple, hpre, _⟩ := StdString.find_eq_some hf
      have hrep : StdString.replace s p from_string.length to_string
          = some (s.take p ++ to_string ++ s.drop (p + from_string.length)) := by
        have : ¬ p > s.length := by omega
        simp [StdString.replace, this]
      simp only [replaceAll_loop, hf, hrep]
      apply ih
      have hlen : (s.take p ++ to_string ++ s.drop (p + from_string.length)).length
          = p + to_string.length + (s.length - (p + from_string.length)) := by
        simp [List.length_append, List.length_take, List.length_drop]
        omega
      rw [hlen]
      by_cases he : from_string = []
      · subst he
        simp only [List.isEmpty_nil, if_true, List.length_nil]
        omega
      · have hemp : from_string.isEmpty = false := by
          cases from_string with
          | nil => exact absurd rfl he
          | cons c cs => rfl
        have hfit : p + from_string.length ≤ s.length := by
          rcases occurrence_fits hpre with h1 | h1
          · exact h1
          · exact absurd h1 he
        have hpos : 0 < from_string.length := List.length_pos.mpr he
        simp only [hemp, Bool.false_eq_true, if_false]
        omega

/-- The loop of `replaceAll` ends for every input: the bound built into `replaceAll` is never
reached. -/
theorem replaceAll_returns (source_string from_string to_string : List Byte) :
    ∃ r, replaceAll source_string from_string to_string = some r :=
  replaceAll_loop_returns from_string to_string _ source_string 0 (by omega)

end StringUtils

/-- C22: what the code does where the claim fails. With `A=x` in the environment, the source
`\${A} ${A}` (an escaped and an unescaped reference to the same name) becomes `\x x` (for every
bound of at least three passes): the escaped reference is substituted as well and its backslash
is left behind, instead of the literal `${A} x`. A source with the escaped reference alone
becomes the literal `${A}`. -/
theorem replaceEnvironmentVariables_substitutes_escaped (n : Nat) :
    StringUtils.replaceEnvironmentVariables
        (fun name => if name = bytesOf "A" then bytesOf "x" else []) (n + 3)
        (bytesOf "\\$\x7bA\x7d $\x7bA\x7d") = some (bytesOf "\\x x") ∧
    bytesOf "\\x x" ≠ bytesOf "$\x7bA\x7d x" ∧
    StringUtils.replaceEnvironmentVariables
        (fun name => if name = bytesOf "A" then bytesOf "x" else []) (n + 3)
        (bytesOf "\\$\x7bA\x7d") = some (bytesOf "$\x7bA\x7d") := by
  refine ⟨?_, by decide, ?_⟩
  · rfl
  · rfl

theorem replaceEnvironmentVariables_loop_self_reference :
    ∀ fuel : Nat, StringUtils.replaceEnvironmentVariables_loop
        (fun name => if name = bytesOf "X" then bytesOf "$\x7bX\x7d" else []) fuel
        (bytesOf "$\x7bX\x7d") 0 = none := by
  intro fuel
  induction fuel with
  | zero => rfl
  | succ n ih =>
    have step : StringUtils.replaceEnvironmentVariables_loop
        (fun name => if name = bytesOf "X" then bytesOf "$\x7bX\x7d" else []) (n + 1)
        (bytesOf "$\x7bX\x7d") 0
        = StringUtils.replaceEnvironmentVariables_loop
        (fun name => if name = bytesOf "X" then bytesOf "$\x7bX\x7d" else []) n
        (bytesOf "$\x7bX\x7d") 0 := rfl
    rw [step, ih]

/-- C23: what the code does where the claim fails. With `X=${X}` in the environment (the value
refers to the variable itself), `replaceEnvironmentVariables("${X}")` does not return within
any number of passes through its loop: each pass replaces `${X}` by `${X}`, nothing throws, and
the loop starts again at position 0 with the same string. -/
theorem replaceEnvironmentVariables_self_reference_loops (fuel : Nat) :
    StringUtils.replaceEnvironmentVariables
        (fun name => if name = bytesOf "X" then bytesOf "$\x7bX\x7d" else []) fuel
        (bytesOf "$\x7bX\x7d") = none ∧
    StringUtils.replaceEnvironmentVariables_loop
        (fun name => if name = bytesOf "X" then bytesOf "$\x7bX\x7d" else []) (fuel + 1)
        (bytesOf "$\x7bX\x7d") 0
      = StringUtils.replaceEnvironmentVariables_loop
        (fun name => if name = bytesOf "X" then bytesOf "$\x7bX\x7d" else []) fuel
        (bytesOf "$\x7bX\x7d") 0 ∧
    StringUtils.replaceAll (bytesOf "$\x7bX\x7d") (bytesOf "$\x7bX\x7d") (bytesOf "$\x7bX\x7d")
      = some (bytesOf "$\x7bX\x7d") := by
  refine ⟨?_, rfl, by decide⟩
  simp only [StringUtils.replaceEnvironmentVariables,
    replaceEnvironmentVariables_loop_self_reference fuel]

/-! ## `replaceMap`: applying the replacements from right to left -/

namespace StringUtils

theorem replaceMap_apply_snoc (rs : List Replacement) (r : Replacement) :
    ∀ s : List Byte, replaceMap_apply (rs ++ [r]) s s
      = (replaceMap_apply rs s s).bind (fun s' => StdString.replace s' r.pos r.len r.value) := by
  induction rs with
  | nil =>
    intro s
    simp only [List.nil_append, replaceMap_apply, Option.some_bind]
    cases StdString.replace s r.pos r.len r.value with
    | none => rfl
    | some x => rfl
  | cons a rs ih =>
    intro s
    simp only [List.cons_append, replaceMap_apply]
    cases StdString.replace s a.pos a.len a.value with
    | none => rfl
    | some x => exact ih x

theorem scanReplacements_skip (m : List (List Byte × List Byte)) :
    ∀ (t : List Byte) (skip pos : Nat),
      scanReplacements m t skip pos = scanReplacements m (t.drop skip) 0 (pos + skip) := by
  intro t
  induction t with
  | nil => intro skip pos; simp [scanReplacements]
  | cons c cs ih =>
    intro skip pos
    cases skip with
    | zero => rfl
    | succ k =>
      simp only [scanReplacements, List.drop_succ_cons]
      rw [ih k (pos + 1)]
      have : pos + 1 + k = pos + (k + 1) := by omega
      rw [this]

theorem simultaneousReplace_skip (m : List (List Byte × List Byte)) :
    ∀ (t : List Byte) (skip : Nat),
      simultaneousReplace m t skip = simultaneousReplace m (t.drop skip) 0 := by
  intro t
  induction t with
  | nil => intro skip; simp [simultaneousReplace]
  | cons c cs ih =>
    intro skip
    cases skip with
    | zero => rfl
    | succ k => simp only [simultaneousReplace, List.drop_succ_cons]; exact ih k

theorem matchAt_some {m : List (List Byte × List Byte)} {t : List Byte}
    {e : List Byte × List Byte} (h : matchAt m t = some e) : e ∈ m ∧ e.1 <+: t := by
  unfold matchAt at h
  exact ⟨List.mem_of_find?_eq_some h,
    List.isPrefixOf_iff_prefix.mp (by simpa using List.find?_some h)⟩

theorem matchAt_none {m : List (List Byte × List Byte)} {t : List Byte}
    (h : matchAt m t = none) : ∀ e ∈ m, ¬ e.1 <+: t := by
  unfold matchAt at h
  intro e he hpre
  have := List.find?_eq_none.mp h e he
  exact this (by simpa using List.isPrefixOf_iff_prefix.mpr hpre)

theorem drop_pred_of_cons {c : Byte} {cs : List Byte} {n : Nat} (hn : 0 < n) :
    cs.drop (n - 1) = (c :: cs).drop n := by
  obtain ⟨k, rfl⟩ : ∃ k, n = k + 1 := ⟨n - 1, by omega⟩
  simp

theorem replaceMap_apply_scan (m : List (List Byte × List Byte)) (hkeys : ∀ e ∈ m, e.1 ≠ []) :
    ∀ (n : Nat) (t pre : List Byte), t.length ≤ n →
      replaceMap_apply ((scanReplacements m t 0 pre.length).reverse) (pre ++ t) (pre ++ t)
        = some (pre ++ simultaneousReplace m t 0) := by
  intro n
  induction n with
  | zero =>
    intro t pre ht
    have : t = [] := List.length_eq_zero.mp (by omega)
    subst this
    simp [scanReplacements, simultaneousReplace, replaceMap_apply]
  | succ n ih =>
    intro t pre ht
    cases t with
    | nil => simp [scanReplacements, simultaneousReplace, replaceMap_apply]
    | cons c cs =>
      cases hm : matchAt m (c :: cs) with
      | none =>
        simp only [scanReplacements, simultaneousReplace, hm]
        have := ih cs (pre ++ [c]) (by simpa using ht)
        simpa [List.append_assoc] using this
      | some e =>
        obtain ⟨hem, hpre⟩ := matchAt_some hm
        have hne := hkeys e hem
        have hpos : 0 < e.1.length := List.length_pos.mpr hne
        obtain ⟨rest, hrest⟩ := hpre
        have hdrop : cs.drop (e.1.length - 1) = rest := by
          rw [drop_pred_of_cons (c := c) hpos, ← hrest]
          simp
        have hlen : rest.length ≤ n := by
          have h1 : (c :: cs).length = e.1.length + rest.length := by rw [← hrest]; simp
          simp only [List.length_cons] at ht h1
          omega
        simp only [scanReplacements, simultaneousReplace, hm, List.reverse_cons]
        rw [scanReplacements_skip m cs (e.1.length - 1), simultaneousReplace_skip m cs, hdrop,
          replaceMap_apply_snoc]
        have hp : pre.length + 1 + (e.1.length - 1) = (pre ++ e.1).length := by
          simp only [List.length_append]
          omega
        have hs : pre ++ c :: cs = (pre ++ e.1) ++ rest := by
          rw [← hrest, List.append_assoc]
        have := ih rest (pre ++ e.1) hlen
        rw [hp, hs, this]
        have hnot : ¬ pre.length > (pre ++ e.1 ++ simultaneousReplace m rest 0).length := by
          simp only [List.length_append]
          omega
        simp only [Option.some_bind, StdString.replace, hnot, if_false]
        congr 1
        have h1 : (pre ++ e.1 ++ simultaneousReplace m rest 0).take pre.length = pre := by
          rw [List.append_assoc, List.take_left]
        have h2 : (pre ++ e.1 ++ simultaneousReplace m rest 0).drop (pre.length + e.1.length)
            = simultaneousReplace m rest 0 := by
          have : pre.length + e.1.length = (pre ++ e.1).length := by simp
          rw [this, List.drop_left]
        rw [h1, h2, List.append_assoc]

end StringUtils

/-! ## `replaceMap`: the replacements of the left-to-right reading -/

namespace StringUtils

theorem prefix_nil_of_drop_ge {k s : List Byte} {p : Nat} (hk : k ≠ []) (h : k <+: s.drop p) :
    p < s.length := by
  by_cases hp : p < s.length
  · exact hp
  · have : s.drop p = [] := List.drop_eq_nil_of_le (by omega)
    rw [this] at h
    exact absurd (by simpa using h) hk

theorem nonOverlapping_sound (m : List (List Byte × List Byte)) (s : List Byte)
    (hkeys : ∀ e ∈ m, e.1 ≠ []) (h : nonOverlapping m s = true) : NonOverlapping m s := by
  intro a ha b hb p q hpa hqb
  have hp := prefix_nil_of_drop_ge (hkeys a ha) hpa
  have hq := prefix_nil_of_drop_ge (hkeys b hb) hqb
  unfold nonOverlapping at h
  have h1 := List.all_eq_true.mp h a ha
  have h2 := List.all_eq_true.mp h1 b hb
  have h3 := List.all_eq_true.mp h2 p (List.mem_range.mpr hp)
  have h4 := List.all_eq_true.mp h3 q (List.mem_range.mpr hq)
  have ha' : a.1.isPrefixOf (s.drop p) = true := List.isPrefixOf_iff_prefix.mpr hpa
  have hb' : b.1.isPrefixOf (s.drop q) = true := List.isPrefixOf_iff_prefix.mpr hqb
  simp only [ha', hb', Bool.not_true, Bool.false_or, Bool.or_eq_true, Bool.and_eq_true,
    decide_eq_true_eq] at h4
  rcases h4 with (h5 | h5) | h5
  · exact Or.inl h5
  · exact Or.inr (Or.inl h5)
  · exact Or.inr (Or.inr h5)

theorem drop_succ_of_drop_cons {s cs : List Byte} {c : Byte} {pos : Nat}
    (h : s.drop pos = c :: cs) : s.drop (pos + 1) = cs := by
  have : (s.drop pos).drop 1 = cs := by rw [h]; rfl
  rw [List.drop_drop] at this
  exact this

theorem scanReplacements_lower (m : List (List Byte × List Byte)) :
    ∀ (t : List Byte) (skip pos : Nat), ∀ r ∈ scanReplacements m t skip pos,
      pos + skip ≤ r.pos := by
  intro t
  induction t with
  | nil => intro skip pos r hr; simp [scanReplacements] at hr
  | cons c cs ih =>
    intro skip pos r hr
    cases skip with
    | succ k =>
      simp only [scanReplacements] at hr
      have := ih k (pos + 1) r hr
      omega
    | zero =>
      cases hm : matchAt m (c :: cs) with
      | none =>
        simp only [scanReplacements, hm] at hr
        have := ih 0 (pos + 1) r hr
        omega
      | some e =>
        simp only [scanReplacements, hm, List.mem_cons] at hr
        rcases hr with h1 | h1
        · rw [h1]
          simp
        · have := ih _ (pos + 1) r h1
          omega

theorem scanReplacements_sorted (m : List (List Byte × List Byte)) :
    ∀ (t : List Byte) (skip pos : Nat),
      List.Pairwise (fun a b : Replacement => a.pos < b.pos) (scanReplacements m t skip pos) := by
  intro t
  induction t with
  | nil => intro skip pos; simp [scanReplacements]
  | cons c cs ih =>
    intro skip pos
    cases skip with
    | succ k => simp only [scanReplacements]; exact ih k (pos + 1)
    | zero =>
      cases hm : matchAt m (c :: cs) with
      | none => simp only [scanReplacements, hm]; exact ih 0 (pos + 1)
      | some e =>
        simp only [scanReplacements, hm]
        apply List.Pairwise.cons
        · intro r hr
          have := scanReplacements_lower m cs _ (pos + 1) r hr
          show pos < r.pos
          omega
        · exact ih _ (pos + 1)

theorem scanReplacements_sound (m : List (List Byte × List Byte)) (s : List Byte) :
    ∀ (t : List Byte) (skip pos : Nat), s.drop pos = t →
      ∀ r ∈ scanReplacements m t skip pos, occursAt m s r := by
  intro t
  induction t with
  | nil => intro skip pos _ r hr; simp [scanReplacements] at hr
  | cons c cs ih =>
    intro skip pos hs r hr
    have hs' := drop_succ_of_drop_cons hs
    cases skip with
    | succ k =>
      simp only [scanReplacements] at hr
      exact ih k (pos + 1) hs' r hr
    | zero =>
      cases hm : matchAt m (c :: cs) with
      | none =>
        simp only [scanReplacements, hm] at hr
        exact ih 0 (pos + 1) hs' r hr
      | some e =>
        simp only [scanReplacements, hm, List.mem_cons] at hr
        rcases hr with h1 | h1
        · obtain ⟨hem, hpre⟩ := matchAt_some hm
          refine ⟨e, hem, ?_, by rw [h1], by rw [h1]⟩
          rw [h1]
          show e.1 <+: s.drop pos
          rw [hs]
          exact hpre
        · exact ih _ (pos + 1) hs' r h1

theorem scanReplacements_complete (m : List (List Byte × List Byte)) (s : List Byte)
    (hkeys : ∀ e ∈ m, e.1 ≠ []) (hnodup : (m.map Prod.fst).Nodup) (hno : NonOverlapping m s) :
    ∀ (t : List Byte) (skip pos : Nat), s.drop pos = t →
      ∀ r, occursAt m s r → pos + skip ≤ r.pos → r ∈ scanReplacements m t skip pos := by
  intro t
  induction t with
  | nil =>
    intro skip pos hs r hocc hle
    obtain ⟨e, hem, hpre, _, _⟩ := hocc
    have h1 := prefix_nil_of_drop_ge (hkeys e hem) hpre
    have h2 : s.length ≤ pos := by
      by_contra hc
      have : 0 < (s.drop pos).length := by rw [List.length_drop]; omega
      rw [hs] at this
      simp at this
    omega
  | cons c cs ih =>
    intro skip pos hs r hocc hle
    have hs' := drop_succ_of_drop_cons hs
    cases skip with
    | succ k =>
      simp only [scanReplacements]
      exact ih k (pos + 1) hs' r hocc (by omega)
    | zero =>
      obtain ⟨e, hem, hpre, hlen, hval⟩ := hocc
      cases hm : matchAt m (c :: cs) with
      | none =>
        simp only [scanReplacements, hm]
        apply ih 0 (pos + 1) hs' r ⟨e, hem, hpre, hlen, hval⟩
        by_contra hc
        have hrp : r.pos = pos := by omega
        rw [hrp, hs] at hpre
        exact matchAt_none hm e hem hpre
      | some e0 =>
        obtain ⟨he0m, he0pre⟩ := matchAt_some hm
        rw [← hs] at he0pre
        simp only [scanReplacements, hm, List.mem_cons]
        have hpos0 : 0 < e0.1.length := List.length_pos.mpr (hkeys e0 he0m)
        have hposE : 0 < e.1.length := List.length_pos.mpr (hkeys e hem)
        rcases hno e0 he0m e hem pos r.pos he0pre hpre with h1 | h1 | h1
        · left
          have hee : e0 = e := List.inj_on_of_nodup_map hnodup he0m hem h1.2
          cases r with
          | mk rp rl rv =>
            simp only at h1 hlen hval
            simp only [Replacement.mk.injEq]
            refine ⟨h1.1.symm, ?_, ?_⟩
            · rw [hlen, hee]
            · rw [hval, hee]
        · right
          exact ih _ (pos + 1) hs' r ⟨e, hem, hpre, hlen, hval⟩ (by omega)
        · omega

end StringUtils

/-! ## `replaceMap`: the replacements found by the search loops -/

namespace StringUtils

theorem replaceMap_find_spec (s k v : List Byte) (hk : k ≠ [])
    (hself : ∀ p q : Nat, k <+: s.drop p → k <+: s.drop q →
      p = q ∨ p + k.length ≤ q ∨ q + k.length ≤ p) :
    ∀ (fuel q : Nat) (acc : List Replacement), s.length + 1 - q < fuel →
      ∃ found, replaceMap_find s k v fuel q acc = some (acc ++ found) ∧
        (∀ r ∈ found, q ≤ r.pos ∧ k <+: s.drop r.pos ∧ r.len = k.length ∧ r.value = v) ∧
        (∀ p, q ≤ p → k <+: s.drop p →
          ({ pos := p, len := k.length, value := v } : Replacement) ∈ found) ∧
        List.Pairwise (fun a b : Replacement => a.pos ≠ b.pos) found := by
  have hkpos : 0 < k.length := List.length_pos.mpr hk
  intro fuel
  induction fuel with
  | zero => intro q acc h; omega
  | succ n ih =>
    intro q acc hfuel
    cases hf : StdString.find s k q with
    | none =>
      refine ⟨[], by simp [replaceMap_find, hf], by simp, ?_, List.Pairwise.nil⟩
      intro p hqp hpre
      have hp := prefix_nil_of_drop_ge hk hpre
      exact absurd hpre (StdString.find_eq_none hf p hqp (by omega))
    | some p0 =>
      obtain ⟨hq0, hp0le, hp0pre, hmin⟩ := StdString.find_eq_some hf
      have hfit : p0 + k.length ≤ s.length := by
        rcases occurrence_fits hp0pre with h1 | h1
        · exact h1
        · exact absurd h1 hk
      obtain ⟨found, hloop, hsound, hcomplete, hpair⟩ :=
        ih (p0 + k.length) (acc ++ [{ pos := p0, len := k.length, value := v }]) (by omega)
      refine ⟨{ pos := p0, len := k.length, value := v } :: found, ?_, ?_, ?_, ?_⟩
      · simp only [replaceMap_find, hf]
        rw [hloop]
        simp
      · intro r hr
        rcases List.mem_cons.mp hr with h1 | h1
        · rw [h1]
          exact ⟨hq0, hp0pre, rfl, rfl⟩
        · obtain ⟨h2, h3, h4, h5⟩ := hsound r h1
          exact ⟨by omega, h3, h4, h5⟩
      · intro p hqp hpre
        rcases hself p0 p hp0pre hpre with h1 | h1 | h1
        · rw [← h1]
          exact List.mem_cons_self _ _
        · exact List.mem_cons_of_mem _ (hcomplete p h1 hpre)
        · exfalso
          have hlt : p < p0 := by omega
          exact hmin p hqp hlt hpre
      · apply List.Pairwise.cons
        · intro r hr
          have := (hsound r hr).1
          show p0 ≠ r.pos
          omega
        · exact hpair

theorem occursAt_cons {e : List Byte × List Byte} {rest : List (List Byte × List Byte)}
    {s : List Byte} {r : Replacement} :
    occursAt (e :: rest) s r ↔
      (e.1 <+: s.drop r.pos ∧ r.len = e.1.length ∧ r.value = e.2) ∨ occursAt rest s r := by
  unfold occursAt
  constructor
  · rintro ⟨x, hx, h⟩
    rcases List.mem_cons.mp hx with h1 | h1
    · left; rw [← h1]; exact h
    · right; exact ⟨x, h1, h⟩
  · rintro (h | ⟨x, hx, h⟩)
    · exact ⟨e, List.mem_cons_self _ _, h⟩
    · exact ⟨x, List.mem_cons_of_mem _ hx, h⟩

theorem replaceMap_collect_spec (m : List (List Byte × List Byte)) (s : List Byte)
    (hkeys : ∀ e ∈ m, e.1 ≠ []) (hno : NonOverlapping m s) (fuel : Nat)
    (hfuel : s.length + 1 < fuel) :
    ∀ (entries : List (List Byte × List Byte)) (acc : List Replacement),
      (∀ e ∈ entries, e ∈ m) → (entries.map Prod.fst).Nodup →
      ∃ found, replaceMap_collect fuel s entries acc = some (acc ++ found) ∧
        (∀ r, r ∈ found ↔ occursAt entries s r) ∧
        List.Pairwise (fun a b : Replacement => a.pos ≠ b.pos) found := by
  intro entries
  induction entries with
  | nil =>
    intro acc _ _
    refine ⟨[], by simp [replaceMap_collect], ?_, List.Pairwise.nil⟩
    intro r
    simp [occursAt]
  | cons e rest ih =>
    intro acc hsub hnd
    have hem : e ∈ m := hsub e (List.mem_cons_self _ _)
    have hself : ∀ p q : Nat, e.1 <+: s.drop p → e.1 <+: s.drop q →
        p = q ∨ p + e.1.length ≤ q ∨ q + e.1.length ≤ p := by
      intro p q hp hq
      rcases hno e hem e hem p q hp hq with h1 | h1 | h1
      · exact Or.inl h1.1
      · exact Or.inr (Or.inl h1)
      · exact Or.inr (Or.inr h1)
    obtain ⟨found1, hfind, hsound, hcomplete, hpair1⟩ :=
      replaceMap_find_spec s e.1 e.2 (hkeys e hem) hself fuel 0 acc (by omega)
    have hnd' : (rest.map Prod.fst).Nodup := (List.nodup_cons.mp hnd).2
    have hnotin : e.1 ∉ rest.map Prod.fst := (List.nodup_cons.mp hnd).1
    obtain ⟨found2, hcollect, hmem2, hpair2⟩ :=
      ih (acc ++ found1) (fun x hx => hsub x (List.mem_cons_of_mem _ hx)) hnd'
    refine ⟨found1 ++ found2, ?_, ?_, ?_⟩
    · simp only [replaceMap_collect, hfind]
      rw [hcollect, List.append_assoc]
    · intro r
      rw [List.mem_append, occursAt_cons, hmem2]
      constructor
      · rintro (h | h)
        · obtain ⟨_, h2, h3, h4⟩ := hsound r h
          exact Or.inl ⟨h2, h3, h4⟩
        · exact Or.inr h
      · rintro (⟨h2, h3, h4⟩ | h)
        · left
          have := hcomplete r.pos (Nat.zero_le _) h2
          cases r with
          | mk rp rl rv =>
            simp only at h3 h4 this
            rw [h3, h4]
            exact this
        · exact Or.inr h
    · rw [List.pairwise_append]
      refine ⟨hpair1, hpair2, ?_⟩
      intro a ha b hb hab
      obtain ⟨_, ha2, _, _⟩ := hsound a ha
      obtain ⟨x, hx, hb2, _, _⟩ := (hmem2 b).mp hb
      have hxm : x ∈ m := hsub x (List.mem_cons_of_mem _ hx)
      have hposE : 0 < e.1.length := List.length_pos.mpr (hkeys e hem)
      have hposX : 0 < x.1.length := List.length_pos.mpr (hkeys x hxm)
      rcases hno e hem x hxm a.pos b.pos ha2 hb2 with h1 | h1 | h1
      · apply hnotin
        rw [h1.2]
        exact List.mem_map_of_mem _ hx
      · omega
      · omega

end StringUtils

/-! ## `replaceMap` replaces all occurrences at once -/

namespace StringUtils

theorem nodup_of_pairwise_pos_ne {l : List Replacement}
    (h : List.Pairwise (fun a b : Replacement => a.pos ≠ b.pos) l) : l.Nodup :=
  List.Pairwise.imp (fun {a b} hab heq => hab (by rw [heq])) h

theorem replaceMap_sort_eq_scan (m : List (List Byte × List Byte)) (s : List Byte)
    (hkeys : ∀ e ∈ m, e.1 ≠ []) (hnodup : (m.map Prod.fst).Nodup) (hno : NonOverlapping m s)
    (found : List Replacement) (hmem : ∀ r, r ∈ found ↔ occursAt m s r)
    (hpair : List.Pairwise (fun a b : Replacement => a.pos ≠ b.pos) found) :
    replaceMap_sort found = (scanReplacements m s 0 0).reverse := by
  have hscan_sorted := scanReplacements_sorted m s 0 0
  have hscan_pair : List.Pairwise (fun a b : Replacement => a.pos ≠ b.pos)
      (scanReplacements m s 0 0) :=
    List.Pairwise.imp (fun {a b : Replacement} (hab : a.pos < b.pos) => Nat.ne_of_lt hab)
      hscan_sorted
  have hperm : found.Perm (scanReplacements m s 0 0) := by
    apply (List.perm_ext_iff_of_nodup (nodup_of_pairwise_pos_ne hpair)
      (nodup_of_pairwise_pos_ne hscan_pair)).mpr
    intro r
    rw [hmem]
    constructor
    · intro hocc
      exact scanReplacements_complete m s hkeys hnodup hno s 0 0 rfl r hocc (Nat.zero_le _)
    · intro hr
      exact scanReplacements_sound m s s 0 0 rfl r hr
  have hsortperm : (replaceMap_sort found).Perm found := List.perm_insertionSort _ _
  have hsorted : List.Sorted Replacement.before (replaceMap_sort found) :=
    List.sorted_insertionSort _ _
  have hsortpair : List.Pairwise (fun a b : Replacement => a.pos ≠ b.pos)
      (replaceMap_sort found) :=
    List.Perm.pairwise hsortperm.symm hpair (fun {x y : Replacement} h => Ne.symm h)
  have habove1 : List.Sorted Replacement.above (replaceMap_sort found) := by
    have := List.Pairwise.and hsorted hsortpair
    exact List.Pairwise.imp (fun {a b} hab => by
      have h1 : b.pos ≤ a.pos := hab.1
      have h2 : a.pos ≠ b.pos := hab.2
      show b.pos < a.pos
      omega) this
  have habove2 : List.Sorted Replacement.above (scanReplacements m s 0 0).reverse := by
    apply List.pairwise_reverse.mpr
    exact hscan_sorted
  exact List.eq_of_perm_of_sorted
    ((hsortperm.trans hperm).trans (List.reverse_perm _).symm) habove1 habove2

end StringUtils

/-- C25: for every source string and every replacement map (a `std::map`: its keys are pairwise
different) whose keys are all non-empty and whose occurrences in the source do not overlap one
another, `replaceMap` returns (every bound above the length of the source plus one on the turns
of its search loops suffices, and no `replace` throws) the source with every occurrence of every
key replaced by that key's value simultaneously, as one left-to-right reading of the source
produces it: inserted text is never matched or replaced. -/
theorem replaceMap_replaces_simultaneously (fuel : Nat) (source_string : List Byte)
    (replace_map : List (List Byte × List Byte)) (hfuel : source_string.length + 1 < fuel)
    (hkeys : ∀ e ∈ replace_map, e.1 ≠ []) (hnodup : (replace_map.map Prod.fst).Nodup)
    (hno : StringUtils.NonOverlapping replace_map source_string) :
    StringUtils.replaceMap fuel source_string replace_map
      = some (StringUtils.simultaneousReplace replace_map source_string 0) := by
  obtain ⟨found, hcollect, hmem, hpair⟩ :=
    StringUtils.replaceMap_collect_spec replace_map source_string hkeys hno fuel hfuel
      replace_map [] (fun _ h => h) hnodup
  have hsort := StringUtils.replaceMap_sort_eq_scan replace_map source_string hkeys hnodup hno
    found hmem hpair
  have happly := StringUtils.replaceMap_apply_scan replace_map hkeys source_string.length
    source_string [] (Nat.le_refl _)
  simp only [List.nil_append, List.length_nil] at hcollect happly
  simp only [StringUtils.replaceMap, hcollect, hsort]
  exact happly

/-- C25, witness: the map that sends "a" to "b" and "b" to "a" swaps the two letters of
"abba". -/
theorem replaceMap_replaces_simultaneously_witness :
    StringUtils.NonOverlapping [(bytesOf "a", bytesOf "b"), (bytesOf "b", bytesOf "a")]
      (bytesOf "abba") ∧
    StringUtils.simultaneousReplace [(bytesOf "a", bytesOf "b"), (bytesOf "b", bytesOf "a")]
      (bytesOf "abba") 0 = bytesOf "baab" ∧
    StringUtils.replaceMap 6 (bytesOf "abba")
        [(bytesOf "a", bytesOf "b"), (bytesOf "b", bytesOf "a")]
      = some (StringUtils.simultaneousReplace
          [(bytesOf "a", bytesOf "b"), (bytesOf "b", bytesOf "a")] (bytesOf "abba") 0) :=
  ⟨StringUtils.nonOverlapping_sound _ _ (by decide) (by decide), by decide,
    replaceMap_replaces_simultaneously 6 (bytesOf "abba")
      [(bytesOf "a", bytesOf "b"), (bytesOf "b", bytesOf "a")] (by decide) (by decide)
      (by decide) (StringUtils.nonOverlapping_sound _ _ (by decide) (by decide))⟩
end Minifi
